import Mathlib

/-!
# Heap allocator of karel-maze (`src/lib/malloc.c`, `src/lib/backtrace.c`)

A shallow embedding of the allocator and of the stack unwinder it calls.

* Memory is a byte map over 32-bit addresses; words are little-endian. The headers
  of the blocks live in this memory, as in the C code.
* Pointers and `size_t` / `unsigned int` values are naturals below `2^32`;
  every C operation that can wrap is written with an explicit `% 2^32`.
* The globals `heap_start`, `heap_end`, `heap_usage`, `num_allocs`,
  `num_frees`, `total_bytes` are fields of `State`. The ledger `heap_usage` is a
  map from indices to entries: a store at an index beyond the declared length
  `LEDGER_LEN` is recorded at that index, the model does not say which other
  object such a store lands on. What is proved of the state left by a successful
  `malloc` is therefore stated for `num_allocs < LEDGER_LEN`. The counters `num_allocs` and `num_frees` are
  naturals (their `int` range is not reached before the ledger is full).
* The `while` loops of `find_space` and `free` take a fuel argument; `none`
  means that the loop did not finish within the fuel.
* The stack pointer read by `sbrk` and the frame pointer read by `backtrace`
  are inputs of a call (`Env`).

The game engine (`src/lib/karel_world.c`) is embedded in the namespace `Karel`:
the globals `karel` and `beeper` are the fields of `World`, the move returned by
`accel_read_move` is an input of `update_karel_world`, and a read of `board`
outside the array makes the call fail.

The string functions (`src/lib/strings.c`, `unsigned_to_base` of
`src/lib/printf.c`) are embedded in the namespace `Strings` and the text console
(`src/lib/console.c`) in the namespace `Console`. There an array is the list of
its bytes from the pointer on, and a read or a store outside the list makes the
call fail.
-/

namespace Malloc

/-! ## Memory -/

/-- Byte-addressed memory: the byte stored at each address. -/
abbrev Mem := Nat → Nat

/-- Number of distinct 32-bit values. -/
def WORD : Nat := 4294967296

/-- Load of one byte (`char`). -/
def read8 (m : Mem) (a : Nat) : Nat := m (a % WORD) % 256

/-- Store of one byte. -/
def write8 (m : Mem) (a v : Nat) : Mem :=
  fun x => if x = a % WORD then v % 256 else m x

/-- Load of a 32-bit little-endian word. -/
def read32 (m : Mem) (a : Nat) : Nat :=
  read8 m a + 256 * read8 m (a + 1) + 65536 * read8 m (a + 2) + 16777216 * read8 m (a + 3)

/-- Store of a 32-bit little-endian word. -/
def write32 (m : Mem) (a v : Nat) : Mem :=
  write8 (write8 (write8 (write8 m a v) (a + 1) (v / 256)) (a + 2) (v / 65536))
    (a + 3) (v / 16777216)

/-- The library routine `memset(dst, c, n)`: `n` bytes equal to `c` from `dst` on. -/
def memset (m : Mem) (dst c : Nat) : Nat → Mem
  | 0 => m
  | n + 1 => write8 (memset m dst c n) (dst + n) c

/-! ## Constants of `malloc.c` -/

def NULL : Nat := 0
def MIN_BLOCK_SIZE : Nat := 8
def RED_ZONE_LEN : Nat := 0
def RED_ZONE_CHAR : Nat := 0x7e
def NUM_FRAMES : Nat := 0
def FREE : Nat := 0
def USED : Nat := 1

/-- Declared length of the ledger `heap_usage`. -/
def LEDGER_LEN : Nat := 5000

/-- Modelled from the spec: the declaration of `frame_t` (`backtrace.h`) is not
part of the sources; a call frame holds a resolved name, a resume address and an
offset from the function start, three 32-bit fields in this order, 12 bytes. -/
structure frame_t where
  name : Nat
  resume_addr : Nat
  resume_offset : Nat

/-- Size in bytes of a `frame_t`. -/
def FRAME_SIZE : Nat := 12

/-- The header of each payload: `payload_size`, `status`, `data_size` and three
backtrace frames. -/
structure header where
  payload_size : Nat
  status : Nat
  data_size : Nat
  frames : Fin 3 → frame_t

/-- The constant `HEADER_SIZE = sizeof(header)`: three words and three frames. -/
def HEADER_SIZE : Nat := 12 + 3 * FRAME_SIZE

/-- Byte offsets of the fields of `header`. -/
def OFF_STATUS : Nat := 4
def OFF_DATA_SIZE : Nat := 8
def OFF_FRAMES : Nat := 12

/-- The value of `*head` for the header stored at address `h`. -/
def read_header (m : Mem) (h : Nat) : header where
  payload_size := read32 m h
  status := read32 m (h + OFF_STATUS)
  data_size := read32 m (h + OFF_DATA_SIZE)
  frames := fun i =>
    { name := read32 m (h + OFF_FRAMES + FRAME_SIZE * i.val)
      resume_addr := read32 m (h + OFF_FRAMES + FRAME_SIZE * i.val + 4)
      resume_offset := read32 m (h + OFF_FRAMES + FRAME_SIZE * i.val + 8) }

/-- The globals of `malloc.c` together with the memory they manage. `reports`
records the arguments of the calls of `report_damaged_redzone`, most recent
first. The array `heap_usage[5000]` is the map `heap_usage` restricted to the
indices below `LEDGER_LEN`. A store at an index from `LEDGER_LEN` on is outside the
array: the program then overwrites other objects, which this state does not show,
so the model follows the program only as long as every store into the ledger is
made at an index below `LEDGER_LEN`. -/
structure State where
  mem : Mem
  heap_start : Nat
  heap_end : Nat
  heap_usage : Nat → header
  num_allocs : Nat
  num_frees : Nat
  total_bytes : Nat
  reports : List Nat

/-- Conversion of a 32-bit unsigned value to `int` (two's complement). -/
def to_int (u : Nat) : Int :=
  if u % WORD < 2147483648 then ((u % WORD : Nat) : Int) else ((u % WORD : Nat) : Int) - 4294967296

/-- The function `sbrk(nbytes)`, called with stack pointer `sp`: the result and the
new globals. -/
def sbrk (sp : Nat) (s : State) (nbytes : Int) : Nat × State :=
  let stack_reserve := (sp + WORD - 0x1000000) % WORD
  let prev_end := s.heap_end
  let new_end := (((prev_end : Int) + nbytes) % (WORD : Int)).toNat
  if new_end > stack_reserve then (NULL, s)
  else (prev_end, { s with heap_end := new_end })

/-- The macro `roundup(x,n) = ((x)+((n)-1))&(~((n)-1))` in 32-bit unsigned
arithmetic. -/
def roundup (x n : Nat) : Nat :=
  ((x + ((n + WORD - 1) % WORD)) % WORD) &&& (WORD - 1 - (n + WORD - 1) % WORD)

/-- The loop of `find_space`, from the header `cur` on. -/
def find_space_loop (m : Mem) (heap_end nbytes : Nat) : Nat → Nat → Option Nat
  | 0, _ => none
  | fuel + 1, cur =>
    if cur = heap_end then some cur
    else if read32 m (cur + OFF_STATUS) = FREE ∧ nbytes ≤ read32 m cur then some cur
    else
      find_space_loop m heap_end nbytes fuel
        ((cur + read32 m cur + HEADER_SIZE + 2 * RED_ZONE_LEN) % WORD)

/-- The function `find_space(nbytes)`. -/
def find_space (fuel : Nat) (s : State) (nbytes : Nat) : Option Nat :=
  find_space_loop s.mem s.heap_end nbytes fuel s.heap_start

/-- The function `initialise_redzones(head)`. -/
def initialise_redzones (m : Mem) (head : Nat) : Mem :=
  let redzone := (head + HEADER_SIZE) % WORD
  let m1 := memset m redzone RED_ZONE_CHAR RED_ZONE_LEN
  memset m1 ((redzone + RED_ZONE_LEN + read32 m1 (head + OFF_DATA_SIZE)) % WORD)
    RED_ZONE_CHAR RED_ZONE_LEN

/-- The function `split_block(cur_head, nbytes)`. -/
def split_block (m : Mem) (cur_head nbytes : Nat) : Mem :=
  let prev_block_size := read32 m cur_head
  let new_head := (cur_head + nbytes + HEADER_SIZE + 2 * RED_ZONE_LEN) % WORD
  let m1 := write32 m new_head
    ((prev_block_size + 3 * WORD - nbytes - HEADER_SIZE - 2 * RED_ZONE_LEN) % WORD)
  write32 m1 (new_head + OFF_STATUS) FREE

/-! ## The stack unwinder (`backtrace.c`) -/

def MSB_FOR_NAMES : Nat := 0xff000000

/-- The function `name_of(fn_start_addr)`; `unnamed` is the address of the string
literal `"???"`. -/
def name_of (unnamed : Nat) (m : Mem) (fn_start_addr : Nat) : Nat :=
  let prev_word := (fn_start_addr + WORD - 4) % WORD
  if read32 m prev_word < MSB_FOR_NAMES then unnamed
  else
    let length := read32 m prev_word - MSB_FOR_NAMES
    (prev_word + WORD - 4 * (length / 4)) % WORD

/-- The loop of `backtrace`: `left` is `max_frames - num_frames` when that is
positive and `0` otherwise. -/
def backtrace_loop (unnamed f : Nat) : Nat → Mem → Nat → Nat → Nat × Mem
  | left, m, cur_fp, num_frames =>
    if read32 m (cur_fp + WORD - 12) = 0 then (num_frames, m)
    else
      match left with
      | 0 => (num_frames, m)
      | left + 1 =>
        let resume_addr := read32 m (cur_fp + WORD - 4)
        let first_instr := (read32 m (read32 m (cur_fp + WORD - 12)) + WORD - 12) % WORD
        let resume_offset := (resume_addr + WORD - first_instr) % WORD
        let cur_fp := read32 m (cur_fp + WORD - 12)
        let name := name_of unnamed m ((read32 m cur_fp + WORD - 12) % WORD)
        let slot := f + FRAME_SIZE * num_frames
        let m1 := write32 (write32 (write32 m slot name) (slot + 4) resume_addr)
          (slot + 8) resume_offset
        backtrace_loop unnamed f left m1 cur_fp (num_frames + 1)

/-- The function `backtrace(f, max_frames)` called with frame pointer `fp`: the
number of frames and the memory after the frames are stored. -/
def backtrace (unnamed fp : Nat) (m : Mem) (f : Nat) (max_frames : Int) : Nat × Mem :=
  backtrace_loop unnamed f max_frames.toNat m fp 0

/-! ## `malloc` and `free` -/

/-- The environment of a call: the stack pointer seen by `sbrk`, the frame
pointer seen by `backtrace` and the address of the literal `"???"`. -/
structure Env where
  sp : Nat
  fp : Nat
  unnamed : Nat

/-- The part of `malloc` after the block is chosen (from `if (!head)` on). The store
`heap_usage[num_allocs++] = *head` is inside the array when `num_allocs <
LEDGER_LEN`; at a larger index it is recorded in the map only (see `State`). -/
def malloc_finish (env : Env) (s : State) (head orig_size : Nat) : Nat × State :=
  if head = NULL then (NULL, s)
  else
    let m1 := write32 s.mem (head + OFF_STATUS) USED
    let m2 := write32 m1 (head + OFF_DATA_SIZE) orig_size
    let m3 := initialise_redzones m2 head
    let m4 := (backtrace env.unnamed env.fp m3 ((head + OFF_FRAMES) % WORD) (NUM_FRAMES : Int)).2
    ((head + HEADER_SIZE + RED_ZONE_LEN) % WORD,
      { s with
        mem := m4
        total_bytes := (s.total_bytes + orig_size) % WORD
        heap_usage := fun i => if i = s.num_allocs then read_header m4 head else s.heap_usage i
        num_allocs := s.num_allocs + 1 })

/-- The function `malloc(nbytes)`: the returned pointer and the new state. -/
def malloc (fuel : Nat) (env : Env) (s : State) (nbytes : Nat) : Option (Nat × State) :=
  if nbytes = 0 then some (NULL, s)
  else
    let orig_size := nbytes
    let nbytes := roundup nbytes MIN_BLOCK_SIZE
    match find_space fuel s nbytes with
    | none => none
    | some head =>
      if head = s.heap_end then
        let r := sbrk env.sp s (to_int (nbytes + HEADER_SIZE + 2 * RED_ZONE_LEN))
        if r.1 = NULL then some (NULL, r.2)
        else
          some (malloc_finish env { r.2 with mem := write32 r.2.mem r.1 nbytes } r.1 orig_size)
      else if (nbytes + HEADER_SIZE + MIN_BLOCK_SIZE + 2 * RED_ZONE_LEN) % WORD
          ≤ read32 s.mem head then
        let m1 := split_block s.mem head nbytes
        some (malloc_finish env { s with mem := write32 m1 head nbytes } head orig_size)
      else some (malloc_finish env s head orig_size)

/-- The function `check_redzones(head)`: whether `report_damaged_redzone` is
called. -/
def check_redzones (m : Mem) (head : Nat) : Bool :=
  let leading_redzone := (head + HEADER_SIZE) % WORD
  let trailing_redzone :=
    (head + HEADER_SIZE + RED_ZONE_LEN + read32 m (head + OFF_DATA_SIZE)) % WORD
  (List.range RED_ZONE_LEN).any fun i =>
    decide (read8 m (leading_redzone + i) ≠ RED_ZONE_CHAR ∨
      read8 m (trailing_redzone + i) ≠ RED_ZONE_CHAR)

/-- The test of the ledger loop of `free` on the entry `e`: the first characters
of the names of the second frames are equal, and so are the offsets. -/
def ledger_match (m : Mem) (head : Nat) (e : header) : Prop :=
  read8 m (e.frames 1).name = read8 m ((read_header m head).frames 1).name ∧
    (e.frames 1).resume_offset = ((read_header m head).frames 1).resume_offset

instance (m : Mem) (head : Nat) (e : header) : Decidable (ledger_match m head e) :=
  inferInstanceAs (Decidable (_ ∧ _))

/-- The ledger loop of `free`: entries `i ≥ lo` below `num_allocs` whose second
frame has the same first name character and the same offset as `head` are marked
free. `count` is `num_allocs - lo`. -/
def mark_ledger (m : Mem) (head : Nat) (heap_usage : Nat → header) :
    Nat → Nat → Nat → header
  | 0, _ => heap_usage
  | count + 1, i =>
    let e := heap_usage i
    let hu :=
      if ledger_match m head e then
        fun j => if j = i then { e with status := FREE } else heap_usage j
      else heap_usage
    mark_ledger m head hu count (i + 1)

/-- The coalescing loop of `free`: `head_char` points at the candidate next
header. -/
def coalesce (heap_end head : Nat) : Nat → Mem → Nat → Option Mem
  | 0, _, _ => none
  | fuel + 1, m, head_char =>
    if head_char ≠ heap_end ∧ read32 m (head_char + OFF_STATUS) = 0 then
      let block_size := (read32 m head_char + HEADER_SIZE + 2 * RED_ZONE_LEN) % WORD
      let m1 := write32 m head ((read32 m head + block_size) % WORD)
      coalesce heap_end head fuel m1 ((head_char + block_size) % WORD)
    else some m

/-- The function `free(ptr)`. -/
def free (fuel : Nat) (s : State) (ptr : Nat) : Option State :=
  if ptr = NULL then some s
  else
    let head := (ptr + 2 * WORD - HEADER_SIZE - RED_ZONE_LEN) % WORD
    let reports :=
      if check_redzones s.mem head then
        ((head + HEADER_SIZE) % WORD + RED_ZONE_LEN) % WORD :: s.reports
      else s.reports
    let hu := mark_ledger s.mem head s.heap_usage s.num_allocs 0
    let m1 := write32 s.mem (head + OFF_STATUS) FREE
    let head_char := (head + (read32 m1 head + HEADER_SIZE + 2 * RED_ZONE_LEN) % WORD) % WORD
    match coalesce s.heap_end head fuel m1 head_char with
    | none => none
    | some m2 =>
      some { s with mem := m2, heap_usage := hu, num_frees := s.num_frees + 1, reports := reports }

/-! ## Records of the heap and runs of the allocator -/

/-- Number of bytes from the header at `h` to the next header. -/
def block_len (m : Mem) (h : Nat) : Nat :=
  read32 m h + HEADER_SIZE + 2 * RED_ZONE_LEN

/-- The walk from `a` by steps of `payload_size + HEADER_SIZE + 2 * RED_ZONE_LEN`
visits exactly the headers `recs`, never steps past `e`, and ends on `e`. -/
def Tiles (m : Mem) (e : Nat) : Nat → List Nat → Prop
  | a, [] => a = e
  | a, h :: hs => h = a ∧ a + block_len m a ≤ e ∧ Tiles m e (a + block_len m a) hs

/-- A well-formed heap: `heap_start` is the address of an object (not null),
`heap_end` is a 32-bit address, and the records `recs` tile the heap. -/
def WellFormedWith (s : State) (recs : List Nat) : Prop :=
  0 < s.heap_start ∧ s.heap_end < WORD ∧ Tiles s.mem s.heap_end s.heap_start recs

/-- A well-formed heap, for some list of records. -/
def WellFormed (s : State) : Prop := ∃ recs, WellFormedWith s recs

/-- A record fits a request of `nbytes` when it is free and large enough. -/
def Fits (m : Mem) (nbytes h : Nat) : Prop :=
  read32 m (h + OFF_STATUS) = FREE ∧ nbytes ≤ read32 m h

/-- No expression of `malloc(n)` wraps: the rounding, the split test and the new
end of the heap. -/
def NoWrap (s : State) (n : Nat) : Prop :=
  n + (MIN_BLOCK_SIZE - 1) < WORD ∧
  roundup n MIN_BLOCK_SIZE + HEADER_SIZE + MIN_BLOCK_SIZE + 2 * RED_ZONE_LEN < WORD ∧
  s.heap_end + (roundup n MIN_BLOCK_SIZE + HEADER_SIZE + 2 * RED_ZONE_LEN) < WORD

/-- The header initially stored in every entry of the zero-initialised ledger. -/
def zero_header : header :=
  { payload_size := 0, status := 0, data_size := 0, frames := fun _ => ⟨0, 0, 0⟩ }

/-- The state at program start: an empty heap at `start`, over any memory. -/
def empty_heap (m : Mem) (start : Nat) : State :=
  { mem := m, heap_start := start, heap_end := start, heap_usage := fun _ => zero_header,
    num_allocs := 0, num_frees := 0, total_bytes := 0, reports := [] }

/-- A call made by the program. -/
inductive Op where
  | malloc (env : Env) (n : Nat)
  | free (p : Nat)

/-- A pointer returned by `malloc` and not yet freed: the pointer, the requested size
and the index of the ledger entry appended by that call. -/
structure Live where
  ptr : Nat
  size : Nat
  idx : Nat

/-- The allocator state together with the live pointers of the program. -/
structure Config where
  st : State
  live : List Live

/-- One call: `malloc` records the pointer it returns, `free` forgets its argument. -/
def exec (fuel : Nat) (c : Config) : Op → Option Config
  | .malloc env n =>
    match malloc fuel env c.st n with
    | none => none
    | some (p, s) =>
      some { st := s, live := if p = NULL then c.live else ⟨p, n, c.st.num_allocs⟩ :: c.live }
  | .free p =>
    match free fuel c.st p with
    | none => none
    | some s => some { st := s, live := c.live.filter fun l => decide (l.ptr ≠ p) }

/-- A sequence of calls. -/
def run (fuel : Nat) : Config → List Op → Option Config
  | c, [] => some c
  | c, op :: ops =>
    match exec fuel c op with
    | none => none
    | some c1 => run fuel c1 ops

/-- The call is allowed: a `malloc` whose size arithmetic does not wrap and which
is made while `num_allocs < LEDGER_LEN`, so that the entry it appends is an
element of the array `heap_usage`; or a `free` of the null pointer or of a live
pointer. -/
def OpOk (c : Config) : Op → Prop
  | .malloc _ n => NoWrap c.st n ∧ c.st.num_allocs < LEDGER_LEN
  | .free p => p = NULL ∨ ∃ l ∈ c.live, l.ptr = p

/-- Every call of the sequence is allowed in the configuration in which it is made. -/
def Valid (fuel : Nat) : Config → List Op → Prop
  | _, [] => True
  | c, op :: ops =>
    OpOk c op ∧
      match exec fuel c op with
      | none => True
      | some c1 => Valid fuel c1 ops

instance (m : Mem) (nbytes h : Nat) : Decidable (Fits m nbytes h) :=
  inferInstanceAs (Decidable (_ ∧ _))

instance (s : State) (n : Nat) : Decidable (NoWrap s n) :=
  inferInstanceAs (Decidable (_ ∧ _ ∧ _))

/-- Whether a list of headers tiles `[a, e)` is checked by walking it. -/
def Tiles.dec (m : Mem) (e : Nat) : (recs : List Nat) → (a : Nat) → Decidable (Tiles m e a recs)
  | [], a => inferInstanceAs (Decidable (a = e))
  | h :: hs, a =>
    have := Tiles.dec m e hs (a + block_len m a)
    inferInstanceAs (Decidable (h = a ∧ a + block_len m a ≤ e ∧
      Tiles m e (a + block_len m a) hs))

instance (m : Mem) (e a : Nat) (recs : List Nat) : Decidable (Tiles m e a recs) :=
  Tiles.dec m e recs a

instance (s : State) (recs : List Nat) : Decidable (WellFormedWith s recs) :=
  inferInstanceAs (Decidable (_ ∧ _ ∧ _))

instance (c : Config) : (op : Op) → Decidable (OpOk c op)
  | .malloc _ n => inferInstanceAs (Decidable (NoWrap c.st n ∧ c.st.num_allocs < LEDGER_LEN))
  | .free p => inferInstanceAs (Decidable (p = NULL ∨ ∃ l ∈ c.live, l.ptr = p))

/-- Whether a sequence of calls is valid is checked by running it. -/
def Valid.dec (fuel : Nat) : (ops : List Op) → (c : Config) → Decidable (Valid fuel c ops)
  | [], _ => isTrue trivial
  | op :: ops, c =>
    match h : exec fuel c op with
    | none =>
      if hok : OpOk c op then isTrue ⟨hok, by rw [h]; trivial⟩
      else isFalse fun hv => hok hv.1
    | some c1 =>
      match Valid.dec fuel ops c1 with
      | isTrue hr =>
        if hok : OpOk c op then isTrue ⟨hok, by rw [h]; exact hr⟩
        else isFalse fun hv => hok hv.1
      | isFalse hr => isFalse fun hv => hr (by have := hv.2; rw [h] at this; exact this)

instance (fuel : Nat) (c : Config) (ops : List Op) : Decidable (Valid fuel c ops) :=
  Valid.dec fuel ops c

/-- A stack pointer and frame pointer near the top of a 128 MB memory, used in the
worked examples. -/
def example_env : Env := { sp := 0x8000000, fp := 0x7ffff00, unnamed := 0x100 }

/-- A heap of two records used in the worked examples: a used record of 16 bytes
at `0x8000` and a free record of 128 bytes at `0x8040`. -/
def example_heap : State :=
  { mem := write32 (write32 (write32 (write32 (fun _ => 0) 0x8000 16) 0x8004 USED) 0x8040 128)
      0x8044 FREE
    heap_start := 0x8000
    heap_end := 0x80f0
    heap_usage := fun _ => zero_header
    num_allocs := 0
    num_frees := 0
    total_bytes := 0
    reports := [] }

/-- The state left by a `malloc(n)` that chose the header `head`, when `m` and `e`
are the memory and the heap end after the block was prepared. -/
def alloc_state (s : State) (m : Mem) (e head n : Nat) : State :=
  let m1 := write32 (write32 m (head + OFF_STATUS) USED) (head + OFF_DATA_SIZE) n
  { mem := m1
    heap_start := s.heap_start
    heap_end := e
    heap_usage := fun i => if i = s.num_allocs then read_header m1 head else s.heap_usage i
    num_allocs := s.num_allocs + 1
    num_frees := s.num_frees
    total_bytes := (s.total_bytes + n) % WORD
    reports := s.reports }

/-- A live pointer is backed by a used record of the walk that is large enough for
the requested size, and its ledger entry holds the frames of that record. -/
def LiveOk (s : State) (recs : List Nat) (l : Live) : Prop :=
  ∃ h ∈ recs, l.ptr = h + HEADER_SIZE + RED_ZONE_LEN ∧
    read32 s.mem (h + OFF_STATUS) = USED ∧ l.size ≤ read32 s.mem h ∧
    l.idx < s.num_allocs ∧ (s.heap_usage l.idx).frames = (read_header s.mem h).frames

/-- The invariant of the runs: the heap is well formed and every live pointer is
backed by a record. -/
def Inv (c : Config) : Prop :=
  ∃ recs, WellFormedWith c.st recs ∧ ∀ l ∈ c.live, LiveOk c.st recs l

/-- The bytes outside `[lo, hi)` are the same in both memories. -/
def SameOutside (m1 m2 : Mem) (lo hi : Nat) : Prop :=
  ∀ b, b < WORD → b < lo ∨ hi ≤ b → read8 m2 b = read8 m1 b

/-! ## The leak report (`memory_report`) -/

/-- One piece of the output of `memory_report`: the banner (three constant lines),
the line `malloc/free: %d allocs, %d frees, %d bytes allocated.`, a line
`%d bytes lost, allocated by:` and a line of `print_frames`. The numbers are the
values passed to `printf`. -/
inductive ReportLine where
  | banner
  | summary (allocs frees bytes : Nat)
  | lost (size : Nat)
  | frame (i resume_addr name resume_offset : Nat)

/-- The function `print_frames(f, n)` of `backtrace.c`. -/
def print_frames (f : Nat → frame_t) (n : Nat) : List ReportLine :=
  (List.range n).map fun i => .frame i (f i).resume_addr (f i).name (f i).resume_offset

/-- The array `heap_usage[i].frames` as seen through a pointer to its first frame. -/
def frames_of (e : header) : Nat → frame_t :=
  fun j => if h : j < 3 then e.frames ⟨j, h⟩ else ⟨0, 0, 0⟩

/-- The `for` loop of `memory_report`, from index `i` on; `count` is
`num_allocs - i`. -/
def report_leaks (heap_usage : Nat → header) : Nat → Nat → List ReportLine
  | 0, _ => []
  | count + 1, i =>
    (if (heap_usage i).status = 1 then
        .lost (heap_usage i).data_size :: print_frames (frames_of (heap_usage i)) NUM_FRAMES
      else []) ++ report_leaks heap_usage count (i + 1)

/-- The function `memory_report()`: everything it prints. -/
def memory_report (s : State) : List ReportLine :=
  .banner :: .summary s.num_allocs s.num_frees s.total_bytes ::
    (if s.num_allocs ≠ s.num_frees then report_leaks s.heap_usage s.num_allocs 0 else [])

/-- The sizes of the `bytes lost` entries of a report, in the order printed. -/
def leak_sizes : List ReportLine → List Nat
  | [] => []
  | .lost n :: ls => n :: leak_sizes ls
  | _ :: ls => leak_sizes ls

/-- The leak entries as the specification words them: one entry, of size
`data_size`, for each ledger entry `i < num_allocs` whose status is `USED`, in
ledger order. -/
def used_sizes_spec (s : State) : List Nat :=
  ((List.range s.num_allocs).filter fun i => decide ((s.heap_usage i).status = USED)).map
    fun i => (s.heap_usage i).data_size

/-! ## More example heaps -/

/-- A used record of 16 bytes at `0x8000`, free records of 8 bytes at `0x8040` and
`0x8078`, and a used record of 8 bytes at `0x80b0`. -/
def example_run_heap : State :=
  { mem := write32 (write32 (write32 (write32 (write32 (write32 (write32 (write32
        (fun _ => 0) 0x8000 16) 0x8004 USED) 0x8040 8) 0x8044 FREE) 0x8078 8) 0x807c FREE)
        0x80b0 8) 0x80b4 USED
    heap_start := 0x8000
    heap_end := 0x80e8
    heap_usage := fun _ => zero_header
    num_allocs := 0
    num_frees := 0
    total_bytes := 0
    reports := [] }

/-- Two adjacent used records: `A` of 16 bytes at `0x8000` and `B` of 8 bytes at
`0x8040`. -/
def example_pair_heap : State :=
  { mem := write32 (write32 (write32 (write32 (fun _ => 0) 0x8000 16) 0x8004 USED) 0x8040 8)
      0x8044 USED
    heap_start := 0x8000
    heap_end := 0x8078
    heap_usage := fun _ => zero_header
    num_allocs := 0
    num_frees := 0
    total_bytes := 0
    reports := [] }

/-- A ledger with one entry still `USED` while the counters are equal. -/
def example_ledger_state : State :=
  { mem := fun _ => 0
    heap_start := 0x8000
    heap_end := 0x8000
    heap_usage := fun i =>
      if i = 0 then { payload_size := 16, status := USED, data_size := 10, frames := fun _ => ⟨0, 0, 0⟩ }
      else zero_header
    num_allocs := 1
    num_frees := 1
    total_bytes := 10
    reports := [] }

/-! ## Alignment -/

/-- Every record of the list has a `payload_size` that is a multiple of 8 and at
least 8. -/
def Aligned (s : State) (recs : List Nat) : Prop :=
  ∀ x ∈ recs, read32 s.mem x % 8 = 0 ∧ 8 ≤ read32 s.mem x

/-- The heap starts at a multiple of 8 and the records of its walk are aligned. -/
def AlignedHeap (s : State) : Prop :=
  s.heap_start % 8 = 0 ∧ ∃ recs, WellFormedWith s recs ∧ Aligned s recs

/-! ## Frame chains -/

/-- The frame pointer examined by iteration `i` of the loop of `backtrace` started
at `fp`: every frame stores the frame pointer of its caller 12 bytes below its own
frame pointer. -/
def frame_ptr (m : Mem) (fp : Nat) : Nat → Nat
  | 0 => fp
  | i + 1 => read32 m (frame_ptr m fp i + WORD - 12)

/-- The frame chain starting at `fp` has `d` frames before a saved frame pointer of
zero is met. -/
def ChainDepth (m : Mem) (fp d : Nat) : Prop :=
  (∀ i, i < d → frame_ptr m fp (i + 1) ≠ 0) ∧ frame_ptr m fp (d + 1) = 0

instance (m : Mem) (fp d : Nat) : Decidable (ChainDepth m fp d) :=
  inferInstanceAs (Decidable (_ ∧ _))

/-- The function start `S` of frame `i`: the word stored at the frame pointer of the
caller (the saved pc of the caller) minus 12. -/
def fn_start (m : Mem) (fp i : Nat) : Nat :=
  (read32 m (frame_ptr m fp (i + 1)) + WORD - 12) % WORD

/-- Frame `i` as the specification words it: the resume address is the word stored
at `fp_i - 4`, the offset is the resume address minus `S`, the name is
`name_of(S)`. -/
def frame_spec (unnamed : Nat) (m : Mem) (fp i : Nat) : frame_t :=
  { name := name_of unnamed m (fn_start m fp i)
    resume_addr := read32 m (frame_ptr m fp i + WORD - 4)
    resume_offset := (read32 m (frame_ptr m fp i + WORD - 4) + WORD - fn_start m fp i) % WORD }

/-- The value of `f[i]` for the array of frames at address `f`. -/
def read_frame (m : Mem) (f i : Nat) : frame_t :=
  { name := read32 m (f + FRAME_SIZE * i)
    resume_addr := read32 m (f + FRAME_SIZE * i + 4)
    resume_offset := read32 m (f + FRAME_SIZE * i + 8) }

/-- The word at address `a` does not wrap around the address space and does not
overlap the bytes `[lo, hi)`. -/
def WordOutside (lo hi a : Nat) : Prop :=
  a % WORD + 4 ≤ WORD ∧ (a % WORD + 4 ≤ lo ∨ hi ≤ a % WORD)

instance (lo hi a : Nat) : Decidable (WordOutside lo hi a) :=
  inferInstanceAs (Decidable (_ ∧ _))

/-- The entries `f[0 .. k)` lie in the address space and do not overlap the saved
frame pointers of the frames `0 .. k` of the chain. -/
def LinksApart (m : Mem) (fp f k : Nat) : Prop :=
  f + FRAME_SIZE * k ≤ WORD ∧
    ∀ j, j < k + 1 → WordOutside f (f + FRAME_SIZE * k) (frame_ptr m fp j + WORD - 12)

instance (m : Mem) (fp f k : Nat) : Decidable (LinksApart m fp f k) :=
  inferInstanceAs (Decidable (_ ∧ _))

/-- The entries `f[0 .. k)` do not overlap the other words read for the frames
`0 .. k - 1`: the saved return address, the saved pc of the caller and the word
before the function start. -/
def ValuesApart (m : Mem) (fp f k : Nat) : Prop :=
  ∀ j, j < k →
    WordOutside f (f + FRAME_SIZE * k) (frame_ptr m fp j + WORD - 4) ∧
    WordOutside f (f + FRAME_SIZE * k) (frame_ptr m fp (j + 1)) ∧
    WordOutside f (f + FRAME_SIZE * k) (fn_start m fp j + WORD - 4)

instance (m : Mem) (fp f k : Nat) : Decidable (ValuesApart m fp f k) :=
  inferInstanceAs (Decidable (∀ j, j < k → _))

/-- A stack of three frames at `0x7ffff00`, `0x7ffff40` and `0x7ffff80`, called from
an outermost frame at `0x7ffffc0` whose saved frame pointer is zero. The saved pcs
point 12 bytes into functions at `0x8100`, `0x8200` and `0x8300`, the saved
return addresses into the same functions; the function at `0x8100` is preceded by
the name word `0xff000008`. -/
def example_stack : Mem :=
  write32 (write32 (write32 (write32 (write32 (write32 (write32 (write32 (write32 (write32
    (fun _ => 0)
    (0x7ffff00 - 12) 0x7ffff40) (0x7ffff00 - 4) 0x8110)
    0x7ffff40 0x810c) (0x7ffff40 - 12) 0x7ffff80) (0x7ffff40 - 4) 0x8220)
    0x7ffff80 0x820c) (0x7ffff80 - 12) 0x7ffffc0) (0x7ffff80 - 4) 0x8330)
    0x7ffffc0 0x830c) (0x8100 - 4) 0xff000008

end Malloc

/-! # The game engine (`src/lib/karel_world.c`) -/

namespace Karel

/-! ## Conventions of `board.h` and `accel.h` -/

def FREE : Char := '-'
def SOUTH_WALL : Char := 's'
def WEST_WALL : Char := 'w'
def BEEPER : Char := 'b'
def PAT : Char := 'p'
def JULIE : Char := 'z'

def EAST : Int := 0
def NORTH : Int := 1
def WEST : Int := 2
def SOUTH : Int := 3

def MOVE_FORWARD : Int := 0
def TURN_LEFT : Int := 1

def NUM_ROWS : Nat := 10

/-- The world of `karel_world.c`. -/
def board : List String :=
  ["-sssw--ws-",
   "bw---sssws",
   "--sw---psw",
   "-w------s-",
   "s-sw--w-w-",
   "-ww---w-zw",
   "-w---sw---",
   "-w-w-sswss",
   "--sw-ss-s-",
   "--w-----w-"]

/-- Position and direction of Karel (`pos_t`). -/
structure pos_t where
  x : Int
  y : Int
  dir : Int
deriving DecidableEq

/-- The globals `karel` and `beeper`. -/
structure World where
  karel : pos_t
  beeper : pos_t
deriving DecidableEq

/-- The value of an `int` expression, reduced to 32 bits (two's complement). -/
def wrap_int (i : Int) : Int := (i + 2147483648) % 4294967296 - 2147483648

/-- The library routine `strlen`. -/
def strlen (s : String) : Nat := s.length

/-- The character `board[y][x]`: a character of the row, or the terminator of the
string; `none` when the read is outside the array or the string. -/
def board_at (y x : Int) : Option Char :=
  if 0 ≤ y ∧ y < NUM_ROWS then
    match board.get? y.toNat with
    | none => none
    | some row =>
      if 0 ≤ x ∧ x < row.length then row.toList.get? x.toNat
      else if x = row.length then some (Char.ofNat 0)
      else none
  else none

/-- The function `is_move_valid(x, y)`; `none` when it reads outside the board. The
conjuncts are evaluated from left to right, as in C. -/
def is_move_valid (karel : pos_t) (x y : Int) : Option Bool :=
  if ¬ (x ≥ 0 ∧ x < strlen (board.headD "") ∧ y ≥ 0 ∧ y < NUM_ROWS) then some false
  else
    match board_at y x with
    | none => none
    | some c =>
      if c = WEST_WALL ∧ karel.dir = EAST then some false
      else
        match board_at karel.y karel.x with
        | none => none
        | some k =>
          if k = WEST_WALL ∧ karel.dir = WEST then some false
          else if c = SOUTH_WALL ∧ karel.dir = NORTH then some false
          else if k = SOUTH_WALL ∧ karel.dir = SOUTH then some false
          else some true

/-- The end of `update_karel_world`, from `draw_board` on: the result is 1 when Karel
stands on the beeper. -/
def check_game_over (w : World) : Int × World :=
  (if w.karel.x = w.beeper.x ∧ w.karel.y = w.beeper.y then 1 else 0, w)

/-- The position after one step forward in the direction Karel faces. -/
def step_forward (karel : pos_t) : pos_t :=
  if karel.dir = EAST then { karel with x := wrap_int (karel.x + 1) }
  else if karel.dir = SOUTH then { karel with y := wrap_int (karel.y + 1) }
  else if karel.dir = WEST then { karel with x := wrap_int (karel.x - 1) }
  else if karel.dir = NORTH then { karel with y := wrap_int (karel.y - 1) }
  else karel

/-- The function `update_karel_world()`, for the move `move` returned by
`accel_read_move()`: the result and the new globals. -/
def update_karel_world (w : World) (move : Int) : Option (Int × World) :=
  if move = MOVE_FORWARD then
    let next_move := step_forward w.karel
    match is_move_valid w.karel next_move.x next_move.y with
    | none => none
    | some false => some (0, w)
    | some true => some (check_game_over { w with karel := next_move })
  else if move = TURN_LEFT then
    some (check_game_over
      { w with karel := { w.karel with dir := Int.tmod (wrap_int (w.karel.dir + 1)) 4 } })
  else some (check_game_over w)

/-- The loop of `karel_world_init` that looks for the beeper, rows first. -/
def find_beeper (beeper : pos_t) : pos_t :=
  (List.range NUM_ROWS).foldl
    (fun b y => (List.range (strlen (board.headD ""))).foldl
      (fun b x => if board_at y x = some BEEPER then { b with x := x, y := y } else b) b)
    beeper

/-- The globals at program start: `beeper` is `{-10, -10, -10}`. -/
def initial_world : World :=
  { karel := ⟨0, 0, 0⟩, beeper := ⟨-10, -10, -10⟩ }

/-- The function `karel_world_init()`. -/
def karel_world_init (w : World) : World :=
  { karel := ⟨0, (NUM_ROWS : Int) - 1, EAST⟩, beeper := find_beeper w.beeper }

/-- Successive calls of `update_karel_world`, one for each move, whatever they
return (the loop of `test_karel_world`): the results in call order and the globals
at the end. -/
def play : World → List Int → Option (List Int × World)
  | w, [] => some ([], w)
  | w, mv :: mvs =>
    match update_karel_world w mv with
    | none => none
    | some (r, w1) =>
      match play w1 mvs with
      | none => none
      | some (rs, w2) => some (r :: rs, w2)

/-- Karel stands on a cell of the board. -/
def OnBoard (w : World) : Prop :=
  0 ≤ w.karel.x ∧ w.karel.x < 10 ∧ 0 ≤ w.karel.y ∧ w.karel.y < 10

instance (w : World) : Decidable (OnBoard w) :=
  inferInstanceAs (Decidable (_ ∧ _ ∧ _ ∧ _))

/-- The forward move is rejected by `is_move_valid`. -/
def Rejected (w : World) (move : Int) : Prop :=
  move = MOVE_FORWARD ∧
    is_move_valid w.karel (step_forward w.karel).x (step_forward w.karel).y = some false

instance (w : World) (move : Int) : Decidable (Rejected w move) :=
  inferInstanceAs (Decidable (_ ∧ _))

/-- The cell `(x, y)` is a cell of the board. -/
def InBounds (x y : Int) : Prop := 0 ≤ x ∧ x < 10 ∧ 0 ≤ y ∧ y < 10

instance (x y : Int) : Decidable (InBounds x y) :=
  inferInstanceAs (Decidable (_ ∧ _ ∧ _ ∧ _))

/-- A wall separates Karel's cell from the destination `(x, y)` of a step in the
direction Karel faces, as the specification words it: a `w` cell has a wall on its
west side, an `s` cell on its south side. Going east the wall is the west wall of
the destination, going west that of Karel's cell; going north it is the south wall
of the destination, going south that of Karel's cell. -/
def WallBetween (karel : pos_t) (x y : Int) : Prop :=
  (karel.dir = EAST ∧ board_at y x = some WEST_WALL) ∨
  (karel.dir = WEST ∧ board_at karel.y karel.x = some WEST_WALL) ∨
  (karel.dir = NORTH ∧ board_at y x = some SOUTH_WALL) ∨
  (karel.dir = SOUTH ∧ board_at karel.y karel.x = some SOUTH_WALL)

instance (karel : pos_t) (x y : Int) : Decidable (WallBetween karel x y) :=
  inferInstanceAs (Decidable (_ ∨ _ ∨ _ ∨ _))

/-- The direction is one of the four directions. -/
def DirOk (w : World) : Prop :=
  w.karel.dir = EAST ∨ w.karel.dir = NORTH ∨ w.karel.dir = WEST ∨ w.karel.dir = SOUTH

instance (w : World) : Decidable (DirOk w) :=
  inferInstanceAs (Decidable (_ ∨ _ ∨ _ ∨ _))

/-- No call of the sequence is a forward move rejected by `is_move_valid`. -/
def Accepted : World → List Int → Prop
  | _, [] => True
  | w, mv :: mvs =>
    ¬ Rejected w mv ∧
      match update_karel_world w mv with
      | none => False
      | some (_, w1) => Accepted w1 mvs

/-- Whether a sequence of moves is accepted is checked by playing it. -/
def Accepted.dec : (mvs : List Int) → (w : World) → Decidable (Accepted w mvs)
  | [], _ => isTrue trivial
  | mv :: mvs, w =>
    match h : update_karel_world w mv with
    | none => isFalse fun ha => by have := ha.2; rw [h] at this; exact this
    | some (r, w1) =>
      match Accepted.dec mvs w1 with
      | isTrue hr =>
        if hrej : Rejected w mv then isFalse fun ha => ha.1 hrej
        else isTrue ⟨hrej, by rw [h]; exact hr⟩
      | isFalse hr => isFalse fun ha => hr (by have := ha.2; rw [h] at this; exact this)

instance (w : World) (mvs : List Int) : Decidable (Accepted w mvs) :=
  Accepted.dec mvs w

end Karel

/-! # Strings and numbers (`src/lib/strings.c`, `src/lib/printf.c`) -/

namespace Strings

/-- Number of distinct 32-bit values. -/
def WORD : Nat := 4294967296

/-- Constants of `strings.c` and `printf.c`. -/
def OFFSET_BASE10 : Nat := 48
def OFFSET_BASE16_UPPER : Nat := 55
def OFFSET_BASE16_LOWER : Nat := 87
def ASCII_BASE10 : Nat := 48
def ASCII_BASE16_LOWER : Nat := 87

/-- The function `memcpy(dst + doff, src + soff, n)`: the bytes are copied one at a
time, in increasing order. An array is the list of its bytes; `none` when a byte
outside `src` is read or a byte outside `dst` is written. -/
def memcpy : Nat → List Nat → Nat → List Nat → Nat → Option (List Nat)
  | 0, dst, _, _, _ => some dst
  | n + 1, dst, doff, src, soff =>
    match src.get? soff with
    | none => none
    | some v =>
      if doff < dst.length then memcpy n (dst.set doff v) (doff + 1) src (soff + 1)
      else none

/-- The function `memset(dst + off, val, n)`; `none` when a byte outside `dst` is
written. -/
def memset : Nat → List Nat → Nat → Nat → Option (List Nat)
  | 0, dst, _, _ => some dst
  | n + 1, dst, off, val =>
    if off < dst.length then memset n (dst.set off (val % 256)) (off + 1) val
    else none

/-- The function `strlen(str)`, where `str` lists the bytes from the pointer on:
the index of the first `NUL`; `none` when the array holds no `NUL`. -/
def strlen : List Nat → Option Nat
  | [] => none
  | c :: cs => if c = 0 then some 0 else (strlen cs).map fun n => n + 1

/-- The end of `strlcat`: `memcpy(dst + dstlen, src, n)`, then the store of the
terminator at `final_index`; `ret` is the value returned. -/
def strlcat_copy (dst src : List Nat) (dstlen n final_index ret : Nat) :
    Option (Nat × List Nat) :=
  match memcpy n dst dstlen src 0 with
  | none => none
  | some d =>
    if final_index < d.length then some (ret, d.set final_index 0)
    else none

/-- The function `strlcat(dst, src, dstsize)`: the result and the array `dst`
afterwards. The lengths are `int` values; they are compared with `dstsize` as
unsigned values. -/
def strlcat (dst src : List Nat) (dstsize : Nat) : Option (Nat × List Nat) :=
  match strlen src, strlen dst with
  | some srclen, some dstlen =>
    if dstsize ≤ dstlen % WORD then some ((dstsize + srclen) % WORD, dst)
    else if (srclen + dstlen) % WORD ≤ (dstsize + WORD - 1) % WORD then
      strlcat_copy dst src dstlen srclen (dstlen + srclen) ((dstlen + srclen) % WORD)
    else
      strlcat_copy dst src dstlen ((dstsize + 2 * WORD - dstlen - 1) % WORD)
        ((dstsize + WORD - 1) % WORD) ((dstlen + srclen) % WORD)
  | _, _ => none

/-- The loop of `strtonum`: `str` lists the bytes from the current pointer on, `pos`
counts the bytes consumed. The result is the number and the position of the
first byte not consumed; `none` when the loop reads past the array. -/
def strtonum_loop (base : Nat) : List Nat → Nat → Nat → Option (Nat × Nat)
  | [], _, _ => none
  | c :: cs, num, pos =>
    if c = 0 then some (num, pos)
    else if 48 ≤ c ∧ c ≤ 57 then
      strtonum_loop base cs ((base * num + (c - OFFSET_BASE10)) % WORD) (pos + 1)
    else if base = 16 ∧ ((65 ≤ c ∧ c ≤ 70) ∨ (97 ≤ c ∧ c ≤ 102)) then
      let offset := if 97 ≤ c ∧ c ≤ 102 then OFFSET_BASE16_LOWER else OFFSET_BASE16_UPPER
      strtonum_loop base cs ((base * num + (c - offset)) % WORD) (pos + 1)
    else some (num, pos)

/-- The function `strtonum(str, &end)`: the number and `end - str`. -/
def strtonum (str : List Nat) : Option (Nat × Nat) :=
  match str with
  | [] => none
  | c0 :: rest =>
    if c0 = 48 then
      match rest with
      | [] => none
      | c1 :: rest1 =>
        if c1 = 120 then strtonum_loop 16 rest1 0 2
        else strtonum_loop 10 str 0 0
    else strtonum_loop 10 str 0 0

/-- The first loop of `unsigned_to_base`, which counts the digits of `copy`; `none`
when the division is by zero or the loop does not end within the fuel. -/
def count_digits (base : Nat) : Nat → Nat → Nat → Option Nat
  | 0, _, _ => none
  | fuel + 1, copy, num_digits =>
    if base = 0 then none
    else if copy / base = 0 then some (num_digits + 1)
    else count_digits base fuel (copy / base) (num_digits + 1)

/-- The second loop of `unsigned_to_base`, from `index = i - 1` down to `0`. -/
def fill_digits (base : Nat) : Nat → Nat → List Nat → List Nat
  | 0, _, temp => temp
  | i + 1, val, temp =>
    let offset := if val % base > 9 then ASCII_BASE16_LOWER else ASCII_BASE10
    fill_digits base i (val / base) (temp.set i ((val % base + offset) % 256))

/-- The part of `unsigned_to_base` after `num_digits` is known: the array `temp`
of `num_digits + 1` elements is filled, `buf` is made empty and `temp` is
appended to it. -/
def write_digits (buf : List Nat) (bufsize val base num_digits : Nat) :
    Option (Nat × List Nat) :=
  if 0 < buf.length then
    match strlcat (buf.set 0 0)
        (fill_digits base num_digits val (List.replicate (num_digits + 1) 0)) bufsize with
    | none => none
    | some (_, buf1) => some (num_digits, buf1)
  else none

/-- The function `unsigned_to_base(buf, bufsize, val, base, min_width)`: the result
and the array `buf` afterwards. The variable `num_digits` is an `int`: a
`min_width` from `2^31 - 1` on gives no valid length `num_digits + 1` for the
array `temp`, which is `none` here. -/
def unsigned_to_base (fuel : Nat) (buf : List Nat) (bufsize val base min_width : Nat) :
    Option (Nat × List Nat) :=
  match count_digits base fuel val 0 with
  | none => none
  | some counted =>
    if 2147483647 ≤ (if min_width > counted then min_width else counted) then none
    else write_digits buf bufsize val base (if min_width > counted then min_width else counted)

/-! ## The specification of the parser -/

/-- A valid digit of the base: `0`-`9`, and `a`-`f` or `A`-`F` in base 16 only. -/
def IsDigit (base c : Nat) : Prop :=
  (48 ≤ c ∧ c ≤ 57) ∨ (base = 16 ∧ ((65 ≤ c ∧ c ≤ 70) ∨ (97 ≤ c ∧ c ≤ 102)))

instance (base c : Nat) : Decidable (IsDigit base c) :=
  inferInstanceAs (Decidable (_ ∨ _))

/-- The value of a digit character. -/
def digit_value (c : Nat) : Nat :=
  if 48 ≤ c ∧ c ≤ 57 then c - 48 else if 97 ≤ c ∧ c ≤ 102 then c - 87 else c - 55

/-- The value of a list of digit characters, most significant first. -/
def value_of (base : Nat) (ds : List Nat) : Nat :=
  ds.foldl (fun acc c => acc * base + digit_value c) 0

/-- The value and the end position that the specification gives for the string
`body` (the characters before the terminating `NUL`): base 16 after the prefix
`0x`, base 10 otherwise; the value, modulo `2^32`, of the longest prefix of valid
digits, and the position of the first character not consumed. -/
def strtonum_spec (body : List Nat) : Nat × Nat :=
  if body.take 2 = [48, 120] then
    (value_of 16 ((body.drop 2).takeWhile fun c => decide (IsDigit 16 c)) % WORD,
      2 + ((body.drop 2).takeWhile fun c => decide (IsDigit 16 c)).length)
  else
    (value_of 10 (body.takeWhile fun c => decide (IsDigit 10 c)) % WORD,
      (body.takeWhile fun c => decide (IsDigit 10 c)).length)

/-- The character written for the digit `d`. -/
def digit_char (d : Nat) : Nat := if d > 9 then d + 87 else d + 48

/-- The `k` low digits of `v` in the base, most significant first, as characters. -/
def digits_msb (base : Nat) : Nat → Nat → List Nat
  | 0, _ => []
  | k + 1, v => digits_msb base k (v / base) ++ [digit_char (v % base)]

/-- The number of digits of `v` in the base (`1` for `v = 0`). -/
def num_digits_spec (base v : Nat) : Nat := Nat.log base v + 1

end Strings

/-! # The console (`src/lib/console.c`) -/

namespace Console

/-- Number of distinct 32-bit values. -/
def WORD : Nat := 4294967296

end Console

namespace Malloc

/-! ## Memory lemmas -/

theorem read8_write8 (m : Mem) (a v b : Nat) :
    read8 (write8 m a v) b = if b % WORD = a % WORD then v % 256 else read8 m b := by
  unfold read8 write8
  by_cases h : b % WORD = a % WORD <;> simp [h]

theorem read8_write32_out (m : Mem) (a v b : Nat) (ha : a + 4 ≤ WORD) (hb : b < WORD)
    (h : b < a ∨ a + 4 ≤ b) : read8 (write32 m a v) b = read8 m b := by
  unfold WORD at ha hb
  have e0 : b % WORD ≠ a % WORD := by unfold WORD; omega
  have e1 : b % WORD ≠ (a + 1) % WORD := by unfold WORD; omega
  have e2 : b % WORD ≠ (a + 2) % WORD := by unfold WORD; omega
  have e3 : b % WORD ≠ (a + 3) % WORD := by unfold WORD; omega
  simp only [write32, read8_write8, if_neg e0, if_neg e1, if_neg e2, if_neg e3]

theorem read32_write32_same (m : Mem) (a v : Nat) :
    read32 (write32 m a v) a = v % WORD := by
  have e01 : ¬ (a % WORD = (a + 1) % WORD) := by unfold WORD; omega
  have e02 : ¬ (a % WORD = (a + 2) % WORD) := by unfold WORD; omega
  have e03 : ¬ (a % WORD = (a + 3) % WORD) := by unfold WORD; omega
  have e12 : ¬ ((a + 1) % WORD = (a + 2) % WORD) := by unfold WORD; omega
  have e13 : ¬ ((a + 1) % WORD = (a + 3) % WORD) := by unfold WORD; omega
  have e23 : ¬ ((a + 2) % WORD = (a + 3) % WORD) := by unfold WORD; omega
  simp only [read32, write32, read8_write8, if_neg e01, if_neg e02, if_neg e03, if_neg e12,
    if_neg e13, if_neg e23, if_true]
  unfold WORD
  omega

theorem read32_lt (m : Mem) (a : Nat) : read32 m a < WORD := by
  unfold read32 read8 WORD
  omega

theorem read32_congr (m1 m2 : Mem) (x : Nat)
    (h : ∀ b, x ≤ b → b < x + 4 → read8 m2 b = read8 m1 b) : read32 m2 x = read32 m1 x := by
  unfold read32
  rw [h x (by omega) (by omega), h (x + 1) (by omega) (by omega),
    h (x + 2) (by omega) (by omega), h (x + 3) (by omega) (by omega)]

theorem SameOutside.refl (m : Mem) (lo hi : Nat) : SameOutside m m lo hi :=
  fun _ _ _ => rfl

theorem SameOutside.trans {m1 m2 m3 : Mem} {lo hi : Nat} (h12 : SameOutside m1 m2 lo hi)
    (h23 : SameOutside m2 m3 lo hi) : SameOutside m1 m3 lo hi :=
  fun b hb ho => (h23 b hb ho).trans (h12 b hb ho)

theorem SameOutside.mono {m1 m2 : Mem} {lo hi lo1 hi1 : Nat} (h : SameOutside m1 m2 lo hi)
    (hlo : lo1 ≤ lo) (hhi : hi ≤ hi1) : SameOutside m1 m2 lo1 hi1 :=
  fun b hb ho => h b hb (by omega)

theorem SameOutside.write32 (m : Mem) (a v : Nat) (ha : a + 4 ≤ WORD) :
    SameOutside m (write32 m a v) a (a + 4) :=
  fun b hb ho => read8_write32_out m a v b ha hb ho

theorem SameOutside.read32 {m1 m2 : Mem} {lo hi : Nat} (h : SameOutside m1 m2 lo hi) (x : Nat)
    (hx : x + 4 ≤ WORD) (ho : x + 4 ≤ lo ∨ hi ≤ x) : read32 m2 x = read32 m1 x :=
  read32_congr m1 m2 x fun b hb1 hb2 => h b (by omega) (by omega)

theorem read32_write32_disj (m : Mem) (a v b : Nat) (ha : a + 4 ≤ WORD) (hb : b + 4 ≤ WORD)
    (h : b + 4 ≤ a ∨ a + 4 ≤ b) : read32 (write32 m a v) b = read32 m b :=
  (SameOutside.write32 m a v ha).read32 b hb h

/-! ## The rounding macro -/

theorem land_mask8 (x : Nat) (hx : x < 4294967296) : x &&& 4294967288 = x / 8 * 8 := by
  have h1 : (x &&& 4294967288) / 8 = x / 8 := by
    have e : ∀ y : Nat, y / 8 = y / 2 / 2 / 2 := fun y => by omega
    rw [e, Nat.and_div_two, Nat.and_div_two, Nat.and_div_two, ← e]
    have h := Nat.and_pow_two_sub_one_eq_mod (x / 8) 29
    norm_num at h
    rw [h]
    omega
  have h2 : (x &&& 4294967288) % 8 = 0 := by
    have h := Nat.and_pow_two_sub_one_eq_mod (x &&& 4294967288) 3
    have h0 : 4294967288 &&& 7 = 0 := by decide
    rw [Nat.and_assoc] at h
    norm_num [h0] at h
    omega
  omega

theorem roundup_eq (n : Nat) (hn : n + 7 < WORD) :
    roundup n MIN_BLOCK_SIZE = (n + 7) / 8 * 8 := by
  unfold WORD at hn
  have h : roundup n MIN_BLOCK_SIZE = (n + 7) &&& 4294967288 := by
    simp only [roundup, MIN_BLOCK_SIZE, WORD]
    norm_num
    rw [Nat.mod_eq_of_lt hn]
  rw [h, land_mask8 _ hn]

theorem roundup_bounds (n : Nat) (hn : n + (MIN_BLOCK_SIZE - 1) < WORD) :
    n ≤ roundup n MIN_BLOCK_SIZE ∧ roundup n MIN_BLOCK_SIZE ≤ n + 7 ∧
      roundup n MIN_BLOCK_SIZE % 8 = 0 := by
  have hn7 : n + 7 < WORD := hn
  rw [roundup_eq n hn7]
  omega

theorem roundup_lt (x n : Nat) : roundup x n < WORD := by
  unfold roundup
  exact lt_of_le_of_lt Nat.and_le_left (Nat.mod_lt _ (by decide))

/-! ## Tilings -/

theorem block_len_ge (m : Mem) (h : Nat) : HEADER_SIZE ≤ block_len m h := by
  unfold block_len
  omega

theorem Tiles.le {m : Mem} {e : Nat} : ∀ {recs : List Nat} {a : Nat}, Tiles m e a recs → a ≤ e
  | [], _, h => Nat.le_of_eq h
  | _ :: _, _, h => by
    have := h.2.1
    omega

theorem Tiles.mem_bounds {m : Mem} {e : Nat} :
    ∀ {recs : List Nat} {a : Nat}, Tiles m e a recs → ∀ h ∈ recs, a ≤ h ∧ h + block_len m h ≤ e
  | [], _, _, h, hm => by cases hm
  | x :: xs, a, ht, h, hm => by
    obtain ⟨rfl, h2, h3⟩ := ht
    rcases List.mem_cons.1 hm with rfl | hm
    · exact ⟨le_refl _, h2⟩
    · have := Tiles.mem_bounds h3 h hm
      exact ⟨by omega, this.2⟩

theorem Tiles.length_le {m : Mem} {e : Nat} :
    ∀ {recs : List Nat} {a : Nat}, Tiles m e a recs → a + HEADER_SIZE * recs.length ≤ e
  | [], _, h => by simp [Nat.le_of_eq h]
  | x :: xs, a, ht => by
    obtain ⟨rfl, _, h3⟩ := ht
    have h4 := Tiles.length_le h3
    have h5 := block_len_ge m x
    simp only [List.length_cons, Nat.mul_succ]
    omega

theorem Tiles.append {m : Mem} {e : Nat} :
    ∀ {l1 l2 : List Nat} {a : Nat},
      Tiles m e a (l1 ++ l2) ↔ ∃ mid, Tiles m mid a l1 ∧ Tiles m e mid l2
  | [], l2, a => by
    constructor
    · intro h
      exact ⟨a, rfl, h⟩
    · rintro ⟨mid, h1, h2⟩
      have h1 : a = mid := h1
      subst h1
      exact h2
  | x :: xs, l2, a => by
    constructor
    · rintro ⟨rfl, h2, h3⟩
      obtain ⟨mid, h4, h5⟩ := (@Tiles.append m e xs l2 _).1 h3
      exact ⟨mid, ⟨rfl, by have := h4.le; omega, h4⟩, h5⟩
    · rintro ⟨mid, ⟨rfl, h2, h3⟩, h4⟩
      exact ⟨rfl, by have := h4.le; omega, (@Tiles.append m e xs l2 _).2 ⟨mid, h3, h4⟩⟩

theorem Tiles.split_at {m : Mem} {e a : Nat} {l1 l2 : List Nat} {h : Nat}
    (ht : Tiles m e a (l1 ++ h :: l2)) :
    Tiles m h a l1 ∧ h + block_len m h ≤ e ∧ Tiles m e (h + block_len m h) l2 := by
  obtain ⟨mid, h1, h2, h3, h4⟩ := Tiles.append.1 ht
  subst h2
  exact ⟨h1, h3, h4⟩

theorem Tiles.disjoint {m : Mem} {e a : Nat} {recs : List Nat} (ht : Tiles m e a recs)
    {x y : Nat} (hx : x ∈ recs) (hy : y ∈ recs) (hxy : x ≠ y) :
    x + block_len m x ≤ y ∨ y + block_len m y ≤ x := by
  obtain ⟨l1, l2, rfl⟩ := List.append_of_mem hx
  obtain ⟨h1, _, h3⟩ := ht.split_at
  rcases List.mem_append.1 hy with hy | hy
  · exact Or.inr (h1.mem_bounds y hy).2
  · rcases List.mem_cons.1 hy with hy | hy
    · exact absurd hy.symm hxy
    · exact Or.inl (h3.mem_bounds y hy).1

/-! ## First fit -/

theorem find_space_loop_spec (m : Mem) (e n : Nat) (he : e < WORD) :
    ∀ (recs : List Nat) (a fuel : Nat), Tiles m e a recs → recs.length < fuel →
      (∃ l1 h l2, recs = l1 ++ h :: l2 ∧ (∀ x ∈ l1, ¬ Fits m n x) ∧ Fits m n h ∧
        find_space_loop m e n fuel a = some h) ∨
      ((∀ x ∈ recs, ¬ Fits m n x) ∧ find_space_loop m e n fuel a = some e)
  | [], a, fuel, ht, hf => by
    obtain ⟨f, rfl⟩ : ∃ f, fuel = f + 1 := ⟨fuel - 1, by simp at hf; omega⟩
    have ht : a = e := ht
    subst ht
    right
    exact ⟨by simp, by simp [find_space_loop]⟩
  | x :: xs, a, fuel, ht, hf => by
    obtain ⟨f, rfl⟩ : ∃ f, fuel = f + 1 := ⟨fuel - 1, by simp at hf; omega⟩
    obtain ⟨rfl, h2, h3⟩ := ht
    have hb := block_len_ge m x
    have hne : x ≠ e := by
      simp only [HEADER_SIZE, FRAME_SIZE] at hb
      omega
    by_cases hfit : Fits m n x
    · left
      refine ⟨[], x, xs, rfl, by simp, hfit, ?_⟩
      have hfit1 := hfit
      unfold Fits at hfit1
      simp [find_space_loop, hne, hfit1]
    · have hstep : (x + read32 m x + HEADER_SIZE + 2 * RED_ZONE_LEN) % WORD
          = x + block_len m x := by
        unfold block_len
        rw [Nat.mod_eq_of_lt (by unfold block_len at h2; omega)]
        omega
      have hrec : find_space_loop m e n (f + 1) x = find_space_loop m e n f (x + block_len m x) := by
        have hfit1 := hfit
        unfold Fits at hfit1
        rw [find_space_loop, if_neg hne, if_neg hfit1, hstep]
      have ih := find_space_loop_spec m e n he xs (x + block_len m x) f h3
        (by simp at hf; omega)
      rcases ih with ⟨l1, h, l2, rfl, hl1, hh, hres⟩ | ⟨hall, hres⟩
      · left
        refine ⟨x :: l1, h, l2, rfl, ?_, hh, by rw [hrec, hres]⟩
        intro y hy
        rcases List.mem_cons.1 hy with rfl | hy
        · exact hfit
        · exact hl1 y hy
      · right
        refine ⟨?_, by rw [hrec, hres]⟩
        intro y hy
        rcases List.mem_cons.1 hy with rfl | hy
        · exact hfit
        · exact hall y hy

/-! ## Symbolic evaluation of `malloc` -/

theorem initialise_redzones_eq (m : Mem) (head : Nat) : initialise_redzones m head = m := rfl

theorem backtrace_zero (u fp : Nat) (m : Mem) (f : Nat) :
    backtrace u fp m f (NUM_FRAMES : Int) = (0, m) := by
  simp [backtrace, backtrace_loop, NUM_FRAMES]

theorem malloc_finish_eq (env : Env) (s : State) (head n : Nat) (h0 : head ≠ 0) :
    malloc_finish env s head n
      = ((head + HEADER_SIZE) % WORD, alloc_state s s.mem s.heap_end head n) := by
  simp [malloc_finish, NULL, h0, initialise_redzones_eq, backtrace_zero, alloc_state,
    RED_ZONE_LEN]

theorem sbrk_eq (sp : Nat) (s : State) (k : Nat) (hk : k < WORD)
    (hw : s.heap_end + k < WORD) :
    sbrk sp s (to_int k) =
      if (sp + WORD - 0x1000000) % WORD < s.heap_end + k then (NULL, s)
      else (s.heap_end, { s with heap_end := s.heap_end + k }) := by
  have e : (((s.heap_end : Int) + to_int k) % (WORD : Int)).toNat = s.heap_end + k := by
    unfold to_int
    unfold WORD at *
    split <;> · push_cast; omega
  simp only [sbrk, e, gt_iff_lt]

theorem malloc_zero (fuel : Nat) (env : Env) (s : State) : malloc fuel env s 0 = some (NULL, s) := by
  simp [malloc]

theorem malloc_grow_fail (fuel : Nat) (env : Env) (s : State) (n : Nat) (hn : n ≠ 0)
    (hfs : find_space fuel s (roundup n MIN_BLOCK_SIZE) = some s.heap_end)
    (hfail : (sbrk env.sp s
      (to_int (roundup n MIN_BLOCK_SIZE + HEADER_SIZE + 2 * RED_ZONE_LEN))).1 = NULL) :
    malloc fuel env s n = some (NULL,
      (sbrk env.sp s (to_int (roundup n MIN_BLOCK_SIZE + HEADER_SIZE + 2 * RED_ZONE_LEN))).2) := by
  simp [malloc, hn, hfs, hfail]

theorem malloc_grow_eq (fuel : Nat) (env : Env) (s : State) (n : Nat) (hn : n ≠ 0)
    (hfs : find_space fuel s (roundup n MIN_BLOCK_SIZE) = some s.heap_end)
    (hw : s.heap_end + (roundup n MIN_BLOCK_SIZE + HEADER_SIZE) < WORD)
    (h0 : s.heap_end ≠ 0)
    (hok : ¬ (env.sp + WORD - 0x1000000) % WORD
      < s.heap_end + (roundup n MIN_BLOCK_SIZE + HEADER_SIZE)) :
    malloc fuel env s n = some (s.heap_end + HEADER_SIZE,
      alloc_state s (write32 s.mem s.heap_end (roundup n MIN_BLOCK_SIZE))
        (s.heap_end + (roundup n MIN_BLOCK_SIZE + HEADER_SIZE)) s.heap_end n) := by
  have hk : roundup n MIN_BLOCK_SIZE + HEADER_SIZE + 2 * RED_ZONE_LEN
      = roundup n MIN_BLOCK_SIZE + HEADER_SIZE := rfl
  have hs := sbrk_eq env.sp s (roundup n MIN_BLOCK_SIZE + HEADER_SIZE) (by omega) hw
  rw [if_neg hok] at hs
  have hmod : (s.heap_end + HEADER_SIZE) % WORD = s.heap_end + HEADER_SIZE :=
    Nat.mod_eq_of_lt (by omega)
  simp only [malloc, if_neg hn, hfs, if_true, hk, hs, NULL, if_neg h0]
  rw [malloc_finish_eq _ _ _ _ h0, hmod]
  rfl

theorem malloc_reuse_eq (fuel : Nat) (env : Env) (s : State) (n h : Nat) (hn : n ≠ 0)
    (hfs : find_space fuel s (roundup n MIN_BLOCK_SIZE) = some h) (hne : h ≠ s.heap_end)
    (h0 : h ≠ 0) (hw : h + HEADER_SIZE < WORD)
    (hsmall : ¬ (roundup n MIN_BLOCK_SIZE + HEADER_SIZE + MIN_BLOCK_SIZE + 2 * RED_ZONE_LEN)
      % WORD ≤ read32 s.mem h) :
    malloc fuel env s n = some (h + HEADER_SIZE, alloc_state s s.mem s.heap_end h n) := by
  simp only [malloc, if_neg hn, hfs, if_neg hne, if_neg hsmall]
  rw [malloc_finish_eq _ _ _ _ h0, Nat.mod_eq_of_lt hw]

theorem malloc_split_eq (fuel : Nat) (env : Env) (s : State) (n h : Nat) (hn : n ≠ 0)
    (hfs : find_space fuel s (roundup n MIN_BLOCK_SIZE) = some h) (hne : h ≠ s.heap_end)
    (h0 : h ≠ 0) (hw : h + HEADER_SIZE < WORD)
    (hbig : (roundup n MIN_BLOCK_SIZE + HEADER_SIZE + MIN_BLOCK_SIZE + 2 * RED_ZONE_LEN)
      % WORD ≤ read32 s.mem h) :
    malloc fuel env s n = some (h + HEADER_SIZE,
      alloc_state s
        (write32 (split_block s.mem h (roundup n MIN_BLOCK_SIZE)) h (roundup n MIN_BLOCK_SIZE))
        s.heap_end h n) := by
  simp only [malloc, if_neg hn, hfs, if_neg hne, if_pos hbig]
  rw [malloc_finish_eq _ _ _ _ h0, Nat.mod_eq_of_lt hw]
  rfl

/-! ## Effect of the writes of `malloc` on the records -/

theorem alloc_state_mem (s : State) (m : Mem) (e h n : Nat) (hh : h + 12 ≤ WORD) :
    SameOutside m (alloc_state s m e h n).mem (h + 4) (h + 12) ∧
      read32 (alloc_state s m e h n).mem (h + OFF_STATUS) = USED ∧
      read32 (alloc_state s m e h n).mem (h + OFF_DATA_SIZE) = n % WORD := by
  simp only [alloc_state, OFF_STATUS, OFF_DATA_SIZE]
  refine ⟨?_, ?_, ?_⟩
  · exact ((SameOutside.write32 m (h + 4) USED (by omega)).mono (le_refl _) (by omega)).trans
      ((SameOutside.write32 _ (h + 8) n (by omega)).mono (by omega) (by omega))
  · rw [read32_write32_disj _ _ _ _ (by omega) (by omega) (by omega), read32_write32_same]
    rfl
  · rw [read32_write32_same]

theorem Tiles.congr_mem {m1 m2 : Mem} {e : Nat} :
    ∀ {recs : List Nat} {a : Nat}, Tiles m1 e a recs →
      (∀ x ∈ recs, read32 m2 x = read32 m1 x) → Tiles m2 e a recs
  | [], _, h, _ => h
  | x :: xs, a, ht, hr => by
    obtain ⟨rfl, h2, h3⟩ := ht
    have e1 : block_len m2 x = block_len m1 x := by
      unfold block_len
      rw [hr x (List.mem_cons_self _ _)]
    refine ⟨rfl, by omega, ?_⟩
    rw [e1]
    exact Tiles.congr_mem h3 fun y hy => hr y (List.mem_cons_of_mem _ hy)

theorem Tiles.same_outside_below {m1 m2 : Mem} {e a lo hi : Nat} {recs : List Nat}
    (ht : Tiles m1 e a recs) (hs : SameOutside m1 m2 lo hi) (he : e ≤ lo) (hw : e < WORD) :
    Tiles m2 e a recs :=
  ht.congr_mem fun x hx => by
    have hb := ht.mem_bounds x hx
    have hl := block_len_ge m1 x
    simp only [HEADER_SIZE, FRAME_SIZE] at hl
    exact hs.read32 x (by omega) (Or.inl (by omega))

theorem Tiles.same_outside_above {m1 m2 : Mem} {e a lo hi : Nat} {recs : List Nat}
    (ht : Tiles m1 e a recs) (hs : SameOutside m1 m2 lo hi) (ha : hi ≤ a) (hw : e < WORD) :
    Tiles m2 e a recs :=
  ht.congr_mem fun x hx => by
    have hb := ht.mem_bounds x hx
    have hl := block_len_ge m1 x
    simp only [HEADER_SIZE, FRAME_SIZE] at hl
    exact hs.read32 x (by omega) (Or.inr (by omega))

/-- Replacing the records of `[h, hi)` by the tiling `mid` of the new memory. -/
theorem Tiles.replace_middle {m1 m2 : Mem} {e a h hi : Nat} {l1 mid l2 : List Nat}
    (h1 : Tiles m1 h a l1) (h2 : Tiles m1 e hi l2) (hs : SameOutside m1 m2 h hi)
    (hm : Tiles m2 hi h mid) (hw : e < WORD) : Tiles m2 e a (l1 ++ (mid ++ l2)) := by
  have hle := h2.le
  have hle2 := hm.le
  exact Tiles.append.2 ⟨h, h1.same_outside_below hs (le_refl _) (by omega),
    Tiles.append.2 ⟨hi, hm, h2.same_outside_above hs (le_refl _) hw⟩⟩

/-! ## The loops of `free` -/

theorem mark_ledger_eq (m : Mem) (head : Nat) :
    ∀ (count : Nat) (hu : Nat → header) (lo j : Nat),
      mark_ledger m head hu count lo j =
        if lo ≤ j ∧ j < lo + count ∧ ledger_match m head (hu j) then
          { hu j with status := FREE }
        else hu j
  | 0, hu, lo, j => by
    have : ¬ (lo ≤ j ∧ j < lo + 0 ∧ ledger_match m head (hu j)) := by omega
    rw [if_neg this]
    rfl
  | count + 1, hu, lo, j => by
    rw [mark_ledger, mark_ledger_eq m head count _ (lo + 1) j]
    by_cases hm : ledger_match m head (hu lo)
    · simp only [if_pos hm]
      by_cases hj : j = lo
      · subst hj
        have c1 : ¬ (j + 1 ≤ j ∧ j < j + 1 + count ∧
            ledger_match m head (if j = j then { hu j with status := FREE } else hu j)) := by
          omega
        have c2 : j ≤ j ∧ j < j + (count + 1) ∧ ledger_match m head (hu j) :=
          ⟨le_refl _, by omega, hm⟩
        rw [if_neg c1, if_pos c2]
        simp
      · simp only [if_neg hj]
        by_cases hc : lo + 1 ≤ j ∧ j < lo + 1 + count ∧ ledger_match m head (hu j)
        · rw [if_pos hc, if_pos ⟨by omega, by omega, hc.2.2⟩]
        · rw [if_neg hc, if_neg (fun h => hc ⟨by omega, by omega, h.2.2⟩)]
    · simp only [if_neg hm]
      by_cases hc : lo + 1 ≤ j ∧ j < lo + 1 + count ∧ ledger_match m head (hu j)
      · rw [if_pos hc, if_pos ⟨by omega, by omega, hc.2.2⟩]
      · have : ¬ (lo ≤ j ∧ j < lo + (count + 1) ∧ ledger_match m head (hu j)) := by
          rintro ⟨h1, h2, h3⟩
          by_cases hj : j = lo
          · subst hj
            exact hm h3
          · exact hc ⟨by omega, by omega, h3⟩
        rw [if_neg hc, if_neg this]

theorem coalesce_spec (e h : Nat) (he : e < WORD) :
    ∀ (l2 : List Nat) (m : Mem) (fuel : Nat), Tiles m e (h + block_len m h) l2 →
      l2.length < fuel →
      ∃ m1 f rest, l2 = f ++ rest ∧ (∀ x ∈ f, read32 m (x + OFF_STATUS) = FREE) ∧
        (∀ x, rest.head? = some x → read32 m (x + OFF_STATUS) ≠ FREE) ∧
        coalesce e h fuel m (h + block_len m h) = some m1 ∧
        SameOutside m m1 h (h + 4) ∧
        Tiles m1 e (h + block_len m1 h) rest ∧
        block_len m1 h = block_len m h + (f.map (block_len m)).sum
  | [], m, fuel, ht, hf => by
    obtain ⟨k, rfl⟩ : ∃ k, fuel = k + 1 := ⟨fuel - 1, by simp at hf; omega⟩
    have ht1 : h + block_len m h = e := ht
    refine ⟨m, [], [], rfl, by simp, by simp, ?_, SameOutside.refl _ _ _, ht, by simp⟩
    simp [coalesce, ht1]
  | x :: xs, m, fuel, ht, hf => by
    obtain ⟨k, rfl⟩ : ∃ k, fuel = k + 1 := ⟨fuel - 1, by simp at hf; omega⟩
    obtain ⟨hx, h2, h3⟩ := ht
    rw [← hx] at h2 h3
    have hC : HEADER_SIZE = 48 := rfl
    have hW : WORD = 4294967296 := rfl
    have hdx : block_len m x = read32 m x + HEADER_SIZE + 2 * RED_ZONE_LEN := rfl
    have hdh : block_len m h = read32 m h + 48 := rfl
    have hbx := block_len_ge m x
    have hne : x ≠ e := by omega
    rw [← hx]
    by_cases hst : read32 m (x + OFF_STATUS) = FREE
    · -- the next record is free: it is absorbed
      have hbs : (read32 m x + HEADER_SIZE + 2 * RED_ZONE_LEN) % WORD = block_len m x := by
        rw [← hdx]
        exact Nat.mod_eq_of_lt (by omega)
      have hsz : (read32 m h + block_len m x) % WORD = read32 m h + block_len m x :=
        Nat.mod_eq_of_lt (by omega)
      have hnext : (x + block_len m x) % WORD = x + block_len m x :=
        Nat.mod_eq_of_lt (by omega)
      have hso : SameOutside m (write32 m h (read32 m h + block_len m x)) h (h + 4) :=
        SameOutside.write32 m h _ (by omega)
      have hbl : block_len (write32 m h (read32 m h + block_len m x)) h
          = block_len m h + block_len m x := by
        have : block_len (write32 m h (read32 m h + block_len m x)) h
            = read32 (write32 m h (read32 m h + block_len m x)) h + 48 := rfl
        rw [this, read32_write32_same, hsz]
        omega
      have hnx : h + block_len (write32 m h (read32 m h + block_len m x)) h
          = x + block_len m x := by omega
      have ht1 : Tiles (write32 m h (read32 m h + block_len m x)) e
          (h + block_len (write32 m h (read32 m h + block_len m x)) h) xs := by
        rw [hnx]
        exact h3.same_outside_above hso (by omega) he
      obtain ⟨m1, f, rest, hl, hf1, hr1, hco, hso1, ht2, hsum⟩ :=
        coalesce_spec e h he xs _ k ht1 (by simp at hf; omega)
      have hrd : ∀ y ∈ xs, ∀ off, off + 4 ≤ HEADER_SIZE →
          read32 (write32 m h (read32 m h + block_len m x)) (y + off) = read32 m (y + off) := by
        intro y hy off hoff
        have hb := h3.mem_bounds y hy
        have hby := block_len_ge m y
        exact hso.read32 _ (by omega) (Or.inr (by omega))
      refine ⟨m1, x :: f, rest, by simp [hl], ?_, ?_, ?_, hso.trans hso1, ht2, ?_⟩
      · intro y hy
        rcases List.mem_cons.1 hy with rfl | hy
        · exact hst
        · rw [← hrd y (by rw [hl]; exact List.mem_append_left _ hy) OFF_STATUS (by decide)]
          exact hf1 y hy
      · intro y hy
        have hyx : y ∈ xs := by
          rw [hl]
          exact List.mem_append_right _ (List.mem_of_mem_head? hy)
        rw [← hrd y hyx OFF_STATUS (by decide)]
        exact hr1 y hy
      · rw [← hco, coalesce, if_pos ⟨hne, hst⟩]
        simp only [hbs, hsz, hnext, hnx]
      · rw [hsum, hbl, List.map_cons, List.sum_cons, Nat.add_assoc]
        congr 2
        apply congrArg
        apply List.map_congr_left
        intro y hy
        have := hrd y (by rw [hl]; exact List.mem_append_left _ hy) 0 (by decide)
        show read32 _ y + HEADER_SIZE + 2 * RED_ZONE_LEN = read32 m y + HEADER_SIZE + 2 * RED_ZONE_LEN
        rw [Nat.add_zero] at this
        rw [this]
    · -- the next record is used: the loop stops
      refine ⟨m, [], x :: xs, rfl, by simp, ?_, ?_, SameOutside.refl _ _ _, ?_, by simp⟩
      · intro y hy
        simp only [List.head?_cons, Option.some.injEq] at hy
        subst hy
        exact hst
      · have : ¬ (x ≠ e ∧ read32 m (x + OFF_STATUS) = 0) := fun h4 => hst h4.2
        rw [coalesce, if_neg this]
      · rw [← hx]
        exact ⟨rfl, h2, h3⟩

/-! ## `malloc` on a well-formed heap -/

theorem find_space_spec {s : State} {recs : List Nat} (hwf : WellFormedWith s recs)
    (n fuel : Nat) (hf : recs.length < fuel) :
    (∃ l1 h l2, recs = l1 ++ h :: l2 ∧ (∀ x ∈ l1, ¬ Fits s.mem n x) ∧ Fits s.mem n h ∧
      find_space fuel s n = some h) ∨
    ((∀ x ∈ recs, ¬ Fits s.mem n x) ∧ find_space fuel s n = some s.heap_end) :=
  find_space_loop_spec s.mem s.heap_end n hwf.2.1 recs s.heap_start fuel hwf.2.2 hf

theorem WellFormedWith.start_le {s : State} {recs : List Nat} (hwf : WellFormedWith s recs) :
    s.heap_start ≤ s.heap_end := hwf.2.2.le

theorem malloc_grow_wf {s : State} {recs : List Nat} (hwf : WellFormedWith s recs)
    (fuel : Nat) (env : Env) (n : Nat) (hn : n ≠ 0) (hnw : NoWrap s n)
    (hfs : find_space fuel s (roundup n MIN_BLOCK_SIZE) = some s.heap_end)
    (hok : ¬ (env.sp + WORD - 0x1000000) % WORD
      < s.heap_end + (roundup n MIN_BLOCK_SIZE + HEADER_SIZE)) :
    malloc fuel env s n = some (s.heap_end + HEADER_SIZE,
      alloc_state s (write32 s.mem s.heap_end (roundup n MIN_BLOCK_SIZE))
        (s.heap_end + (roundup n MIN_BLOCK_SIZE + HEADER_SIZE)) s.heap_end n) ∧
    WellFormedWith (alloc_state s (write32 s.mem s.heap_end (roundup n MIN_BLOCK_SIZE))
        (s.heap_end + (roundup n MIN_BLOCK_SIZE + HEADER_SIZE)) s.heap_end n)
      (recs ++ [s.heap_end]) ∧
    SameOutside s.mem (alloc_state s (write32 s.mem s.heap_end (roundup n MIN_BLOCK_SIZE))
        (s.heap_end + (roundup n MIN_BLOCK_SIZE + HEADER_SIZE)) s.heap_end n).mem
      s.heap_end (s.heap_end + 12) ∧
    read32 (alloc_state s (write32 s.mem s.heap_end (roundup n MIN_BLOCK_SIZE))
        (s.heap_end + (roundup n MIN_BLOCK_SIZE + HEADER_SIZE)) s.heap_end n).mem s.heap_end
      = roundup n MIN_BLOCK_SIZE := by
  obtain ⟨h0, he, ht⟩ := hwf
  obtain ⟨hw1, hw2, hw3⟩ := hnw
  have hC : HEADER_SIZE = 48 := rfl
  have hR : RED_ZONE_LEN = 0 := rfl
  have hW : WORD = 4294967296 := rfl
  have hle := ht.le
  have hr := roundup_lt n MIN_BLOCK_SIZE
  obtain ⟨ha1, ha2, ha3⟩ := alloc_state_mem s (write32 s.mem s.heap_end (roundup n MIN_BLOCK_SIZE))
    (s.heap_end + (roundup n MIN_BLOCK_SIZE + HEADER_SIZE)) s.heap_end n (by omega)
  have hso : SameOutside s.mem (alloc_state s (write32 s.mem s.heap_end
      (roundup n MIN_BLOCK_SIZE)) (s.heap_end + (roundup n MIN_BLOCK_SIZE + HEADER_SIZE))
      s.heap_end n).mem s.heap_end (s.heap_end + 12) :=
    ((SameOutside.write32 s.mem s.heap_end _ (by omega)).mono (le_refl _) (by omega)).trans
      (ha1.mono (by omega) (le_refl _))
  have hrd : read32 (alloc_state s (write32 s.mem s.heap_end (roundup n MIN_BLOCK_SIZE))
      (s.heap_end + (roundup n MIN_BLOCK_SIZE + HEADER_SIZE)) s.heap_end n).mem s.heap_end
      = roundup n MIN_BLOCK_SIZE := by
    rw [ha1.read32 _ (by omega) (Or.inl (by omega)), read32_write32_same,
      Nat.mod_eq_of_lt hr]
  refine ⟨malloc_grow_eq fuel env s n hn hfs (by omega) (by omega) hok, ⟨h0, ?_, ?_⟩, hso, hrd⟩
  · show s.heap_end + (roundup n MIN_BLOCK_SIZE + HEADER_SIZE) < WORD
    omega
  · show Tiles _ (s.heap_end + (roundup n MIN_BLOCK_SIZE + HEADER_SIZE)) s.heap_start _
    refine Tiles.append.2 ⟨s.heap_end, ht.same_outside_below hso (le_refl _) he, rfl, ?_, ?_⟩
    · show s.heap_end + (read32 _ s.heap_end + HEADER_SIZE + 2 * RED_ZONE_LEN) ≤ _
      rw [hrd]
      omega
    · show s.heap_end + (read32 _ s.heap_end + HEADER_SIZE + 2 * RED_ZONE_LEN) = _
      rw [hrd]
      omega

theorem malloc_reuse_wf {s : State} {l1 l2 : List Nat} {h : Nat}
    (hwf : WellFormedWith s (l1 ++ h :: l2))
    (fuel : Nat) (env : Env) (n : Nat) (hn : n ≠ 0)
    (hw2 : roundup n MIN_BLOCK_SIZE + HEADER_SIZE + MIN_BLOCK_SIZE + 2 * RED_ZONE_LEN < WORD)
    (hfs : find_space fuel s (roundup n MIN_BLOCK_SIZE) = some h)
    (hsmall : read32 s.mem h < roundup n MIN_BLOCK_SIZE + HEADER_SIZE + MIN_BLOCK_SIZE) :
    malloc fuel env s n = some (h + HEADER_SIZE, alloc_state s s.mem s.heap_end h n) ∧
    WellFormedWith (alloc_state s s.mem s.heap_end h n) (l1 ++ h :: l2) ∧
    SameOutside s.mem (alloc_state s s.mem s.heap_end h n).mem (h + 4) (h + 12) := by
  obtain ⟨h0, he, ht⟩ := hwf
  have hC : HEADER_SIZE = 48 := rfl
  have hR : RED_ZONE_LEN = 0 := rfl
  have hM : MIN_BLOCK_SIZE = 8 := rfl
  have hW : WORD = 4294967296 := rfl
  have hb := ht.mem_bounds h (by simp)
  have hbl := block_len_ge s.mem h
  obtain ⟨ha1, ha2, ha3⟩ := alloc_state_mem s s.mem s.heap_end h n (by omega)
  refine ⟨malloc_reuse_eq fuel env s n h hn hfs (by omega) (by omega) (by omega) ?_,
    ⟨h0, he, ?_⟩, ha1⟩
  · rw [Nat.mod_eq_of_lt (by omega)]
    omega
  · refine ht.congr_mem fun x hx => ?_
    have hbx := ht.mem_bounds x hx
    have hblx := block_len_ge s.mem x
    by_cases hxh : x = h
    · subst hxh
      exact ha1.read32 x (by omega) (Or.inl (by omega))
    · rcases ht.disjoint hx (by simp) hxh with hd | hd
      · exact ha1.read32 x (by omega) (Or.inl (by omega))
      · exact ha1.read32 x (by omega) (Or.inr (by omega))

theorem split_block_eq (m : Mem) (h r : Nat) (hw : h + r + HEADER_SIZE < WORD)
    (hc : r + HEADER_SIZE ≤ read32 m h) :
    split_block m h r
      = write32 (write32 m (h + r + HEADER_SIZE) (read32 m h - r - HEADER_SIZE))
          (h + r + HEADER_SIZE + OFF_STATUS) FREE := by
  have hC : HEADER_SIZE = 48 := rfl
  have hW : WORD = 4294967296 := rfl
  have hlt := read32_lt m h
  have e1 : (h + r + HEADER_SIZE + 2 * RED_ZONE_LEN) % WORD = h + r + HEADER_SIZE :=
    Nat.mod_eq_of_lt hw
  have e2 : (read32 m h + 3 * WORD - r - HEADER_SIZE - 2 * RED_ZONE_LEN) % WORD
      = read32 m h - r - HEADER_SIZE := by
    simp only [WORD, HEADER_SIZE, FRAME_SIZE, RED_ZONE_LEN] at *
    omega
  simp only [split_block, e1, e2]

theorem malloc_split_wf {s : State} {l1 l2 : List Nat} {h : Nat}
    (hwf : WellFormedWith s (l1 ++ h :: l2))
    (fuel : Nat) (env : Env) (n : Nat) (hn : n ≠ 0)
    (hw2 : roundup n MIN_BLOCK_SIZE + HEADER_SIZE + MIN_BLOCK_SIZE + 2 * RED_ZONE_LEN < WORD)
    (hfs : find_space fuel s (roundup n MIN_BLOCK_SIZE) = some h)
    (hbig : roundup n MIN_BLOCK_SIZE + HEADER_SIZE + MIN_BLOCK_SIZE ≤ read32 s.mem h) :
    ∃ s1, malloc fuel env s n = some (h + HEADER_SIZE, s1) ∧
      s1 = alloc_state s (write32 (split_block s.mem h (roundup n MIN_BLOCK_SIZE)) h
        (roundup n MIN_BLOCK_SIZE)) s.heap_end h n ∧
      WellFormedWith s1 (l1 ++ h :: (h + roundup n MIN_BLOCK_SIZE + HEADER_SIZE) :: l2) ∧
      SameOutside s.mem s1.mem h (h + roundup n MIN_BLOCK_SIZE + HEADER_SIZE + 8) ∧
      read32 s1.mem h = roundup n MIN_BLOCK_SIZE ∧
      read32 s1.mem (h + roundup n MIN_BLOCK_SIZE + HEADER_SIZE)
        = read32 s.mem h - roundup n MIN_BLOCK_SIZE - HEADER_SIZE ∧
      read32 s1.mem (h + roundup n MIN_BLOCK_SIZE + HEADER_SIZE + OFF_STATUS) = FREE := by
  obtain ⟨h0, he, ht⟩ := hwf
  have hC : HEADER_SIZE = 48 := rfl
  have hR : RED_ZONE_LEN = 0 := rfl
  have hM : MIN_BLOCK_SIZE = 8 := rfl
  have hO : OFF_STATUS = 4 := rfl
  have hW : WORD = 4294967296 := rfl
  have hb := ht.mem_bounds h (by simp)
  have hdh : block_len s.mem h = read32 s.mem h + 48 := rfl
  obtain ⟨ht1, ht2, ht3⟩ := ht.split_at
  generalize hr : roundup n MIN_BLOCK_SIZE = r at *
  have hsp := split_block_eq s.mem h r (by omega) (by omega)
  obtain ⟨ha1, ha2, ha3⟩ := alloc_state_mem s (write32 (split_block s.mem h r) h r)
    s.heap_end h n (by omega)
  refine ⟨_, ?_, rfl, ?_⟩
  · have := malloc_split_eq fuel env s n h hn (by rw [hr]; exact hfs) (by omega) (by omega)
      (by omega) (by rw [hr, Nat.mod_eq_of_lt (by omega)]; omega)
    rw [hr] at this
    exact this
  -- the memory after the three groups of writes
  have hs1 : SameOutside s.mem (split_block s.mem h r) (h + r + HEADER_SIZE)
      (h + r + HEADER_SIZE + 8) := by
    rw [hsp]
    exact ((SameOutside.write32 s.mem (h + r + HEADER_SIZE) _ (by omega)).mono (le_refl _)
      (by omega)).trans
      ((SameOutside.write32 _ (h + r + HEADER_SIZE + OFF_STATUS) FREE (by omega)).mono
        (by omega) (by omega))
  have hs2 : SameOutside (split_block s.mem h r) (write32 (split_block s.mem h r) h r)
      h (h + 4) := SameOutside.write32 _ h r (by omega)
  have hso : SameOutside s.mem
      (alloc_state s (write32 (split_block s.mem h r) h r) s.heap_end h n).mem
      h (h + r + HEADER_SIZE + 8) :=
    ((hs1.mono (by omega) (le_refl _)).trans (hs2.mono (le_refl _) (by omega))).trans
      (ha1.mono (by omega) (by omega))
  have hrd1 : read32 (alloc_state s (write32 (split_block s.mem h r) h r) s.heap_end h n).mem h
      = r := by
    rw [ha1.read32 _ (by omega) (Or.inl (by omega)), read32_write32_same,
      Nat.mod_eq_of_lt (by omega)]
  have hrd2 : read32 (alloc_state s (write32 (split_block s.mem h r) h r) s.heap_end h n).mem
      (h + r + HEADER_SIZE) = read32 s.mem h - r - HEADER_SIZE := by
    rw [ha1.read32 _ (by omega) (Or.inr (by omega)),
      hs2.read32 _ (by omega) (Or.inr (by omega)), hsp,
      read32_write32_disj _ _ _ _ (by omega) (by omega) (by omega), read32_write32_same,
      Nat.mod_eq_of_lt (by omega)]
  have hrd3 : read32 (alloc_state s (write32 (split_block s.mem h r) h r) s.heap_end h n).mem
      (h + r + HEADER_SIZE + OFF_STATUS) = FREE := by
    rw [ha1.read32 _ (by omega) (Or.inr (by omega)),
      hs2.read32 _ (by omega) (Or.inr (by omega)), hsp, read32_write32_same]
    rfl
  refine ⟨⟨h0, he, ?_⟩, hso, hrd1, hrd2, hrd3⟩
  show Tiles _ s.heap_end s.heap_start _
  have hb1 : block_len (alloc_state s (write32 (split_block s.mem h r) h r) s.heap_end h n).mem h
      = r + 48 := by
    show read32 _ h + HEADER_SIZE + 2 * RED_ZONE_LEN = _
    rw [hrd1]
    omega
  have hb2 : block_len (alloc_state s (write32 (split_block s.mem h r) h r) s.heap_end h n).mem
      (h + r + HEADER_SIZE) = read32 s.mem h - r := by
    show read32 _ (h + r + HEADER_SIZE) + HEADER_SIZE + 2 * RED_ZONE_LEN = _
    rw [hrd2]
    omega
  have hmid : Tiles (alloc_state s (write32 (split_block s.mem h r) h r) s.heap_end h n).mem
      (h + block_len s.mem h) h [h, h + r + HEADER_SIZE] := by
    have e : h + block_len (alloc_state s (write32 (split_block s.mem h r) h r)
        s.heap_end h n).mem h = h + r + HEADER_SIZE := by omega
    refine ⟨rfl, by omega, ?_⟩
    rw [e]
    exact ⟨rfl, by omega, by show _ + _ = _; omega⟩
  have := Tiles.replace_middle ht1 ht3 (hso.mono (le_refl _) (by omega)) hmid he
  simpa using this

/-! ## `free` on a well-formed heap -/

theorem free_null (fuel : Nat) (s : State) : free fuel s NULL = some s := by
  simp [free]

theorem free_wf {s : State} {l1 l2 : List Nat} {h : Nat}
    (hwf : WellFormedWith s (l1 ++ h :: l2)) (fuel : Nat) (hf : l2.length < fuel) :
    ∃ m1 f rest, l2 = f ++ rest ∧ (∀ x ∈ f, read32 s.mem (x + OFF_STATUS) = FREE) ∧
      (∀ x, rest.head? = some x → read32 s.mem (x + OFF_STATUS) ≠ FREE) ∧
      free fuel s (h + HEADER_SIZE) = some
        { s with mem := m1, heap_usage := mark_ledger s.mem h s.heap_usage s.num_allocs 0,
                 num_frees := s.num_frees + 1 } ∧
      Tiles m1 s.heap_end s.heap_start (l1 ++ h :: rest) ∧
      SameOutside s.mem m1 h (h + 8) ∧
      read32 m1 (h + OFF_STATUS) = FREE ∧
      block_len m1 h = block_len s.mem h + (f.map (block_len s.mem)).sum := by
  obtain ⟨h0, he, ht⟩ := hwf
  have hC : HEADER_SIZE = 48 := rfl
  have hR : RED_ZONE_LEN = 0 := rfl
  have hO : OFF_STATUS = 4 := rfl
  have hW : WORD = 4294967296 := rfl
  have hdh : block_len s.mem h = read32 s.mem h + 48 := rfl
  obtain ⟨ht1, ht2, ht3⟩ := ht.split_at
  have hso : SameOutside s.mem (write32 s.mem (h + OFF_STATUS) FREE) (h + 4) (h + 8) :=
    SameOutside.write32 s.mem (h + 4) FREE (by omega)
  have hrd : read32 (write32 s.mem (h + OFF_STATUS) FREE) h = read32 s.mem h :=
    hso.read32 h (by omega) (Or.inl (by omega))
  have hbl : block_len (write32 s.mem (h + OFF_STATUS) FREE) h = block_len s.mem h := by
    show read32 _ h + HEADER_SIZE + 2 * RED_ZONE_LEN = read32 _ h + HEADER_SIZE + 2 * RED_ZONE_LEN
    rw [hrd]
  have ht4 : Tiles (write32 s.mem (h + OFF_STATUS) FREE) s.heap_end
      (h + block_len (write32 s.mem (h + OFF_STATUS) FREE) h) l2 := by
    rw [hbl]
    exact ht3.same_outside_above hso (by omega) he
  obtain ⟨m1, f, rest, hl, hf1, hr1, hco, hso1, ht5, hsum⟩ :=
    coalesce_spec s.heap_end h he l2 _ fuel ht4 hf
  have hrds : ∀ y ∈ l2, ∀ off, off + 4 ≤ HEADER_SIZE →
      read32 (write32 s.mem (h + OFF_STATUS) FREE) (y + off) = read32 s.mem (y + off) := by
    intro y hy off hoff
    have hb := ht3.mem_bounds y hy
    have hby := block_len_ge s.mem y
    exact hso.read32 _ (by omega) (Or.inr (by omega))
  have hso2 : SameOutside s.mem m1 h (h + 8) :=
    (hso.mono (by omega) (le_refl _)).trans (hso1.mono (le_refl _) (by omega))
  refine ⟨m1, f, rest, hl, ?_, ?_, ?_, ?_, hso2, ?_, ?_⟩
  · intro y hy
    rw [← hrds y (by rw [hl]; exact List.mem_append_left _ hy) OFF_STATUS (by decide)]
    exact hf1 y hy
  · intro y hy
    rw [← hrds y (by rw [hl]; exact List.mem_append_right _ (List.mem_of_mem_head? hy))
      OFF_STATUS (by decide)]
    exact hr1 y hy
  · have hp : h + HEADER_SIZE ≠ NULL := by
      show h + HEADER_SIZE ≠ 0
      omega
    have hhead : (h + HEADER_SIZE + 2 * WORD - HEADER_SIZE - RED_ZONE_LEN) % WORD = h := by
      simp only [WORD, HEADER_SIZE, FRAME_SIZE, RED_ZONE_LEN] at *
      omega
    have hchk : check_redzones s.mem h = false := rfl
    have hhc : (h + (read32 (write32 s.mem (h + OFF_STATUS) FREE) h + HEADER_SIZE
        + 2 * RED_ZONE_LEN) % WORD) % WORD
        = h + block_len (write32 s.mem (h + OFF_STATUS) FREE) h := by
      rw [hrd, hbl]
      simp only [WORD, HEADER_SIZE, FRAME_SIZE, RED_ZONE_LEN] at *
      omega
    simp only [free, if_neg hp, hhead, hchk, hhc, hco]
    simp
  · exact Tiles.append.2 ⟨h, ht1.same_outside_below hso2 (le_refl _) (by omega),
      rfl, by have := ht5.le; omega, ht5⟩
  · rw [hso1.read32 _ (by omega) (Or.inr (by omega)), read32_write32_same]
    rfl
  · rw [hsum, hbl]
    congr 2
    apply List.map_congr_left
    intro y hy
    have := hrds y (by rw [hl]; exact List.mem_append_left _ hy) 0 (by decide)
    rw [Nat.add_zero] at this
    show read32 _ y + HEADER_SIZE + 2 * RED_ZONE_LEN = read32 _ y + HEADER_SIZE + 2 * RED_ZONE_LEN
    rw [this]

/-! ## Every outcome of `malloc` on a well-formed heap -/

theorem malloc_wf {s : State} {recs : List Nat} (hwf : WellFormedWith s recs)
    (fuel : Nat) (hf : recs.length < fuel) (env : Env) (n : Nat) (hn : n ≠ 0)
    (hnw : NoWrap s n) :
    ∃ p s1, malloc fuel env s n = some (p, s1) ∧
      ((p = NULL ∧ s1 = s) ∨
        ∃ h recs1 lo hi m e, p = h + HEADER_SIZE ∧ s1 = alloc_state s m e h n ∧
          WellFormedWith s1 recs1 ∧ h ∈ recs1 ∧
          read32 s1.mem (h + OFF_STATUS) = USED ∧ read32 s1.mem (h + OFF_DATA_SIZE) = n ∧
          roundup n MIN_BLOCK_SIZE ≤ read32 s1.mem h ∧
          SameOutside s.mem s1.mem lo hi ∧
          (∀ x ∈ recs, read32 s.mem (x + OFF_STATUS) ≠ FREE →
            x ∈ recs1 ∧ (x + block_len s.mem x ≤ lo ∨ hi ≤ x))) := by
  have hwf1 := hwf
  obtain ⟨h0, he, ht⟩ := hwf1
  have hnw1 := hnw
  obtain ⟨hw1, hw2, hw3⟩ := hnw1
  have hC : HEADER_SIZE = 48 := rfl
  have hR : RED_ZONE_LEN = 0 := rfl
  have hM : MIN_BLOCK_SIZE = 8 := rfl
  have hO : OFF_STATUS = 4 := rfl
  have hW : WORD = 4294967296 := rfl
  have hnmod : n % WORD = n := Nat.mod_eq_of_lt (by omega)
  have hle := ht.le
  rcases find_space_spec hwf (roundup n MIN_BLOCK_SIZE) fuel hf with
    ⟨l1, h, l2, rfl, hl1, hfit, hfs⟩ | ⟨hall, hfs⟩
  · -- a free record fits
    have hb := ht.mem_bounds h (by simp)
    have hbl := block_len_ge s.mem h
    have hkeep : ∀ hi, hi ≤ h + block_len s.mem h → ∀ x ∈ l1 ++ h :: l2,
        read32 s.mem (x + OFF_STATUS) ≠ FREE → x + block_len s.mem x ≤ h ∨ hi ≤ x := by
      intro hi hhi x hx hst
      have hxh : x ≠ h := fun hxh => hst (hxh ▸ hfit.1)
      rcases ht.disjoint hx (by simp) hxh with hd | hd
      · exact Or.inl hd
      · exact Or.inr (by omega)
    by_cases hbig : roundup n MIN_BLOCK_SIZE + HEADER_SIZE + MIN_BLOCK_SIZE ≤ read32 s.mem h
    · obtain ⟨s1, hm, hs1, hwf2, hso, hr1, hr2, hr3⟩ :=
        malloc_split_wf hwf fuel env n hn hw2 hfs hbig
      have hdh : block_len s.mem h = read32 s.mem h + 48 := rfl
      obtain ⟨ha1, ha2, ha3⟩ := alloc_state_mem s
        (write32 (split_block s.mem h (roundup n MIN_BLOCK_SIZE)) h (roundup n MIN_BLOCK_SIZE))
        s.heap_end h n (by omega)
      refine ⟨_, s1, hm, Or.inr ⟨h, _, h, h + roundup n MIN_BLOCK_SIZE + HEADER_SIZE + 8, _, _,
        rfl, hs1, hwf2, by simp, ?_, ?_, by rw [hr1], hso, ?_⟩⟩
      · rw [hs1]; exact ha2
      · rw [hs1, ha3, hnmod]
      · intro x hx hst
        refine ⟨?_, hkeep _ (by omega) x hx hst⟩
        rcases List.mem_append.1 hx with hx | hx
        · exact List.mem_append_left _ hx
        · rcases List.mem_cons.1 hx with hx | hx
          · exact List.mem_append_right _ (hx ▸ List.mem_cons_self _ _)
          · exact List.mem_append_right _
              (List.mem_cons_of_mem _ (List.mem_cons_of_mem _ hx))
    · obtain ⟨hm, hwf2, hso⟩ := malloc_reuse_wf hwf fuel env n hn hw2 hfs (by omega)
      obtain ⟨ha1, ha2, ha3⟩ := alloc_state_mem s s.mem s.heap_end h n (by omega)
      refine ⟨_, _, hm, Or.inr ⟨h, _, h + 4, h + 12, _, _, rfl, rfl, hwf2, by simp, ha2,
        by rw [ha3, hnmod], ?_, hso, ?_⟩⟩
      · rw [hso.read32 h (by omega) (Or.inl (by omega))]
        exact hfit.2
      · intro x hx hst
        refine ⟨hx, ?_⟩
        rcases hkeep (h + 12) (by omega) x hx hst with hd | hd
        · exact Or.inl (by omega)
        · exact Or.inr hd
  · -- no record fits: the heap grows
    by_cases hok : (env.sp + WORD - 0x1000000) % WORD
        < s.heap_end + (roundup n MIN_BLOCK_SIZE + HEADER_SIZE)
    · have hs := sbrk_eq env.sp s (roundup n MIN_BLOCK_SIZE + HEADER_SIZE) (by omega)
        (by omega)
      rw [if_pos hok] at hs
      have hk : roundup n MIN_BLOCK_SIZE + HEADER_SIZE + 2 * RED_ZONE_LEN
          = roundup n MIN_BLOCK_SIZE + HEADER_SIZE := rfl
      have := malloc_grow_fail fuel env s n hn hfs (by rw [hk, hs])
      rw [hk, hs] at this
      exact ⟨_, _, this, Or.inl ⟨rfl, rfl⟩⟩
    · obtain ⟨hm, hwf2, hso, hrd⟩ := malloc_grow_wf hwf fuel env n hn hnw hfs hok
      obtain ⟨ha1, ha2, ha3⟩ := alloc_state_mem s
        (write32 s.mem s.heap_end (roundup n MIN_BLOCK_SIZE))
        (s.heap_end + (roundup n MIN_BLOCK_SIZE + HEADER_SIZE)) s.heap_end n (by omega)
      refine ⟨_, _, hm, Or.inr ⟨s.heap_end, _, s.heap_end, s.heap_end + 12, _, _, rfl, rfl,
        hwf2, by simp, ha2, by rw [ha3, hnmod], by rw [hrd], hso, ?_⟩⟩
      intro x hx _
      exact ⟨List.mem_append_left _ hx, Or.inl (ht.mem_bounds x hx).2⟩

/-! ## The invariant of the runs -/

theorem read_header_frames_congr {m1 m2 : Mem} {lo hi : Nat} (hso : SameOutside m1 m2 lo hi)
    (x : Nat) (hx : x + HEADER_SIZE < WORD) (ho : x + HEADER_SIZE ≤ lo ∨ hi ≤ x) :
    (read_header m2 x).frames = (read_header m1 x).frames := by
  have hC : HEADER_SIZE = 48 := rfl
  have hW : WORD = 4294967296 := rfl
  funext i
  have hi3 := i.isLt
  simp only [read_header, OFF_FRAMES, FRAME_SIZE]
  rw [hso.read32 _ (by omega) (by omega), hso.read32 _ (by omega) (by omega),
    hso.read32 _ (by omega) (by omega)]

theorem LiveOk.transfer {s s1 : State} {recs recs1 : List Nat} {l : Live} {lo hi : Nat}
    (hl : LiveOk s recs l) (hwf : WellFormedWith s recs)
    (hso : SameOutside s.mem s1.mem lo hi)
    (hkeep : ∀ x ∈ recs, read32 s.mem (x + OFF_STATUS) ≠ FREE → l.ptr = x + HEADER_SIZE →
      x ∈ recs1 ∧ (x + block_len s.mem x ≤ lo ∨ hi ≤ x))
    (hled : ∀ i < s.num_allocs, (s1.heap_usage i).frames = (s.heap_usage i).frames)
    (hnum : s.num_allocs ≤ s1.num_allocs) : LiveOk s1 recs1 l := by
  obtain ⟨x, hx, hp, hst, hsz, hidx, hfr⟩ := hl
  have hC : HEADER_SIZE = 48 := rfl
  have hO : OFF_STATUS = 4 := rfl
  have hW : WORD = 4294967296 := rfl
  have hb := hwf.2.2.mem_bounds x hx
  have he := hwf.2.1
  have hbl := block_len_ge s.mem x
  have hdx : block_len s.mem x = read32 s.mem x + 48 := rfl
  obtain ⟨hx1, hout⟩ := hkeep x hx (by rw [hst]; decide) hp
  have hout1 : ∀ off, off + 4 ≤ HEADER_SIZE → read32 s1.mem (x + off) = read32 s.mem (x + off) :=
    fun off hoff => hso.read32 _ (by omega) (by omega)
  refine ⟨x, hx1, hp, ?_, ?_, by omega, ?_⟩
  · rw [hout1 OFF_STATUS (by decide)]
    exact hst
  · have := hout1 0 (by decide)
    rw [Nat.add_zero] at this
    rw [this]
    exact hsz
  · rw [hled _ hidx, hfr]
    exact (read_header_frames_congr hso x (by omega) (by omega)).symm

theorem mark_ledger_frames (m : Mem) (head : Nat) (hu : Nat → header) (count lo j : Nat) :
    (mark_ledger m head hu count lo j).frames = (hu j).frames := by
  rw [mark_ledger_eq]
  split <;> rfl

theorem WellFormedWith.length_lt {s : State} {recs : List Nat} (hwf : WellFormedWith s recs)
    {fuel : Nat} (hfuel : WORD ≤ HEADER_SIZE * fuel) : recs.length < fuel := by
  have h1 := hwf.2.2.length_le
  have h2 := hwf.2.1
  have h3 := hwf.1
  have hC : HEADER_SIZE = 48 := rfl
  rw [hC] at h1 hfuel
  omega

theorem exec_malloc_inv (fuel : Nat) (hfuel : WORD ≤ HEADER_SIZE * fuel) (c : Config)
    (env : Env) (n : Nat) (hinv : Inv c) (hok : NoWrap c.st n) :
    ∃ c1, exec fuel c (Op.malloc env n) = some c1 ∧ Inv c1 := by
  obtain ⟨recs, hwf, hlive⟩ := hinv
  by_cases hn : n = 0
  · subst hn
    refine ⟨c, ?_, recs, hwf, hlive⟩
    simp [exec, malloc_zero]
  · obtain ⟨p, s1, hm, hcase⟩ := malloc_wf hwf fuel (hwf.length_lt hfuel) env n hn hok
    rcases hcase with ⟨rfl, rfl⟩ | ⟨h, recs1, lo, hi, m, e, hp, hs1, hwf1, hh, hst, hds, hsz, hso,
        hkeep⟩
    · refine ⟨c, ?_, recs, hwf, hlive⟩
      simp [exec, hm]
    · have hC : HEADER_SIZE = 48 := rfl
      have hp0 : p ≠ NULL := by
        rw [hp]
        show h + HEADER_SIZE ≠ 0
        omega
      refine ⟨⟨s1, ⟨p, n, c.st.num_allocs⟩ :: c.live⟩, ?_, recs1, hwf1, ?_⟩
      · simp [exec, hm, hp0]
      · intro l hl
        rcases List.mem_cons.1 hl with rfl | hl
        · refine ⟨h, hh, by rw [hp]; rfl, hst, ?_, ?_, ?_⟩
          · have := (roundup_bounds n hok.1).1
            show n ≤ read32 s1.mem h
            omega
          · rw [hs1]
            show c.st.num_allocs < c.st.num_allocs + 1
            omega
          · rw [hs1]
            simp [alloc_state]
        · refine (hlive l hl).transfer hwf hso (fun x hx hst _ => hkeep x hx hst) ?_ ?_
          · intro i hi
            rw [hs1]
            have : i ≠ c.st.num_allocs := by omega
            simp [alloc_state, this]
          · rw [hs1]
            show c.st.num_allocs ≤ c.st.num_allocs + 1
            omega

theorem exec_free_inv (fuel : Nat) (hfuel : WORD ≤ HEADER_SIZE * fuel) (c : Config)
    (p : Nat) (hinv : Inv c) (hok : p = NULL ∨ ∃ l ∈ c.live, l.ptr = p) :
    ∃ c1, exec fuel c (Op.free p) = some c1 ∧ Inv c1 := by
  obtain ⟨recs, hwf, hlive⟩ := hinv
  by_cases hp : p = NULL
  · subst hp
    refine ⟨⟨c.st, c.live.filter fun l => decide (l.ptr ≠ NULL)⟩, ?_, recs, hwf, ?_⟩
    · simp [exec, free_null]
    · intro l hl
      exact hlive l (List.mem_of_mem_filter hl)
  · obtain ⟨l0, hl0, hl0p⟩ := hok.resolve_left hp
    obtain ⟨h, hh, hph, -⟩ := hlive l0 hl0
    obtain ⟨l1, l2, rfl⟩ := List.append_of_mem hh
    have hC : HEADER_SIZE = 48 := rfl
    have hR : RED_ZONE_LEN = 0 := rfl
    have hO : OFF_STATUS = 4 := rfl
    have hlen : l2.length < fuel := by
      have := hwf.length_lt hfuel
      simp at this
      omega
    obtain ⟨m1, f, rest, hl2, hf1, hr1, hfree, ht1, hso, hst1, hsum⟩ := free_wf hwf fuel hlen
    have hpe : p = h + HEADER_SIZE := by rw [← hl0p, hph]; rfl
    generalize hs1 : ({ c.st with
      mem := m1
      heap_usage := mark_ledger c.st.mem h c.st.heap_usage c.st.num_allocs 0
      num_frees := c.st.num_frees + 1 } : State) = s1 at hfree
    have hs1m : s1.mem = m1 := by rw [← hs1]
    have hs1e : s1.heap_end = c.st.heap_end := by rw [← hs1]
    have hs1s : s1.heap_start = c.st.heap_start := by rw [← hs1]
    have hs1n : s1.num_allocs = c.st.num_allocs := by rw [← hs1]
    have hs1u : s1.heap_usage = mark_ledger c.st.mem h c.st.heap_usage c.st.num_allocs 0 := by
      rw [← hs1]
    rw [← hs1m] at ht1 hso
    refine ⟨⟨s1, c.live.filter fun l => decide (l.ptr ≠ p)⟩, ?_, l1 ++ h :: rest,
      ⟨by rw [hs1s]; exact hwf.1, by rw [hs1e]; exact hwf.2.1, by rw [hs1e, hs1s]; exact ht1⟩,
      ?_⟩
    · simp [exec, hpe, hfree]
    · intro l hl
      have hlp : l.ptr ≠ p := by simpa using (List.mem_filter.1 hl).2
      refine (hlive l (List.mem_of_mem_filter hl)).transfer hwf hso ?_ ?_
        (by rw [hs1n])
      · intro x hx hst hpx
        have hxh : x ≠ h := by
          intro hxh
          apply hlp
          rw [hpx, hpe, hxh]
        obtain ⟨ht2, ht3, ht4⟩ := hwf.2.2.split_at
        have hbh := block_len_ge c.st.mem h
        rcases List.mem_append.1 hx with hx | hx
        · exact ⟨List.mem_append_left _ hx, Or.inl (ht2.mem_bounds x hx).2⟩
        · rcases List.mem_cons.1 hx with hx | hx
          · exact absurd hx hxh
          · have hb := ht4.mem_bounds x hx
            refine ⟨List.mem_append_right _ (List.mem_cons_of_mem _ ?_), Or.inr (by omega)⟩
            rw [hl2] at hx
            rcases List.mem_append.1 hx with hx | hx
            · exact absurd (hf1 x hx) hst
            · exact hx
      · intro i _
        show (s1.heap_usage i).frames = _
        rw [hs1u]
        exact mark_ledger_frames _ _ _ _ _ _

theorem exec_inv (fuel : Nat) (hfuel : WORD ≤ HEADER_SIZE * fuel) (c : Config) (op : Op)
    (hinv : Inv c) (hok : OpOk c op) : ∃ c1, exec fuel c op = some c1 ∧ Inv c1 := by
  cases op with
  | malloc env n => exact exec_malloc_inv fuel hfuel c env n hinv hok.1
  | free p => exact exec_free_inv fuel hfuel c p hinv hok

theorem run_inv (fuel : Nat) (hfuel : WORD ≤ HEADER_SIZE * fuel) :
    ∀ (ops : List Op) (c : Config), Inv c → Valid fuel c ops →
      ∃ c1, run fuel c ops = some c1 ∧ Inv c1
  | [], c, hinv, _ => ⟨c, rfl, hinv⟩
  | op :: ops, c, hinv, hv => by
    obtain ⟨c1, he, hinv1⟩ := exec_inv fuel hfuel c op hinv hv.1
    have hv2 := hv.2
    rw [he] at hv2
    obtain ⟨c2, hr, hinv2⟩ := run_inv fuel hfuel ops c1 hinv1 hv2
    exact ⟨c2, by simp [run, he, hr], hinv2⟩

theorem free_num_allocs (fuel : Nat) (s : State) (p : Nat) (s1 : State)
    (h : free fuel s p = some s1) : s1.num_allocs = s.num_allocs := by
  unfold free at h
  split at h
  · rw [← Option.some.inj h]
  · dsimp only at h
    split at h
    · exact absurd h (by simp)
    · rw [← Option.some.inj h]

theorem exec_ledger (fuel : Nat) (hfuel : WORD ≤ HEADER_SIZE * fuel) (c : Config) (op : Op)
    (c1 : Config) (hinv : Inv c) (hok : OpOk c op) (he : exec fuel c op = some c1)
    (hle : c.st.num_allocs ≤ LEDGER_LEN) : c1.st.num_allocs ≤ LEDGER_LEN := by
  cases op with
  | malloc env n =>
    obtain ⟨recs, hwf, -⟩ := hinv
    have hlt : c.st.num_allocs < LEDGER_LEN := hok.2
    by_cases hn : n = 0
    · subst hn
      simp only [exec, malloc_zero] at he
      rw [← Option.some.inj he]
      exact hle
    · obtain ⟨p, s1, hm, hcase⟩ := malloc_wf hwf fuel (hwf.length_lt hfuel) env n hn hok.1
      simp only [exec, hm] at he
      rw [← Option.some.inj he]
      show s1.num_allocs ≤ LEDGER_LEN
      rcases hcase with ⟨-, rfl⟩ | ⟨h, recs1, lo, hi, m, e, -, hs1, -⟩
      · exact hle
      · rw [hs1]
        show c.st.num_allocs + 1 ≤ LEDGER_LEN
        omega
  | free p =>
    simp only [exec] at he
    split at he
    · exact absurd he (by simp)
    · next s1 hfr =>
      rw [← Option.some.inj he]
      show s1.num_allocs ≤ LEDGER_LEN
      rw [free_num_allocs fuel c.st p s1 hfr]
      exact hle

theorem run_ledger (fuel : Nat) (hfuel : WORD ≤ HEADER_SIZE * fuel) :
    ∀ (ops : List Op) (c : Config), Inv c → Valid fuel c ops →
      c.st.num_allocs ≤ LEDGER_LEN →
      ∃ c1, run fuel c ops = some c1 ∧ Inv c1 ∧ c1.st.num_allocs ≤ LEDGER_LEN
  | [], c, hinv, _, hle => ⟨c, rfl, hinv, hle⟩
  | op :: ops, c, hinv, hv, hle => by
    obtain ⟨c1, he, hinv1⟩ := exec_inv fuel hfuel c op hinv hv.1
    have hle1 := exec_ledger fuel hfuel c op c1 hinv hv.1 he hle
    have hv2 := hv.2
    rw [he] at hv2
    obtain ⟨c2, hr, hinv2, hle2⟩ := run_ledger fuel hfuel ops c1 hinv1 hv2 hle1
    exact ⟨c2, by simp [run, he, hr], hinv2, hle2⟩

theorem empty_heap_inv (m : Mem) (start : Nat) (h0 : 0 < start) (hw : start < WORD) :
    Inv ⟨empty_heap m start, []⟩ :=
  ⟨[], ⟨h0, hw, rfl⟩, by simp⟩

theorem Tiles.cover {m : Mem} {e : Nat} :
    ∀ {recs : List Nat} {a : Nat}, Tiles m e a recs → ∀ b, a ≤ b → b < e →
      ∃ h ∈ recs, h ≤ b ∧ b < h + block_len m h
  | [], a, ht, b, h1, h2 => by
    have : a = e := ht
    omega
  | x :: xs, a, ht, b, h1, h2 => by
    obtain ⟨rfl, h3, h4⟩ := ht
    by_cases hb : b < x + block_len m x
    · exact ⟨x, List.mem_cons_self _ _, h1, hb⟩
    · obtain ⟨h, hh, hh1, hh2⟩ := Tiles.cover h4 b (by omega) h2
      exact ⟨h, List.mem_cons_of_mem _ hh, hh1, hh2⟩

/-! ## The claims -/

/-- C1 (partition invariant). From an empty heap at a non-null 32-bit address, over
any memory, every sequence of `malloc` and `free` calls in which no `malloc`
wraps, every `malloc` is made while `num_allocs < LEDGER_LEN` (the ledger
`heap_usage[5000]` has room for its entry) and every `free` gets the null pointer
or a live pointer runs to the end, with `num_allocs ≤ LEDGER_LEN`, and afterwards
the walk from `heap_start` lands exactly on `heap_end`: the records tile the
heap, so every byte of `[heap_start, heap_end)` lies in one record and in one
only. -/
theorem malloc_free_partition (m : Mem) (start : Nat) (h0 : 0 < start) (hw : start < WORD)
    (fuel : Nat) (hfuel : WORD ≤ HEADER_SIZE * fuel) (ops : List Op)
    (hv : Valid fuel ⟨empty_heap m start, []⟩ ops) :
    ∃ c, run fuel ⟨empty_heap m start, []⟩ ops = some c ∧
      c.st.num_allocs ≤ LEDGER_LEN ∧
      ∃ recs, Tiles c.st.mem c.st.heap_end c.st.heap_start recs ∧
        ∀ b, c.st.heap_start ≤ b → b < c.st.heap_end →
          ∃ h ∈ recs, (h ≤ b ∧ b < h + block_len c.st.mem h) ∧
            ∀ h1 ∈ recs, h1 ≤ b ∧ b < h1 + block_len c.st.mem h1 → h1 = h := by
  obtain ⟨c, hr, ⟨recs, hwf, -⟩, hle⟩ :=
    run_ledger fuel hfuel ops _ (empty_heap_inv m start h0 hw) hv (Nat.zero_le _)
  refine ⟨c, hr, hle, recs, hwf.2.2, fun b hb1 hb2 => ?_⟩
  obtain ⟨h, hh, hh1, hh2⟩ := hwf.2.2.cover b hb1 hb2
  refine ⟨h, hh, ⟨hh1, hh2⟩, fun h1 hh3 hh4 => ?_⟩
  by_contra hne
  rcases hwf.2.2.disjoint hh3 hh hne with hd | hd <;> omega

set_option maxHeartbeats 4000000 in
/-- C1 on a run: two allocations, then the first one is freed. -/
theorem malloc_free_partition_witness :
    ∃ c, run 89478486 ⟨empty_heap (fun _ => 0) 0x8000, []⟩
        [.malloc example_env 100, .malloc example_env 8, .free 0x8030] = some c ∧
      c.st.num_allocs ≤ LEDGER_LEN ∧
      ∃ recs, Tiles c.st.mem c.st.heap_end c.st.heap_start recs ∧
        ∀ b, c.st.heap_start ≤ b → b < c.st.heap_end →
          ∃ h ∈ recs, (h ≤ b ∧ b < h + block_len c.st.mem h) ∧
            ∀ h1 ∈ recs, h1 ≤ b ∧ b < h1 + block_len c.st.mem h1 → h1 = h :=
  malloc_free_partition (fun _ => 0) 0x8000 (by decide) (by decide) 89478486 (by decide)
    [.malloc example_env 100, .malloc example_env 8, .free 0x8030] (by decide!)

/-- C2 (no overlap of live blocks). After every valid run from an empty heap (no
`malloc` wraps, every `malloc` is made while `num_allocs < LEDGER_LEN`, every
`free` gets the null pointer or a live pointer), `num_allocs ≤ LEDGER_LEN`, two
live pointers with different values have disjoint payload ranges `[p, p + np)`
and `[q, q + nq)` (`np`, `nq` the requested sizes), and no payload range meets
the header `[h, h + HEADER_SIZE)` of a record of the walk. -/
theorem live_payloads_disjoint (m : Mem) (start : Nat) (h0 : 0 < start) (hw : start < WORD)
    (fuel : Nat) (hfuel : WORD ≤ HEADER_SIZE * fuel) (ops : List Op)
    (hv : Valid fuel ⟨empty_heap m start, []⟩ ops) :
    ∃ c, run fuel ⟨empty_heap m start, []⟩ ops = some c ∧
      c.st.num_allocs ≤ LEDGER_LEN ∧
      ∃ recs, Tiles c.st.mem c.st.heap_end c.st.heap_start recs ∧
        (∀ p ∈ c.live, ∀ q ∈ c.live, p.ptr ≠ q.ptr →
          p.ptr + p.size ≤ q.ptr ∨ q.ptr + q.size ≤ p.ptr) ∧
        (∀ p ∈ c.live, ∀ h ∈ recs, p.ptr + p.size ≤ h ∨ h + HEADER_SIZE ≤ p.ptr) := by
  obtain ⟨c, hr, ⟨recs, hwf, hlive⟩, hle⟩ :=
    run_ledger fuel hfuel ops _ (empty_heap_inv m start h0 hw) hv (Nat.zero_le _)
  have hC : HEADER_SIZE = 48 := rfl
  have hR : RED_ZONE_LEN = 0 := rfl
  refine ⟨c, hr, hle, recs, hwf.2.2, ?_, ?_⟩
  · intro p hp q hq hpq
    obtain ⟨x, hx, hpx, -, hsx, -⟩ := hlive p hp
    obtain ⟨y, hy, hqy, -, hsy, -⟩ := hlive q hq
    have hxy : x ≠ y := by
      intro hxy
      apply hpq
      rw [hpx, hqy, hxy]
    have hdx : block_len c.st.mem x = read32 c.st.mem x + 48 := rfl
    have hdy : block_len c.st.mem y = read32 c.st.mem y + 48 := rfl
    rcases hwf.2.2.disjoint hx hy hxy with hd | hd
    · left; omega
    · right; omega
  · intro p hp h hh
    obtain ⟨x, hx, hpx, -, hsx, -⟩ := hlive p hp
    have hdx : block_len c.st.mem x = read32 c.st.mem x + 48 := rfl
    have hdh := block_len_ge c.st.mem h
    by_cases hxh : x = h
    · right; omega
    · rcases hwf.2.2.disjoint hx hh hxh with hd | hd
      · left; omega
      · right; omega

set_option maxHeartbeats 4000000 in
/-- C2 on a run that leaves two live blocks. -/
theorem live_payloads_disjoint_witness :
    ∃ c, run 89478486 ⟨empty_heap (fun _ => 0) 0x8000, []⟩
        [.malloc example_env 100, .malloc example_env 8] = some c ∧
      c.st.num_allocs ≤ LEDGER_LEN ∧
      ∃ recs, Tiles c.st.mem c.st.heap_end c.st.heap_start recs ∧
        (∀ p ∈ c.live, ∀ q ∈ c.live, p.ptr ≠ q.ptr →
          p.ptr + p.size ≤ q.ptr ∨ q.ptr + q.size ≤ p.ptr) ∧
        (∀ p ∈ c.live, ∀ h ∈ recs, p.ptr + p.size ≤ h ∨ h + HEADER_SIZE ≤ p.ptr) :=
  live_payloads_disjoint (fun _ => 0) 0x8000 (by decide) (by decide) 89478486 (by decide)
    [.malloc example_env 100, .malloc example_env 8] (by decide!)

theorem Tiles.nil_of_eq {m : Mem} {e : Nat} {recs : List Nat} (ht : Tiles m e e recs) :
    recs = [] := by
  cases recs with
  | nil => rfl
  | cons x xs =>
    have h1 := ht.2.1
    have h2 := block_len_ge m e
    have hC : HEADER_SIZE = 48 := rfl
    omega

/-- C3 (code bug): behaviour of `malloc` at the request `n = 2^32 - 48` on the empty
(well-formed) heap at `0x8000`. The rounded size plus the header wraps to `0`, so
`sbrk(0)` succeeds without moving `heap_end`; `malloc` writes a header at
`heap_end` and returns the non-null pointer `0x8030`. The header `0x8000` of that
pointer is not a record of the walk from `heap_start`, which is empty. -/
theorem malloc_wrapped_size_outside_heap :
    WellFormedWith (empty_heap (fun _ => 0) 0x8000) [] ∧
    ∃ s1, malloc 1 example_env (empty_heap (fun _ => 0) 0x8000) 4294967248 = some (0x8030, s1) ∧
      s1.heap_start = 0x8000 ∧ s1.heap_end = 0x8000 ∧
      read32 s1.mem 0x8000 = 4294967248 ∧
      ∀ recs, Tiles s1.mem s1.heap_end s1.heap_start recs →
        0x8030 - HEADER_SIZE - RED_ZONE_LEN ∉ recs := by
  refine ⟨by decide, ?_⟩
  have h : ∃ r, malloc 1 example_env (empty_heap (fun _ => 0) 0x8000) 4294967248 = some r :=
    Option.isSome_iff_exists.1 (by decide!)
  obtain ⟨⟨p, s1⟩, hs⟩ := h
  have hv : (malloc 1 example_env (empty_heap (fun _ => 0) 0x8000) 4294967248).map
      (fun r => (r.1, r.2.heap_start, r.2.heap_end, read32 r.2.mem 0x8000))
      = some (0x8030, 0x8000, 0x8000, 4294967248) := by decide!
  rw [hs] at hv
  simp only [Option.map_some', Option.some.injEq, Prod.mk.injEq] at hv
  obtain ⟨hp, h1, h2, h3⟩ := hv
  subst hp
  refine ⟨s1, hs, h1, h2, h3, fun recs ht => ?_⟩
  rw [h1, h2] at ht
  rw [ht.nil_of_eq]
  simp

/-- C4. `malloc(0)` returns `NULL` and leaves the whole state as it was: the memory,
`heap_end`, the ledger and the counters. -/
theorem malloc_zero_returns_null_unchanged (fuel : Nat) (env : Env) (s : State) :
    malloc fuel env s 0 = some (NULL, s) :=
  malloc_zero fuel env s

/-- C5. On a well-formed heap in which no free record has `payload_size` at least
`roundup(n, 8)`, if `sbrk` returns `NULL` then `malloc(n)` returns `NULL` and the
state is unchanged. -/
theorem malloc_out_of_memory (s : State) (recs : List Nat) (hwf : WellFormedWith s recs)
    (fuel : Nat) (hf : recs.length < fuel) (env : Env) (n : Nat) (hn : 0 < n)
    (hnofit : ∀ x ∈ recs, ¬ Fits s.mem (roundup n MIN_BLOCK_SIZE) x)
    (hfail : (sbrk env.sp s
      (to_int (roundup n MIN_BLOCK_SIZE + HEADER_SIZE + 2 * RED_ZONE_LEN))).1 = NULL) :
    malloc fuel env s n = some (NULL, s) := by
  have hfs : find_space fuel s (roundup n MIN_BLOCK_SIZE) = some s.heap_end := by
    rcases find_space_spec hwf (roundup n MIN_BLOCK_SIZE) fuel hf with
      ⟨l1, h, l2, rfl, -, hfit, -⟩ | ⟨-, hfs⟩
    · exact absurd hfit (hnofit h (by simp))
    · exact hfs
  have h2 : (sbrk env.sp s
      (to_int (roundup n MIN_BLOCK_SIZE + HEADER_SIZE + 2 * RED_ZONE_LEN))).2 = s := by
    have hle := hwf.start_le
    have h0 := hwf.1
    unfold sbrk at hfail ⊢
    dsimp only at hfail ⊢
    split
    · rfl
    · rename_i hc
      rw [if_neg hc] at hfail
      have : s.heap_end = 0 := hfail
      omega
  rw [malloc_grow_fail fuel env s n (by omega) hfs hfail, h2]

/-- C5 on the empty heap when the stack reservation starts right at the heap. -/
theorem malloc_out_of_memory_witness :
    malloc 1 ⟨0x1008000, 0, 0⟩ (empty_heap (fun _ => 0) 0x8000) 10
      = some (NULL, empty_heap (fun _ => 0) 0x8000) :=
  malloc_out_of_memory (empty_heap (fun _ => 0) 0x8000) [] (by decide) 1 (by decide) ⟨0x1008000, 0, 0⟩ 10 (by decide)
    (by simp) (by decide)

/-- C6. Under the no-wrap condition, on a well-formed heap with `num_allocs <
LEDGER_LEN` (the ledger has room for the entry of this call): when no free record
fits, `malloc(n)` either fails and changes nothing, or advances `heap_end` by
exactly `roundup(n, 8) + HEADER_SIZE + 2 * RED_ZONE_LEN`, makes the old `heap_end`
a record with `payload_size = roundup(n, 8)` and returns the old `heap_end` plus
`HEADER_SIZE + RED_ZONE_LEN`; when a free record fits, `heap_end` is unchanged. -/
theorem malloc_grows_exactly (s : State) (recs : List Nat) (hwf : WellFormedWith s recs)
    (_hled : s.num_allocs < LEDGER_LEN)
    (fuel : Nat) (hf : recs.length < fuel) (env : Env) (n : Nat) (hn : 0 < n)
    (hnw : NoWrap s n) :
    ((∀ x ∈ recs, ¬ Fits s.mem (roundup n MIN_BLOCK_SIZE) x) →
      ∃ p s1, malloc fuel env s n = some (p, s1) ∧
        ((p = NULL ∧ s1 = s) ∨
          (p = s.heap_end + HEADER_SIZE + RED_ZONE_LEN ∧
            s1.heap_end
              = s.heap_end + (roundup n MIN_BLOCK_SIZE + HEADER_SIZE + 2 * RED_ZONE_LEN) ∧
            read32 s1.mem s.heap_end = roundup n MIN_BLOCK_SIZE ∧
            WellFormedWith s1 (recs ++ [s.heap_end])))) ∧
    ((∃ x ∈ recs, Fits s.mem (roundup n MIN_BLOCK_SIZE) x) →
      ∃ p s1, malloc fuel env s n = some (p, s1) ∧ s1.heap_end = s.heap_end) := by
  have hn0 : n ≠ 0 := by omega
  have hC : HEADER_SIZE = 48 := rfl
  have hM : MIN_BLOCK_SIZE = 8 := rfl
  constructor
  · intro hnofit
    have hfs : find_space fuel s (roundup n MIN_BLOCK_SIZE) = some s.heap_end := by
      rcases find_space_spec hwf (roundup n MIN_BLOCK_SIZE) fuel hf with
        ⟨l1, h, l2, rfl, -, hfit, -⟩ | ⟨-, hfs⟩
      · exact absurd hfit (hnofit h (by simp))
      · exact hfs
    by_cases hok : (env.sp + WORD - 0x1000000) % WORD
        < s.heap_end + (roundup n MIN_BLOCK_SIZE + HEADER_SIZE)
    · have hs := sbrk_eq env.sp s (roundup n MIN_BLOCK_SIZE + HEADER_SIZE)
        (by have := hnw.2.2; have : RED_ZONE_LEN = 0 := rfl; omega)
        (by have := hnw.2.2; have : RED_ZONE_LEN = 0 := rfl; omega)
      rw [if_pos hok] at hs
      have hk : roundup n MIN_BLOCK_SIZE + HEADER_SIZE + 2 * RED_ZONE_LEN
          = roundup n MIN_BLOCK_SIZE + HEADER_SIZE := rfl
      have := malloc_grow_fail fuel env s n hn0 hfs (by rw [hk, hs])
      rw [hk, hs] at this
      exact ⟨_, _, this, Or.inl ⟨rfl, rfl⟩⟩
    · obtain ⟨hm, hwf2, -, hrd⟩ := malloc_grow_wf hwf fuel env n hn0 hnw hfs hok
      exact ⟨_, _, hm, Or.inr ⟨rfl, rfl, hrd, hwf2⟩⟩
  · rintro ⟨x, hx, hfit⟩
    rcases find_space_spec hwf (roundup n MIN_BLOCK_SIZE) fuel hf with
      ⟨l1, h, l2, rfl, -, hfit1, hfs⟩ | ⟨hall, -⟩
    · by_cases hbig : roundup n MIN_BLOCK_SIZE + HEADER_SIZE + MIN_BLOCK_SIZE ≤ read32 s.mem h
      · obtain ⟨s1, hm, hs1, -⟩ := malloc_split_wf hwf fuel env n hn0 hnw.2.1 hfs hbig
        exact ⟨_, s1, hm, by rw [hs1]; rfl⟩
      · obtain ⟨hm, -⟩ := malloc_reuse_wf hwf fuel env n hn0 hnw.2.1 hfs (by omega)
        exact ⟨_, _, hm, rfl⟩
    · exact absurd hfit (hall x hx)

set_option maxHeartbeats 4000000 in
/-- C6 on the empty heap: `malloc(10)` succeeds and grows the heap by
`16 + HEADER_SIZE`. -/
theorem malloc_grows_exactly_witness :
    ∃ p s1, malloc 1 example_env (empty_heap (fun _ => 0) 0x8000) 10 = some (p, s1) ∧
      p = 0x8000 + HEADER_SIZE ∧ s1.heap_end = 0x8000 + (16 + HEADER_SIZE) ∧
      read32 s1.mem 0x8000 = 16 := by
  obtain ⟨p, s1, hm, hcase⟩ :=
    (malloc_grows_exactly (empty_heap (fun _ => 0) 0x8000) [] (by decide) (by decide) 1
      (by decide) example_env 10 (by decide) (by decide)).1 (by simp)
  have hv : (malloc 1 example_env (empty_heap (fun _ => 0) 0x8000) 10).map (fun r => r.1)
      = some 0x8030 := by decide!
  rw [hm] at hv
  simp only [Option.map_some', Option.some.injEq] at hv
  rcases hcase with ⟨hp, -⟩ | ⟨hp, he, hr, -⟩
  · rw [hp] at hv
    exact absurd hv (by decide)
  · exact ⟨p, s1, hm, hp, he, hr⟩

/-- C7 (first fit). On a well-formed heap with records `recs`, `find_space(n)`
returns a result: either a record of the walk that is free with
`payload_size ≥ n` and whose address is the lowest among the records that fit,
or `heap_end` when no record fits. `find_space` only reads the state: its result
is a pointer, not a new state. -/
theorem find_space_first_fit (s : State) (recs : List Nat) (hwf : WellFormedWith s recs)
    (fuel : Nat) (hf : recs.length < fuel) (n : Nat) :
    ∃ r, find_space fuel s n = some r ∧
      ((r ∈ recs ∧ Fits s.mem n r ∧ ∀ x ∈ recs, Fits s.mem n x → r ≤ x) ∨
        (r = s.heap_end ∧ ∀ x ∈ recs, ¬ Fits s.mem n x)) := by
  rcases find_space_spec hwf n fuel hf with ⟨l1, h, l2, rfl, hl1, hfit, hfs⟩ | ⟨hall, hfs⟩
  · refine ⟨h, hfs, Or.inl ⟨by simp, hfit, fun x hx hfx => ?_⟩⟩
    obtain ⟨-, -, ht3⟩ := hwf.2.2.split_at
    rcases List.mem_append.1 hx with hx | hx
    · exact absurd hfx (hl1 x hx)
    · rcases List.mem_cons.1 hx with hx | hx
      · exact Nat.le_of_eq hx.symm
      · have := (ht3.mem_bounds x hx).1
        omega
  · exact ⟨s.heap_end, hfs, Or.inr ⟨rfl, hall⟩⟩

/-- C7 on the example heap: the free record at `0x8040` is found for 100 bytes. -/
theorem find_space_first_fit_witness :
    ∃ r, find_space 3 example_heap 100 = some r ∧
      ((r ∈ [0x8000, 0x8040] ∧ Fits example_heap.mem 100 r ∧
          ∀ x ∈ [0x8000, 0x8040], Fits example_heap.mem 100 x → r ≤ x) ∨
        (r = example_heap.heap_end ∧ ∀ x ∈ [0x8000, 0x8040], ¬ Fits example_heap.mem 100 x)) :=
  find_space_first_fit example_heap [0x8000, 0x8040] (by decide) 3 (by decide)
    100

/-- C8 (split rule). On a well-formed heap with `num_allocs < LEDGER_LEN` (the
ledger has room for the entry of this call), when `find_space` returns a record `h`
of the walk for `r = roundup(n, 8)` and the split test does not wrap, `malloc(n)`
returns the payload of `h`. If the capacity `c` of `h` is at least
`r + HEADER_SIZE + MIN_BLOCK_SIZE + 2 * RED_ZONE_LEN`, then afterwards `h` has
`payload_size = r` and is followed, at `h + r + HEADER_SIZE + 2 * RED_ZONE_LEN`, by
a new free record of the walk with `payload_size = c - r - HEADER_SIZE - 2 *
RED_ZONE_LEN`, which ends where `h` used to end. Otherwise `h` keeps
`payload_size = c` and the walk has the same records as before. -/
theorem malloc_split_rule (s : State) (recs : List Nat) (hwf : WellFormedWith s recs)
    (_hled : s.num_allocs < LEDGER_LEN) (fuel : Nat) (hf : recs.length < fuel) (env : Env)
    (n : Nat) (hn : 0 < n)
    (hw : roundup n MIN_BLOCK_SIZE + HEADER_SIZE + MIN_BLOCK_SIZE + 2 * RED_ZONE_LEN < WORD)
    (h : Nat) (hh : h ∈ recs)
    (hfs : find_space fuel s (roundup n MIN_BLOCK_SIZE) = some h) :
    ∃ s1, malloc fuel env s n = some (h + HEADER_SIZE + RED_ZONE_LEN, s1) ∧
      (roundup n MIN_BLOCK_SIZE + HEADER_SIZE + MIN_BLOCK_SIZE + 2 * RED_ZONE_LEN
          ≤ read32 s.mem h →
        read32 s1.mem h = roundup n MIN_BLOCK_SIZE ∧
        read32 s1.mem (h + roundup n MIN_BLOCK_SIZE + HEADER_SIZE + 2 * RED_ZONE_LEN
          + OFF_STATUS) = FREE ∧
        read32 s1.mem (h + roundup n MIN_BLOCK_SIZE + HEADER_SIZE + 2 * RED_ZONE_LEN)
          = read32 s.mem h - roundup n MIN_BLOCK_SIZE - HEADER_SIZE - 2 * RED_ZONE_LEN ∧
        (h + roundup n MIN_BLOCK_SIZE + HEADER_SIZE + 2 * RED_ZONE_LEN)
          + block_len s1.mem (h + roundup n MIN_BLOCK_SIZE + HEADER_SIZE + 2 * RED_ZONE_LEN)
          = h + block_len s.mem h ∧
        ∃ l1 l2, recs = l1 ++ h :: l2 ∧
          WellFormedWith s1
            (l1 ++ h :: (h + roundup n MIN_BLOCK_SIZE + HEADER_SIZE + 2 * RED_ZONE_LEN) :: l2)) ∧
      (read32 s.mem h
          < roundup n MIN_BLOCK_SIZE + HEADER_SIZE + MIN_BLOCK_SIZE + 2 * RED_ZONE_LEN →
        read32 s1.mem h = read32 s.mem h ∧ WellFormedWith s1 recs) := by
  have hn0 : n ≠ 0 := by omega
  have hC : HEADER_SIZE = 48 := rfl
  have hM : MIN_BLOCK_SIZE = 8 := rfl
  have hR : RED_ZONE_LEN = 0 := rfl
  have hW : WORD = 4294967296 := rfl
  have hbh := hwf.2.2.mem_bounds h hh
  have hblh := block_len_ge s.mem h
  have hdh : block_len s.mem h = read32 s.mem h + 48 := rfl
  have he := hwf.2.1
  rcases find_space_spec hwf (roundup n MIN_BLOCK_SIZE) fuel hf with
    ⟨l1, h1, l2, hrecs, -, -, hfs1⟩ | ⟨-, hfs1⟩
  · have hh1 : h1 = h := by
      rw [hfs1] at hfs
      exact Option.some.inj hfs
    subst hh1
    subst hrecs
    by_cases hbig : roundup n MIN_BLOCK_SIZE + HEADER_SIZE + MIN_BLOCK_SIZE ≤ read32 s.mem h1
    · obtain ⟨s1, hm, -, hwf2, -, hr1, hr2, hr3⟩ :=
        malloc_split_wf hwf fuel env n hn0 hw hfs hbig
      refine ⟨s1, hm, fun _ => ⟨hr1, hr3, ?_, ?_, l1, l2, rfl, hwf2⟩,
        fun hlt => absurd hlt (by omega)⟩
      · show read32 s1.mem (h1 + roundup n MIN_BLOCK_SIZE + HEADER_SIZE) = _
        rw [hr2]
        omega
      show _ + (read32 s1.mem _ + HEADER_SIZE + 2 * RED_ZONE_LEN) = _
      have : h1 + roundup n MIN_BLOCK_SIZE + HEADER_SIZE + 2 * RED_ZONE_LEN
          = h1 + roundup n MIN_BLOCK_SIZE + HEADER_SIZE := rfl
      rw [this, hr2]
      omega
    · obtain ⟨hm, hwf2, hso⟩ := malloc_reuse_wf hwf fuel env n hn0 hw hfs (by omega)
      refine ⟨_, hm, fun hge => absurd hge (by omega), fun _ => ⟨?_, hwf2⟩⟩
      exact hso.read32 h1 (by omega) (Or.inl (by omega))
  · rw [hfs1] at hfs
    have : s.heap_end = h := Option.some.inj hfs
    omega

set_option maxHeartbeats 4000000 in
/-- C8 on the example heap: `malloc(10)` splits the free record of 128 bytes at
`0x8040` into a used record of 16 bytes and a free record of 64 bytes at `0x8080`. -/
theorem malloc_split_rule_witness :
    ∃ s1, malloc 3 example_env example_heap 10 = some (0x8070, s1) ∧
      read32 s1.mem 0x8040 = 16 ∧ read32 s1.mem 0x8084 = FREE ∧ read32 s1.mem 0x8080 = 64 ∧
      WellFormedWith s1 [0x8000, 0x8040, 0x8080] := by
  obtain ⟨s1, hm, hsplit, -⟩ :=
    malloc_split_rule example_heap [0x8000, 0x8040] (by decide) (by decide) 3 (by decide)
      example_env 10 (by decide) (by decide) 0x8040 (by decide) (by decide!)
  obtain ⟨h1, h2, h3, -, l1, l2, hl, hwf⟩ := hsplit (by decide!)
  refine ⟨s1, hm, h1, h2, h3, ?_⟩
  have hl1 : l1 = [0x8000] ∧ l2 = [] := by
    rcases l1 with _ | ⟨a, _ | ⟨b, l1⟩⟩
    · simp at hl
    · simp at hl
      exact ⟨by rw [hl.1], hl.2⟩
    · simp at hl
  rw [hl1.1, hl1.2] at hwf
  exact hwf

/-- C9. `free(NULL)` changes nothing: the memory (so every record), the ledger,
`heap_end` and the counters are the same afterwards. -/
theorem free_null_noop (fuel : Nat) (s : State) : free fuel s NULL = some s :=
  free_null fuel s

/-- C10. After every valid run from an empty heap (no `malloc` wraps, every `malloc`
is made while `num_allocs < LEDGER_LEN`, every `free` gets the null pointer or a
live pointer), for every live pointer `p` (returned by `malloc` and not yet
freed): the ledger entry appended by the `malloc` call that returned `p` has an
index below `LEDGER_LEN`, so it is an element of the array `heap_usage`;
`free(p)` returns, the record whose header is at `p - HEADER_SIZE - RED_ZONE_LEN`
then has status `FREE`, and that ledger entry has status `FREE`. -/
theorem free_marks_record_and_ledger (m : Mem) (start : Nat) (h0 : 0 < start)
    (hw : start < WORD) (fuel : Nat) (hfuel : WORD ≤ HEADER_SIZE * fuel) (ops : List Op)
    (hv : Valid fuel ⟨empty_heap m start, []⟩ ops) :
    ∃ c, run fuel ⟨empty_heap m start, []⟩ ops = some c ∧
      ∀ l ∈ c.live, l.idx < LEDGER_LEN ∧ ∃ s1, free fuel c.st l.ptr = some s1 ∧
        read32 s1.mem (l.ptr - HEADER_SIZE - RED_ZONE_LEN + OFF_STATUS) = FREE ∧
        (s1.heap_usage l.idx).status = FREE := by
  obtain ⟨c, hr, ⟨recs, hwf, hlive⟩, hle⟩ :=
    run_ledger fuel hfuel ops _ (empty_heap_inv m start h0 hw) hv (Nat.zero_le _)
  refine ⟨c, hr, fun l hl => ?_⟩
  obtain ⟨x, hx, hpx, -, -, hidx, hfr⟩ := hlive l hl
  refine ⟨lt_of_lt_of_le hidx hle, ?_⟩
  obtain ⟨l1, l2, rfl⟩ := List.append_of_mem hx
  have hlen : l2.length < fuel := by
    have := hwf.length_lt hfuel
    simp at this
    omega
  obtain ⟨m1, f, rest, -, -, -, hfree, -, -, hst1, -⟩ := free_wf hwf fuel hlen
  have hpe : l.ptr = x + HEADER_SIZE := hpx
  have hhead : l.ptr - HEADER_SIZE - RED_ZONE_LEN = x := by
    rw [hpe]
    show x + HEADER_SIZE - HEADER_SIZE - 0 = x
    omega
  rw [hpe] at hhead ⊢
  refine ⟨_, hfree, ?_, ?_⟩
  · rw [hhead]
    exact hst1
  · show (mark_ledger c.st.mem x c.st.heap_usage c.st.num_allocs 0 l.idx).status = FREE
    have hmatch : ledger_match c.st.mem x (c.st.heap_usage l.idx) := by
      unfold ledger_match
      rw [hfr]
      exact ⟨rfl, rfl⟩
    rw [mark_ledger_eq, if_pos ⟨Nat.zero_le _, by omega, hmatch⟩]

set_option maxHeartbeats 4000000 in
/-- C10 on a run that leaves two live blocks. -/
theorem free_marks_record_and_ledger_witness :
    ∃ c, run 89478486 ⟨empty_heap (fun _ => 0) 0x8000, []⟩
        [.malloc example_env 24, .malloc example_env 10] = some c ∧
      ∀ l ∈ c.live, l.idx < LEDGER_LEN ∧ ∃ s1, free 89478486 c.st l.ptr = some s1 ∧
        read32 s1.mem (l.ptr - HEADER_SIZE - RED_ZONE_LEN + OFF_STATUS) = FREE ∧
        (s1.heap_usage l.idx).status = FREE :=
  free_marks_record_and_ledger (fun _ => 0) 0x8000 (by decide) (by decide) 89478486 (by decide)
    [.malloc example_env 24, .malloc example_env 10] (by decide!)

/-! ## Forward coalescing -/

theorem Tiles.unique {m : Mem} {e : Nat} :
    ∀ {r1 r2 : List Nat} {a : Nat}, Tiles m e a r1 → Tiles m e a r2 → r1 = r2
  | [], [], _, _, _ => rfl
  | [], y :: ys, a, h1, h2 => by
    have h3 : a = e := h1
    have h4 := h2.2.1
    have h5 := block_len_ge m a
    have hC : HEADER_SIZE = 48 := rfl
    omega
  | x :: xs, [], a, h1, h2 => by
    have h3 : a = e := h2
    have h4 := h1.2.1
    have h5 := block_len_ge m a
    have hC : HEADER_SIZE = 48 := rfl
    omega
  | x :: xs, y :: ys, a, h1, h2 => by
    obtain ⟨hx, -, h3⟩ := h1
    obtain ⟨hy, -, h4⟩ := h2
    rw [hx, hy, Tiles.unique h3 h4]

theorem free_run_unique {P : Nat → Prop} :
    ∀ (f f1 rest rest1 : List Nat), f ++ rest = f1 ++ rest1 → (∀ x ∈ f, P x) →
      (∀ x ∈ f1, P x) → (∀ x, rest.head? = some x → ¬ P x) →
      (∀ x, rest1.head? = some x → ¬ P x) → f = f1 ∧ rest = rest1
  | [], [], _, _, h, _, _, _, _ => ⟨rfl, h⟩
  | [], y :: ys, rest, rest1, h, _, h2, h3, _ => by
    have hr : rest = y :: (ys ++ rest1) := h
    exact absurd (h2 y (List.mem_cons_self _ _)) (h3 y (by rw [hr]; rfl))
  | x :: xs, [], rest, rest1, h, h1, _, _, h4 => by
    have hr : rest1 = x :: (xs ++ rest) := h.symm
    exact absurd (h1 x (List.mem_cons_self _ _)) (h4 x (by rw [hr]; rfl))
  | x :: xs, y :: ys, rest, rest1, h, h1, h2, h3, h4 => by
    have hxy : x = y := (List.cons.inj h).1
    have ht : xs ++ rest = ys ++ rest1 := (List.cons.inj h).2
    obtain ⟨e1, e2⟩ := free_run_unique xs ys rest rest1 ht
      (fun z hz => h1 z (List.mem_cons_of_mem _ hz))
      (fun z hz => h2 z (List.mem_cons_of_mem _ hz)) h3 h4
    exact ⟨by rw [hxy, e1], e2⟩

/-- The effect of `free` on the record `h` of a well-formed heap when the run of
free records after `h` is `f` and the records after the run are `rest`. -/
theorem free_run_wf {s : State} {l1 f rest : List Nat} {h : Nat}
    (hwf : WellFormedWith s (l1 ++ h :: (f ++ rest)))
    (hfree : ∀ x ∈ f, read32 s.mem (x + OFF_STATUS) = FREE)
    (hmax : ∀ x, rest.head? = some x → read32 s.mem (x + OFF_STATUS) ≠ FREE)
    (fuel : Nat) (hf : (f ++ rest).length < fuel) :
    ∃ m1, free fuel s (h + HEADER_SIZE) = some
        { s with mem := m1, heap_usage := mark_ledger s.mem h s.heap_usage s.num_allocs 0,
                 num_frees := s.num_frees + 1 } ∧
      Tiles m1 s.heap_end s.heap_start (l1 ++ h :: rest) ∧
      SameOutside s.mem m1 h (h + 8) ∧
      read32 m1 (h + OFF_STATUS) = FREE ∧
      block_len m1 h = block_len s.mem h + (f.map (block_len s.mem)).sum := by
  obtain ⟨m1, f1, rest1, hl, hf1, hr1, hfr, ht, hso, hst, hsum⟩ := free_wf hwf fuel hf
  obtain ⟨e1, e2⟩ := free_run_unique (P := fun x => read32 s.mem (x + OFF_STATUS) = FREE)
    f f1 rest rest1 hl hfree hf1 hmax hr1
  subst e1
  subst e2
  exact ⟨m1, hfr, ht, hso, hst, hsum⟩

/-- C11 (forward coalescing). On a well-formed heap, let `h` be a record of capacity
`c = payload_size`, followed by the run `f` of consecutive free records, the run
being maximal (after it comes `heap_end` or a record that is not free). Then
`free` of the payload of `h` returns, and afterwards `payload_size` of `h` is
`c` plus the sum over the run of `ci + HEADER_SIZE + 2 * RED_ZONE_LEN`; the heap
is tiled by the records before `h`, `h` itself and the records after the run, so
the end of `h` is `heap_end` or the header of the next record, whose status is
unchanged and not `FREE`. -/
theorem free_coalesces_forward (s : State) (l1 f rest : List Nat) (h : Nat)
    (hwf : WellFormedWith s (l1 ++ h :: (f ++ rest)))
    (hfree : ∀ x ∈ f, read32 s.mem (x + OFF_STATUS) = FREE)
    (hmax : ∀ x, rest.head? = some x → read32 s.mem (x + OFF_STATUS) ≠ FREE)
    (fuel : Nat) (hf : (f ++ rest).length < fuel) :
    ∃ s1, free fuel s (h + HEADER_SIZE + RED_ZONE_LEN) = some s1 ∧
      read32 s1.mem h = read32 s.mem h +
        (f.map fun x => read32 s.mem x + HEADER_SIZE + 2 * RED_ZONE_LEN).sum ∧
      read32 s1.mem (h + OFF_STATUS) = FREE ∧
      WellFormedWith s1 (l1 ++ h :: rest) ∧
      (rest = [] → h + block_len s1.mem h = s1.heap_end) ∧
      (∀ x, rest.head? = some x →
        h + block_len s1.mem h = x ∧
        read32 s1.mem (x + OFF_STATUS) = read32 s.mem (x + OFF_STATUS) ∧
        read32 s1.mem (x + OFF_STATUS) ≠ FREE) := by
  obtain ⟨m1, hfr, ht, hso, hst, hsum⟩ := free_run_wf hwf hfree hmax fuel hf
  have hC : HEADER_SIZE = 48 := rfl
  have hW : WORD = 4294967296 := rfl
  have hO : OFF_STATUS = 4 := rfl
  have he := hwf.2.1
  obtain ⟨-, ht2, ht3⟩ := ht.split_at
  refine ⟨_, hfr, ?_, hst, ⟨hwf.1, hwf.2.1, ht⟩, ?_, ?_⟩
  · have h1 : block_len m1 h = read32 m1 h + 48 := rfl
    have h2 : block_len s.mem h = read32 s.mem h + 48 := rfl
    have h3 : (f.map fun x => read32 s.mem x + HEADER_SIZE + 2 * RED_ZONE_LEN).sum
        = (f.map (block_len s.mem)).sum := rfl
    show read32 m1 h = _
    rw [h3]
    omega
  · intro hr
    subst hr
    exact ht3
  · intro x hx
    cases rest with
    | nil => simp at hx
    | cons y ys =>
      simp only [List.head?_cons, Option.some.injEq] at hx
      subst hx
      have hy : y = h + block_len m1 h := ht3.1
      have hb := block_len_ge m1 h
      have hby := block_len_ge m1 (h + block_len m1 h)
      have hle := ht3.2.1
      have hrd : read32 m1 (y + OFF_STATUS) = read32 s.mem (y + OFF_STATUS) :=
        hso.read32 _ (by omega) (Or.inr (by omega))
      exact ⟨hy.symm, hrd, by rw [hrd]; exact hmax y rfl⟩

/-- C11 on the example heap: freeing the block at `0x8000` absorbs the two free
records that follow it and stops at the used record at `0x80b0`. -/
theorem free_coalesces_forward_witness :
    ∃ s1, free 4 example_run_heap 0x8030 = some s1 ∧
      read32 s1.mem 0x8000 = 16 + ((8 + 48) + (8 + 48)) ∧
      WellFormedWith s1 [0x8000, 0x80b0] := by
  obtain ⟨s1, hfr, hsz, -, hwf, -⟩ :=
    free_coalesces_forward example_run_heap [] [0x8040, 0x8078] [0x80b0] 0x8000 (by decide)
      (by decide) (by decide) 4 (by decide)
  refine ⟨s1, hfr, ?_, hwf⟩
  rw [hsz]
  decide

/-- Freeing the upper record `B` and then the lower record `A` of an adjacent pair
leaves one free record at `A` that covers both. -/
theorem free_pair_upper_first {s : State} {l1 l2 : List Nat} {A B : Nat}
    (hwf : WellFormedWith s (l1 ++ A :: B :: l2)) (fuel : Nat)
    (hf : (l1 ++ A :: B :: l2).length < fuel) :
    ∃ s1 s2 recs2, free fuel s (B + HEADER_SIZE) = some s1 ∧
      free fuel s1 (A + HEADER_SIZE) = some s2 ∧
      WellFormedWith s2 recs2 ∧ A ∈ recs2 ∧ B ∉ recs2 ∧
      read32 s2.mem (A + OFF_STATUS) = FREE ∧
      read32 s.mem A + read32 s.mem B + HEADER_SIZE + 2 * RED_ZONE_LEN ≤ read32 s2.mem A := by
  have hC : HEADER_SIZE = 48 := rfl
  have hR : RED_ZONE_LEN = 0 := rfl
  have hW : WORD = 4294967296 := rfl
  have hlen : (l1 ++ A :: B :: l2).length = l1.length + l2.length + 2 := by
    simp only [List.length_append, List.length_cons]
    omega
  have hwfB : WellFormedWith s ((l1 ++ [A]) ++ B :: l2) := by
    simpa using hwf
  obtain ⟨-, -, htA⟩ := hwf.2.2.split_at
  have hAB : B = A + block_len s.mem A := htA.1
  have hble := htA.2.1
  have he := hwf.2.1
  obtain ⟨m1, f, rest, hl, -, -, hfr1, ht1, hso1, hst1, hsum1⟩ :=
    free_wf hwfB fuel (by omega)
  generalize hs1 : ({ s with
    mem := m1
    heap_usage := mark_ledger s.mem B s.heap_usage s.num_allocs 0
    num_frees := s.num_frees + 1 } : State) = s1 at hfr1
  have hs1m : s1.mem = m1 := by rw [← hs1]
  have hs1e : s1.heap_end = s.heap_end := by rw [← hs1]
  have hs1s : s1.heap_start = s.heap_start := by rw [← hs1]
  have hwf1 : WellFormedWith s1 (l1 ++ A :: (B :: rest)) := by
    refine ⟨by rw [hs1s]; exact hwf.1, by rw [hs1e]; exact hwf.2.1, ?_⟩
    rw [hs1m, hs1e, hs1s]
    simpa using ht1
  have hrestlen : rest.length ≤ l2.length := by
    rw [hl]
    simp
  obtain ⟨m2, f2, rest2, hl2, hf2, hr2, hfr2, ht2, hso2, hst2, hsum2⟩ :=
    free_wf hwf1 fuel (by simp only [List.length_cons]; omega)
  generalize hs2 : ({ s1 with
    mem := m2
    heap_usage := mark_ledger s1.mem A s1.heap_usage s1.num_allocs 0
    num_frees := s1.num_frees + 1 } : State) = s2 at hfr2
  have hs2m : s2.mem = m2 := by rw [← hs2]
  have hs2e : s2.heap_end = s.heap_end := by rw [← hs2, ← hs1e]
  have hs2s : s2.heap_start = s.heap_start := by rw [← hs2, ← hs1s]
  -- the run absorbed by the second call starts with `B`
  have hBf : ∃ f3, f2 = B :: f3 := by
    cases f2 with
    | nil =>
      have : rest2 = B :: rest := by simpa using hl2.symm
      have := hr2 B (by rw [this]; rfl)
      rw [hs1m] at this
      exact absurd hst1 this
    | cons y ys =>
      have : B = y := by
        have := hl2
        simp only [List.cons_append, List.cons.injEq] at this
        exact this.1
      exact ⟨ys, by rw [this]⟩
  obtain ⟨f3, rfl⟩ := hBf
  have hA1 : block_len m1 A = block_len s.mem A := by
    show read32 m1 A + HEADER_SIZE + 2 * RED_ZONE_LEN = read32 s.mem A + HEADER_SIZE + 2 * RED_ZONE_LEN
    have hb := block_len_ge s.mem A
    rw [hso1.read32 A (by omega) (Or.inl (by omega))]
  have hB1 : block_len s.mem B ≤ block_len m1 B := by omega
  have hsum3 : block_len m2 A = block_len m1 A + (block_len m1 B + (f3.map (block_len m1)).sum) := by
    rw [hsum2, hs1m]
    simp
  have hdA : block_len s.mem A = read32 s.mem A + 48 := rfl
  have hdB : block_len s.mem B = read32 s.mem B + 48 := rfl
  have hdA2 : block_len m2 A = read32 m2 A + 48 := rfl
  have hge : read32 s.mem A + read32 s.mem B + 48 ≤ read32 m2 A := by omega
  have ht2s : Tiles s2.mem s2.heap_end s2.heap_start (l1 ++ A :: rest2) := by
    rw [hs2m, hs2e, hs2s, ← hs1e, ← hs1s]
    exact ht2
  have hAin : A ∈ l1 ++ A :: rest2 := by simp
  refine ⟨s1, s2, l1 ++ A :: rest2, hfr1, hfr2,
    ⟨by rw [hs2s]; exact hwf.1, by rw [hs2e]; exact hwf.2.1, ht2s⟩, hAin, ?_, ?_, ?_⟩
  · intro hBin
    have hne : B ≠ A := by
      have := block_len_ge s.mem A
      omega
    have hbB := block_len_ge s2.mem B
    rcases ht2s.disjoint hBin hAin hne with hd | hd
    · omega
    · rw [hs2m] at hd
      omega
  · rw [hs2m]
    exact hst2
  · rw [hs2m]
    omega

/-- Freeing the lower record `A` and then the upper record `B` of an adjacent pair
of which `B` is used leaves `A` and `B` as two free records: `free` does not
coalesce backwards. -/
theorem free_pair_lower_first {s : State} {l1 l2 : List Nat} {A B : Nat}
    (hwf : WellFormedWith s (l1 ++ A :: B :: l2))
    (hB : read32 s.mem (B + OFF_STATUS) = USED) (fuel : Nat)
    (hf : (l1 ++ A :: B :: l2).length < fuel) :
    ∃ s1 s2 rest, free fuel s (A + HEADER_SIZE) = some s1 ∧
      free fuel s1 (B + HEADER_SIZE) = some s2 ∧
      WellFormedWith s2 (l1 ++ A :: B :: rest) ∧
      read32 s2.mem A = read32 s.mem A ∧
      read32 s2.mem (A + OFF_STATUS) = FREE ∧ read32 s2.mem (B + OFF_STATUS) = FREE := by
  have hC : HEADER_SIZE = 48 := rfl
  have hR : RED_ZONE_LEN = 0 := rfl
  have hO : OFF_STATUS = 4 := rfl
  have hW : WORD = 4294967296 := rfl
  have hlen : (l1 ++ A :: B :: l2).length = l1.length + l2.length + 2 := by
    simp only [List.length_append, List.length_cons]
    omega
  obtain ⟨-, -, htA⟩ := hwf.2.2.split_at
  have hAB : B = A + block_len s.mem A := htA.1
  have hble := htA.2.1
  have hbA := block_len_ge s.mem A
  have hbB := block_len_ge s.mem B
  have he := hwf.2.1
  have hwfA : WellFormedWith s (l1 ++ A :: ([] ++ B :: l2)) := by simpa using hwf
  obtain ⟨m1, hfr1, ht1, hso1, hst1, hsum1⟩ :=
    free_run_wf hwfA (by simp)
      (by
        intro x hx
        simp only [List.head?_cons, Option.some.injEq] at hx
        subst hx
        rw [hB]
        decide)
      fuel (by simp only [List.nil_append, List.length_cons]; omega)
  generalize hs1 : ({ s with
    mem := m1
    heap_usage := mark_ledger s.mem A s.heap_usage s.num_allocs 0
    num_frees := s.num_frees + 1 } : State) = s1 at hfr1
  have hs1m : s1.mem = m1 := by rw [← hs1]
  have hs1e : s1.heap_end = s.heap_end := by rw [← hs1]
  have hs1s : s1.heap_start = s.heap_start := by rw [← hs1]
  have hwf1 : WellFormedWith s1 ((l1 ++ [A]) ++ B :: l2) := by
    refine ⟨by rw [hs1s]; exact hwf.1, by rw [hs1e]; exact hwf.2.1, ?_⟩
    rw [hs1m, hs1e, hs1s]
    simpa using ht1
  obtain ⟨m2, f, rest, hl, -, -, hfr2, ht2, hso2, hst2, -⟩ := free_wf hwf1 fuel (by omega)
  generalize hs2 : ({ s1 with
    mem := m2
    heap_usage := mark_ledger s1.mem B s1.heap_usage s1.num_allocs 0
    num_frees := s1.num_frees + 1 } : State) = s2 at hfr2
  have hs2m : s2.mem = m2 := by rw [← hs2]
  have hs2e : s2.heap_end = s.heap_end := by rw [← hs2, ← hs1e]
  have hs2s : s2.heap_start = s.heap_start := by rw [← hs2, ← hs1s]
  rw [hs1m] at hso2
  refine ⟨s1, s2, rest, hfr1, hfr2,
    ⟨by rw [hs2s]; exact hwf.1, by rw [hs2e]; exact hwf.2.1, ?_⟩, ?_, ?_, ?_⟩
  · rw [hs2m, hs2e, hs2s, ← hs1e, ← hs1s]
    simpa using ht2
  · rw [hs2m, hso2.read32 A (by omega) (Or.inl (by omega))]
    have h1 : block_len m1 A = read32 m1 A + 48 := rfl
    have h2 : block_len s.mem A = read32 s.mem A + 48 := rfl
    simp only [List.map_nil, List.sum_nil] at hsum1
    omega
  · rw [hs2m, hso2.read32 _ (by omega) (Or.inl (by omega))]
    exact hst1
  · rw [hs2m]
    exact hst2

/-- C12, as stated, fails for the order `free(A)` then `free(B)`: on the heap of two
adjacent used records `A = 0x8000` (16 bytes) and `B = 0x8040` (8 bytes), after
`free(A)` and `free(B)` the record `A` still has `payload_size = 16`, less than
`16 + 8 + HEADER_SIZE`, and every tiling of the heap still contains the header of
`B`. -/
theorem free_lower_then_upper_keeps_two_records :
    ∃ s1 s2, free 3 example_pair_heap 0x8030 = some s1 ∧ free 3 s1 0x8070 = some s2 ∧
      read32 s2.mem 0x8000 = 16 ∧
      ¬ (16 + 8 + HEADER_SIZE + 2 * RED_ZONE_LEN ≤ read32 s2.mem 0x8000) ∧
      ∀ recs, WellFormedWith s2 recs → 0x8040 ∈ recs := by
  have hv : ((free 3 example_pair_heap 0x8030).bind fun s1 =>
      (free 3 s1 0x8070).map fun s2 =>
        (read32 s2.mem 0x8000, decide (WellFormedWith s2 [0x8000, 0x8040])))
      = some (16, true) := by decide!
  obtain ⟨s1, h1, hv1⟩ := Option.bind_eq_some.1 hv
  obtain ⟨s2, h2, hv2⟩ := Option.map_eq_some'.1 hv1
  simp only [Prod.mk.injEq, decide_eq_true_eq] at hv2
  refine ⟨s1, s2, h1, h2, hv2.1, ?_, fun recs hr => ?_⟩
  · rw [hv2.1]
    decide
  · rw [Tiles.unique hr.2.2 hv2.2.2.2]
    simp

/-- C12 (amended). On a well-formed heap with adjacent records `A` and `B` (`B`
starts where `A` ends) of capacities `a` and `b`, `B` used: after `free(B)` then
`free(A)` the heap is tiled by records among which `A` is free with
`payload_size ≥ a + b + HEADER_SIZE + 2 * RED_ZONE_LEN` and the header of `B` is
no longer a record; after `free(A)` then `free(B)` both `A` and `B` are free
records of the walk and `A` keeps `payload_size = a` (coalescing is forward
only). -/
theorem free_adjacent_pair (s : State) (l1 l2 : List Nat) (A B : Nat)
    (hwf : WellFormedWith s (l1 ++ A :: B :: l2))
    (hB : read32 s.mem (B + OFF_STATUS) = USED) (fuel : Nat)
    (hf : (l1 ++ A :: B :: l2).length < fuel) :
    (∃ s1 s2 recs2, free fuel s (B + HEADER_SIZE + RED_ZONE_LEN) = some s1 ∧
      free fuel s1 (A + HEADER_SIZE + RED_ZONE_LEN) = some s2 ∧
      WellFormedWith s2 recs2 ∧ A ∈ recs2 ∧ B ∉ recs2 ∧
      read32 s2.mem (A + OFF_STATUS) = FREE ∧
      read32 s.mem A + read32 s.mem B + HEADER_SIZE + 2 * RED_ZONE_LEN ≤ read32 s2.mem A) ∧
    (∃ s1 s2 rest, free fuel s (A + HEADER_SIZE + RED_ZONE_LEN) = some s1 ∧
      free fuel s1 (B + HEADER_SIZE + RED_ZONE_LEN) = some s2 ∧
      WellFormedWith s2 (l1 ++ A :: B :: rest) ∧
      read32 s2.mem A = read32 s.mem A ∧
      read32 s2.mem (A + OFF_STATUS) = FREE ∧ read32 s2.mem (B + OFF_STATUS) = FREE) :=
  ⟨free_pair_upper_first hwf fuel hf, free_pair_lower_first hwf hB fuel hf⟩

/-- C12 (amended) on the pair `A = 0x8000`, `B = 0x8040`. -/
theorem free_adjacent_pair_witness :
    (∃ s1 s2 recs2, free 3 example_pair_heap 0x8070 = some s1 ∧
      free 3 s1 0x8030 = some s2 ∧
      WellFormedWith s2 recs2 ∧ 0x8000 ∈ recs2 ∧ 0x8040 ∉ recs2 ∧
      read32 s2.mem 0x8004 = FREE ∧ 16 + 8 + 48 ≤ read32 s2.mem 0x8000) ∧
    (∃ s1 s2 rest, free 3 example_pair_heap 0x8030 = some s1 ∧
      free 3 s1 0x8070 = some s2 ∧
      WellFormedWith s2 ([] ++ 0x8000 :: 0x8040 :: rest) ∧
      read32 s2.mem 0x8000 = 16 ∧
      read32 s2.mem 0x8004 = FREE ∧ read32 s2.mem 0x8044 = FREE) :=
  free_adjacent_pair example_pair_heap [] [] 0x8000 0x8040 (by decide) (by decide) 3
    (by decide)

/-! ## Reuse of a freed block -/

theorem roundup_mono (m n : Nat) (hmn : m ≤ n) (hn : n + (MIN_BLOCK_SIZE - 1) < WORD) :
    roundup m MIN_BLOCK_SIZE ≤ roundup n MIN_BLOCK_SIZE := by
  have hn7 : n + 7 < WORD := hn
  rw [roundup_eq n hn7, roundup_eq m (by omega)]
  omega

theorem Fits.not_congr {m1 m2 : Mem} {lo hi r x : Nat} (hso : SameOutside m1 m2 lo hi)
    (hx : x + HEADER_SIZE < WORD) (ho : x + HEADER_SIZE ≤ lo ∨ hi ≤ x)
    (hnf : ¬ Fits m1 r x) : ¬ Fits m2 r x := by
  have hC : HEADER_SIZE = 48 := rfl
  have hW : WORD = 4294967296 := rfl
  have hO : OFF_STATUS = 4 := rfl
  unfold Fits at hnf ⊢
  rw [hso.read32 x (by omega) (by omega), hso.read32 (x + OFF_STATUS) (by omega) (by omega)]
  exact hnf

/-- A `malloc` served by the record `h` that `find_space` returns leaves
`heap_end` as it was. -/
theorem malloc_fit_wf {s : State} {l1 l2 : List Nat} {h : Nat}
    (hwf : WellFormedWith s (l1 ++ h :: l2)) (fuel : Nat) (env : Env) (n : Nat) (hn : n ≠ 0)
    (hw2 : roundup n MIN_BLOCK_SIZE + HEADER_SIZE + MIN_BLOCK_SIZE + 2 * RED_ZONE_LEN < WORD)
    (hfs : find_space fuel s (roundup n MIN_BLOCK_SIZE) = some h) :
    ∃ s1, malloc fuel env s n = some (h + HEADER_SIZE, s1) ∧ s1.heap_end = s.heap_end := by
  by_cases hbig : roundup n MIN_BLOCK_SIZE + HEADER_SIZE + MIN_BLOCK_SIZE ≤ read32 s.mem h
  · obtain ⟨s1, hm, hs1, -⟩ := malloc_split_wf hwf fuel env n hn hw2 hfs hbig
    exact ⟨s1, hm, by rw [hs1]; rfl⟩
  · obtain ⟨hm, -⟩ := malloc_reuse_wf hwf fuel env n hn hw2 hfs (by omega)
    exact ⟨_, hm, rfl⟩

/-- Every outcome of `malloc`, with the records before the chosen one: none of
them fits the request afterwards. -/
theorem malloc_first_wf {s : State} {recs : List Nat} (hwf : WellFormedWith s recs)
    (fuel : Nat) (hf : recs.length < fuel) (env : Env) (n : Nat) (hn : n ≠ 0)
    (hnw : NoWrap s n) :
    ∃ p s1, malloc fuel env s n = some (p, s1) ∧
      ((p = NULL ∧ s1 = s) ∨
        ∃ h l1 l2, p = h + HEADER_SIZE ∧ WellFormedWith s1 (l1 ++ h :: l2) ∧
          (∀ x ∈ l1, ¬ Fits s1.mem (roundup n MIN_BLOCK_SIZE) x) ∧
          roundup n MIN_BLOCK_SIZE ≤ read32 s1.mem h ∧ s.heap_end ≤ s1.heap_end) := by
  have hwf1 := hwf
  obtain ⟨h0, he, ht⟩ := hwf1
  have hnw1 := hnw
  obtain ⟨hw1, hw2, hw3⟩ := hnw1
  have hC : HEADER_SIZE = 48 := rfl
  have hR : RED_ZONE_LEN = 0 := rfl
  have hM : MIN_BLOCK_SIZE = 8 := rfl
  have hW : WORD = 4294967296 := rfl
  rcases find_space_spec hwf (roundup n MIN_BLOCK_SIZE) fuel hf with
    ⟨l1, h, l2, rfl, hl1, hfit, hfs⟩ | ⟨hall, hfs⟩
  · obtain ⟨ht1, ht2, ht3⟩ := ht.split_at
    have hbl := block_len_ge s.mem h
    have hdh : block_len s.mem h = read32 s.mem h + 48 := rfl
    have hkeep : ∀ {m2 : Mem} {hi : Nat}, SameOutside s.mem m2 h hi →
        ∀ x ∈ l1, ¬ Fits m2 (roundup n MIN_BLOCK_SIZE) x := by
      intro m2 hi hso x hx
      have hb := ht1.mem_bounds x hx
      have hbx := block_len_ge s.mem x
      exact Fits.not_congr hso (by omega) (Or.inl (by omega)) (hl1 x hx)
    by_cases hbig : roundup n MIN_BLOCK_SIZE + HEADER_SIZE + MIN_BLOCK_SIZE ≤ read32 s.mem h
    · obtain ⟨s1, hm, hs1, hwf2, hso, hr1, -⟩ := malloc_split_wf hwf fuel env n hn hw2 hfs hbig
      exact ⟨_, s1, hm, Or.inr ⟨h, l1, _, rfl, hwf2, hkeep hso, by rw [hr1],
        by rw [hs1]; exact Nat.le_refl _⟩⟩
    · obtain ⟨hm, hwf2, hso⟩ := malloc_reuse_wf hwf fuel env n hn hw2 hfs (by omega)
      refine ⟨_, _, hm, Or.inr ⟨h, l1, l2, rfl, hwf2, hkeep (hso.mono (by omega) (le_refl _)),
        ?_, Nat.le_refl _⟩⟩
      rw [hso.read32 h (by omega) (Or.inl (by omega))]
      exact hfit.2
  · by_cases hok : (env.sp + WORD - 0x1000000) % WORD
        < s.heap_end + (roundup n MIN_BLOCK_SIZE + HEADER_SIZE)
    · have hs := sbrk_eq env.sp s (roundup n MIN_BLOCK_SIZE + HEADER_SIZE) (by omega)
        (by omega)
      rw [if_pos hok] at hs
      have hk : roundup n MIN_BLOCK_SIZE + HEADER_SIZE + 2 * RED_ZONE_LEN
          = roundup n MIN_BLOCK_SIZE + HEADER_SIZE := rfl
      have := malloc_grow_fail fuel env s n hn hfs (by rw [hk, hs])
      rw [hk, hs] at this
      exact ⟨_, _, this, Or.inl ⟨rfl, rfl⟩⟩
    · obtain ⟨hm, hwf2, hso, hrd⟩ := malloc_grow_wf hwf fuel env n hn hnw hfs hok
      refine ⟨_, _, hm, Or.inr ⟨s.heap_end, recs, [], rfl, hwf2, ?_, by rw [hrd], ?_⟩⟩
      · intro x hx
        have hb := ht.mem_bounds x hx
        have hbx := block_len_ge s.mem x
        exact Fits.not_congr hso (by omega) (Or.inl (by omega)) (hall x hx)
      · show s.heap_end ≤ s.heap_end + (roundup n MIN_BLOCK_SIZE + HEADER_SIZE)
        omega

/-- After `free` of the block `h`, the records before `h` are as before and `h`
fits every request up to its old capacity. -/
theorem free_then_fits {s : State} {l1 l2 : List Nat} {h : Nat}
    (hwf : WellFormedWith s (l1 ++ h :: l2)) (fuel : Nat) (hf : l2.length < fuel) (r : Nat)
    (hr : r ≤ read32 s.mem h) :
    ∃ s2 rest, free fuel s (h + HEADER_SIZE) = some s2 ∧ s2.heap_end = s.heap_end ∧
      WellFormedWith s2 (l1 ++ h :: rest) ∧ Fits s2.mem r h ∧
      ∀ q x, x ∈ l1 → ¬ Fits s.mem q x → ¬ Fits s2.mem q x := by
  have hC : HEADER_SIZE = 48 := rfl
  have hW : WORD = 4294967296 := rfl
  obtain ⟨m1, f, rest, -, -, -, hfr, ht, hso, hst, hsum⟩ := free_wf hwf fuel hf
  obtain ⟨ht1, -, -⟩ := hwf.2.2.split_at
  have he := hwf.2.1
  have hb := hwf.2.2.mem_bounds h (by simp)
  refine ⟨_, rest, hfr, rfl, ⟨hwf.1, hwf.2.1, ht⟩, ⟨hst, ?_⟩, ?_⟩
  · have h1 : block_len m1 h = read32 m1 h + 48 := rfl
    have h2 : block_len s.mem h = read32 s.mem h + 48 := rfl
    show r ≤ read32 m1 h
    omega
  · intro q x hx hnf
    have hbx := ht1.mem_bounds x hx
    have hblx := block_len_ge s.mem x
    exact Fits.not_congr hso (by omega) (Or.inl (by omega)) hnf

/-- C13 (P2). On a well-formed heap with `num_allocs + 1 < LEDGER_LEN` (the ledger
has room for the entries of the two calls of `malloc`), for `n > 0` without wrap,
if `malloc(n)` returns a non-null pointer `p`, then `free(p)` returns, and in the
state it leaves every `malloc(m)` with `0 < m ≤ n` returns a non-null pointer and
leaves `heap_end` unchanged. -/
theorem malloc_after_free_no_growth (s : State) (recs : List Nat)
    (hwf : WellFormedWith s recs) (_hled : s.num_allocs + 1 < LEDGER_LEN) (fuel : Nat)
    (hfuel : WORD ≤ HEADER_SIZE * fuel)
    (env : Env) (n : Nat) (hn : 0 < n) (hnw : NoWrap s n) (p : Nat) (s1 : State)
    (hm : malloc fuel env s n = some (p, s1)) (hp : p ≠ NULL) :
    ∃ s2, free fuel s1 p = some s2 ∧
      ∀ (env2 : Env) (m : Nat), 0 < m → m ≤ n →
        ∃ q s3, malloc fuel env2 s2 m = some (q, s3) ∧ q ≠ NULL ∧
          s3.heap_end = s2.heap_end := by
  have hC : HEADER_SIZE = 48 := rfl
  have hM : MIN_BLOCK_SIZE = 8 := rfl
  have hR : RED_ZONE_LEN = 0 := rfl
  obtain ⟨p1, s1a, hm1, hcase⟩ :=
    malloc_first_wf hwf fuel (hwf.length_lt hfuel) env n (by omega) hnw
  rw [hm] at hm1
  obtain ⟨rfl, rfl⟩ := Prod.mk.inj (Option.some.inj hm1)
  rcases hcase with ⟨hp0, -⟩ | ⟨h, l1, l2, rfl, hwf1, -, hsz, -⟩
  · exact absurd hp0 hp
  · have hlen1 := hwf1.length_lt hfuel
    simp only [List.length_append, List.length_cons] at hlen1
    obtain ⟨s2, rest, hfr, -, hwf2, hfit, -⟩ :=
      free_then_fits hwf1 fuel (by omega) (roundup n MIN_BLOCK_SIZE) hsz
    refine ⟨s2, hfr, fun env2 m hm0 hmn => ?_⟩
    have hrm := roundup_mono m n hmn hnw.1
    have hfitm : Fits s2.mem (roundup m MIN_BLOCK_SIZE) h := ⟨hfit.1, le_trans hrm hfit.2⟩
    rcases find_space_spec hwf2 (roundup m MIN_BLOCK_SIZE) fuel (hwf2.length_lt hfuel) with
      ⟨k1, g, k2, hk, -, -, hfs⟩ | ⟨hall, -⟩
    · rw [hk] at hwf2
      obtain ⟨s3, hm3, he3⟩ := malloc_fit_wf hwf2 fuel env2 m (by omega)
        (by have := hnw.2.1; omega) hfs
      refine ⟨_, s3, hm3, ?_, he3⟩
      show g + HEADER_SIZE ≠ 0
      omega
    · exact absurd hfitm (hall h (by simp))

set_option maxHeartbeats 4000000 in
/-- C13 on the empty heap: after `p = malloc(24)` and `free(p)`, a `malloc(10)` is
served without growth. -/
theorem malloc_after_free_no_growth_witness :
    ∃ p s1, malloc 89478486 example_env (empty_heap (fun _ => 0) 0x8000) 24 = some (p, s1) ∧
      p ≠ NULL ∧
      ∃ s2, free 89478486 s1 p = some s2 ∧
        ∃ q s3, malloc 89478486 example_env s2 10 = some (q, s3) ∧ q ≠ NULL ∧
          s3.heap_end = s2.heap_end := by
  have hsome : (malloc 89478486 example_env (empty_heap (fun _ => 0) 0x8000) 24).isSome := by
    decide!
  obtain ⟨⟨p, s1⟩, hm⟩ := Option.isSome_iff_exists.1 hsome
  have hv : (malloc 89478486 example_env (empty_heap (fun _ => 0) 0x8000) 24).map
      (fun r => r.1) = some 0x8030 := by decide!
  rw [hm] at hv
  simp only [Option.map_some', Option.some.injEq] at hv
  have hp : p ≠ NULL := by
    rw [hv]
    decide
  obtain ⟨s2, hfr, hall⟩ :=
    malloc_after_free_no_growth (empty_heap (fun _ => 0) 0x8000) [] (by decide) (by decide)
      89478486
      (by decide) example_env 24 (by decide) (by decide) p s1 hm hp
  exact ⟨p, s1, hm, hp, s2, hfr, hall example_env 10 (by decide) (by decide)⟩

/-- C14 (address round trip). On a well-formed heap with `num_allocs + 1 <
LEDGER_LEN` (the ledger has room for the entries of the two calls of `malloc`),
for `n > 0` without wrap, if `malloc(n)` returns a non-null pointer `A`, then
`free(A)` returns, and in the state it leaves `malloc(n)` returns the same address
`A` with `heap_end` equal to its value after the first `malloc`. -/
theorem malloc_free_malloc_same_address (s : State) (recs : List Nat)
    (hwf : WellFormedWith s recs) (_hled : s.num_allocs + 1 < LEDGER_LEN) (fuel : Nat)
    (hfuel : WORD ≤ HEADER_SIZE * fuel)
    (env : Env) (n : Nat) (hn : 0 < n) (hnw : NoWrap s n) (A : Nat) (s1 : State)
    (hm : malloc fuel env s n = some (A, s1)) (hA : A ≠ NULL) :
    ∃ s2, free fuel s1 A = some s2 ∧
      ∀ env2 : Env, ∃ s3, malloc fuel env2 s2 n = some (A, s3) ∧
        s3.heap_end = s1.heap_end := by
  have hC : HEADER_SIZE = 48 := rfl
  have hM : MIN_BLOCK_SIZE = 8 := rfl
  have hR : RED_ZONE_LEN = 0 := rfl
  obtain ⟨p1, s1a, hm1, hcase⟩ :=
    malloc_first_wf hwf fuel (hwf.length_lt hfuel) env n (by omega) hnw
  rw [hm] at hm1
  obtain ⟨rfl, rfl⟩ := Prod.mk.inj (Option.some.inj hm1)
  rcases hcase with ⟨hp0, -⟩ | ⟨h, l1, l2, rfl, hwf1, hl1, hsz, -⟩
  · exact absurd hp0 hA
  · have hlen1 := hwf1.length_lt hfuel
    simp only [List.length_append, List.length_cons] at hlen1
    obtain ⟨s2, rest, hfr, he2, hwf2, hfit, hkeep⟩ :=
      free_then_fits hwf1 fuel (by omega) (roundup n MIN_BLOCK_SIZE) hsz
    refine ⟨s2, hfr, fun env2 => ?_⟩
    rcases find_space_spec hwf2 (roundup n MIN_BLOCK_SIZE) fuel (hwf2.length_lt hfuel) with
      ⟨k1, g, k2, hk, hk1, hg, hfs⟩ | ⟨hall, -⟩
    · obtain ⟨-, e2⟩ := free_run_unique
        (P := fun x => ¬ Fits s2.mem (roundup n MIN_BLOCK_SIZE) x) l1 k1 (h :: rest) (g :: k2) hk
        (fun x hx => hkeep _ x hx (hl1 x hx)) hk1
        (fun x hx => by
          simp only [List.head?_cons, Option.some.injEq] at hx
          subst hx
          exact not_not.2 hfit)
        (fun x hx => by
          simp only [List.head?_cons, Option.some.injEq] at hx
          subst hx
          exact not_not.2 hg)
      have hgh : h = g := (List.cons.inj e2).1
      subst hgh
      rw [hk] at hwf2
      obtain ⟨s3, hm3, he3⟩ := malloc_fit_wf hwf2 fuel env2 n (by omega) hnw.2.1 hfs
      exact ⟨s3, hm3, by rw [he3, he2]⟩
    · exact absurd hfit (hall h (by simp))

set_option maxHeartbeats 4000000 in
/-- C14 for `n = 10` on the empty heap. -/
theorem malloc_free_malloc_same_address_witness :
    ∃ A s1, malloc 89478486 example_env (empty_heap (fun _ => 0) 0x8000) 10 = some (A, s1) ∧
      A ≠ NULL ∧
      ∃ s2, free 89478486 s1 A = some s2 ∧
        ∃ s3, malloc 89478486 example_env s2 10 = some (A, s3) ∧
          s3.heap_end = s1.heap_end := by
  have hsome : (malloc 89478486 example_env (empty_heap (fun _ => 0) 0x8000) 10).isSome := by
    decide!
  obtain ⟨⟨A, s1⟩, hm⟩ := Option.isSome_iff_exists.1 hsome
  have hv : (malloc 89478486 example_env (empty_heap (fun _ => 0) 0x8000) 10).map
      (fun r => r.1) = some 0x8030 := by decide!
  rw [hm] at hv
  simp only [Option.map_some', Option.some.injEq] at hv
  have hA : A ≠ NULL := by
    rw [hv]
    decide
  obtain ⟨s2, hfr, hall⟩ :=
    malloc_free_malloc_same_address (empty_heap (fun _ => 0) 0x8000) [] (by decide)
      (by decide) 89478486
      (by decide) example_env 10 (by decide) (by decide) A s1 hm hA
  exact ⟨A, s1, hm, hA, s2, hfr, hall example_env⟩

/-! ## A `malloc` that grows the heap, in full -/

theorem malloc_grow_step {s : State} {recs : List Nat} (hwf : WellFormedWith s recs)
    (fuel : Nat) (hf : recs.length < fuel) (env : Env) (n : Nat) (hn : n ≠ 0)
    (hnw : NoWrap s n)
    (hnofit : ∀ x ∈ recs, ¬ Fits s.mem (roundup n MIN_BLOCK_SIZE) x)
    (hok : ¬ (env.sp + WORD - 0x1000000) % WORD
      < s.heap_end + (roundup n MIN_BLOCK_SIZE + HEADER_SIZE)) :
    ∃ s1, malloc fuel env s n = some (s.heap_end + HEADER_SIZE, s1) ∧
      WellFormedWith s1 (recs ++ [s.heap_end]) ∧
      s1.heap_end = s.heap_end + (roundup n MIN_BLOCK_SIZE + HEADER_SIZE) ∧
      s1.heap_start = s.heap_start ∧
      read32 s1.mem s.heap_end = roundup n MIN_BLOCK_SIZE ∧
      read32 s1.mem (s.heap_end + OFF_STATUS) = USED ∧
      read32 s1.mem (s.heap_end + OFF_DATA_SIZE) = n ∧
      SameOutside s.mem s1.mem s.heap_end (s.heap_end + 12) ∧
      s1.num_allocs = s.num_allocs + 1 ∧ s1.num_frees = s.num_frees ∧
      s1.heap_usage s.num_allocs = read_header s1.mem s.heap_end ∧
      (∀ i, i ≠ s.num_allocs → s1.heap_usage i = s.heap_usage i) := by
  have hC : HEADER_SIZE = 48 := rfl
  have hR : RED_ZONE_LEN = 0 := rfl
  have hM : MIN_BLOCK_SIZE = 8 := rfl
  have hW : WORD = 4294967296 := rfl
  have hfs : find_space fuel s (roundup n MIN_BLOCK_SIZE) = some s.heap_end := by
    rcases find_space_spec hwf (roundup n MIN_BLOCK_SIZE) fuel hf with
      ⟨l1, h, l2, rfl, -, hfit, -⟩ | ⟨-, hfs⟩
    · exact absurd hfit (hnofit h (by simp))
    · exact hfs
  obtain ⟨hm, hwf2, hso, hrd⟩ := malloc_grow_wf hwf fuel env n hn hnw hfs hok
  have he := hwf.2.1
  have hw3 := hnw.2.2
  have hw1 := hnw.1
  obtain ⟨-, ha2, ha3⟩ := alloc_state_mem s
    (write32 s.mem s.heap_end (roundup n MIN_BLOCK_SIZE))
    (s.heap_end + (roundup n MIN_BLOCK_SIZE + HEADER_SIZE)) s.heap_end n (by omega)
  refine ⟨_, hm, hwf2, rfl, rfl, hrd, ha2, ?_, hso, rfl, rfl, ?_, ?_⟩
  · rw [ha3, Nat.mod_eq_of_lt (by omega)]
  · simp [alloc_state]
  · intro i hi
    simp [alloc_state, hi]

/-! ## Scenario B -/

/-- The four calls of scenario B from the empty heap at `S`, step by step. -/
theorem scenario_b_steps (m : Mem) (S : Nat) (h0 : 0 < S) (hw : S + 208 < WORD)
    (fuel : Nat) (hfuel : 3 ≤ fuel) (env1 env2 env3 : Env)
    (hsp1 : S + 152 ≤ (env1.sp + WORD - 0x1000000) % WORD)
    (hsp2 : S + 208 ≤ (env2.sp + WORD - 0x1000000) % WORD) :
    ∃ s1 s2 s3 s4,
      malloc fuel env1 (empty_heap m S) 100 = some (S + HEADER_SIZE, s1) ∧
      malloc fuel env2 s1 8 = some (S + 152 + HEADER_SIZE, s2) ∧
      free fuel s2 (S + HEADER_SIZE) = some s3 ∧
      (WellFormedWith s3 [S, S + 152] ∧ read32 s3.mem (S + OFF_STATUS) = FREE ∧
        read32 s3.mem S = 104 ∧ read32 s3.mem (S + 152 + OFF_STATUS) = USED) ∧
      malloc fuel env3 s3 50 = some (S + HEADER_SIZE, s4) ∧
      (WellFormedWith s4 [S, S + 152] ∧ read32 s4.mem (S + OFF_STATUS) = USED ∧
        read32 s4.mem S = 104 ∧ read32 s4.mem (S + OFF_DATA_SIZE) = 50 ∧
        read32 s4.mem (S + 152 + OFF_STATUS) = USED ∧ s4.heap_end = S + 208) := by
  have hC : HEADER_SIZE = 48 := rfl
  have hR : RED_ZONE_LEN = 0 := rfl
  have hM : MIN_BLOCK_SIZE = 8 := rfl
  have hO : OFF_STATUS = 4 := rfl
  have hD : OFF_DATA_SIZE = 8 := rfl
  have hW : WORD = 4294967296 := rfl
  have hr100 : roundup 100 MIN_BLOCK_SIZE = 104 := by decide
  have hr8 : roundup 8 MIN_BLOCK_SIZE = 8 := by decide
  have hr50 : roundup 50 MIN_BLOCK_SIZE = 56 := by decide
  -- a = malloc(100)
  have hwf0 : WellFormedWith (empty_heap m S) [] := ⟨h0, by show S < WORD; omega, rfl⟩
  have he0 : (empty_heap m S).heap_end = S := rfl
  obtain ⟨s1, hm1, hwf1, he1, hs1, hrd1, hst1, -, hso1, -⟩ :=
    malloc_grow_step hwf0 fuel (by simp; omega) env1 100 (by decide)
      ⟨by decide, by rw [hr100]; decide, by rw [hr100, he0]; omega⟩ (by simp)
      (by rw [hr100, he0]; omega)
  rw [he0] at hm1 hwf1 he1 hrd1 hst1 hso1
  rw [hr100] at he1 hrd1
  simp only [List.nil_append] at hwf1
  -- b = malloc(8)
  have hnf1 : ∀ x ∈ [S], ¬ Fits s1.mem (roundup 8 MIN_BLOCK_SIZE) x := by
    intro x hx
    simp only [List.mem_singleton] at hx
    subst hx
    intro hfit
    have := hfit.1
    rw [hst1] at this
    exact absurd this (by decide)
  obtain ⟨s2, hm2, hwf2, he2, hs2, hrd2, hst2, -, hso2, -⟩ :=
    malloc_grow_step hwf1 fuel (by simp; omega) env2 8 (by decide)
      ⟨by decide, by rw [hr8]; decide, by rw [hr8, he1]; omega⟩ hnf1
      (by rw [hr8, he1]; omega)
  rw [he1] at hm2 hwf2 he2 hrd2 hst2 hso2
  rw [hr8] at he2 hrd2
  have hS2 : read32 s2.mem S = 104 := by
    rw [hso2.read32 S (by omega) (Or.inl (by omega))]
    exact hrd1
  -- free(a)
  have hwf2a : WellFormedWith s2 ([] ++ S :: ([] ++ [S + (104 + HEADER_SIZE)])) := by
    simpa using hwf2
  obtain ⟨m3, hfr, ht3, hso3, hst3, hsum3⟩ :=
    free_run_wf hwf2a (by simp)
      (by
        intro x hx
        simp only [List.head?_cons, Option.some.injEq] at hx
        subst hx
        rw [hst2]
        decide)
      fuel (by simp; omega)
  generalize hs3 : ({ s2 with
    mem := m3
    heap_usage := mark_ledger s2.mem S s2.heap_usage s2.num_allocs 0
    num_frees := s2.num_frees + 1 } : State) = s3 at hfr
  have hs3m : s3.mem = m3 := by rw [← hs3]
  have hs3e : s3.heap_end = s2.heap_end := by rw [← hs3]
  have hs3s : s3.heap_start = s2.heap_start := by rw [← hs3]
  have hwf3 : WellFormedWith s3 ([] ++ S :: [S + 152]) := by
    refine ⟨by rw [hs3s]; exact hwf2.1, by rw [hs3e]; exact hwf2.2.1, ?_⟩
    rw [hs3m, hs3e, hs3s]
    simpa using ht3
  have hS3 : read32 s3.mem S = 104 := by
    have h1 : block_len m3 S = read32 m3 S + 48 := rfl
    have h2 : block_len s2.mem S = read32 s2.mem S + 48 := rfl
    simp only [List.map_nil, List.sum_nil] at hsum3
    rw [hs3m]
    omega
  have hB3 : read32 s3.mem (S + 152 + OFF_STATUS) = USED := by
    rw [hs3m, hso3.read32 _ (by omega) (Or.inr (by omega))]
    exact hst2
  have hA3 : read32 s3.mem (S + OFF_STATUS) = FREE := by
    rw [hs3m]
    exact hst3
  -- c = malloc(50)
  have hfitS : Fits s3.mem (roundup 50 MIN_BLOCK_SIZE) S := by
    refine ⟨hA3, ?_⟩
    rw [hr50, hS3]
    decide
  have hfs4 : find_space fuel s3 (roundup 50 MIN_BLOCK_SIZE) = some S := by
    rcases find_space_spec hwf3 (roundup 50 MIN_BLOCK_SIZE) fuel (by simp; omega) with
      ⟨k1, g, k2, hk, hk1, hg, hfs⟩ | ⟨hall, -⟩
    · obtain ⟨-, e2⟩ := free_run_unique
        (P := fun x => ¬ Fits s3.mem (roundup 50 MIN_BLOCK_SIZE) x) [] k1 (S :: [S + 152])
        (g :: k2) hk (by simp) hk1
        (fun x hx => by
          simp only [List.head?_cons, Option.some.injEq] at hx
          subst hx
          exact not_not.2 hfitS)
        (fun x hx => by
          simp only [List.head?_cons, Option.some.injEq] at hx
          subst hx
          exact not_not.2 hg)
      rw [(List.cons.inj e2).1]
      exact hfs
    · exact absurd hfitS (hall S (by simp))
  obtain ⟨hm4, hwf4, hso4⟩ := malloc_reuse_wf hwf3 fuel env3 50 (by decide)
    (by rw [hr50]; decide) hfs4 (by rw [hr50, hS3]; decide)
  obtain ⟨-, ha2, ha3⟩ := alloc_state_mem s3 s3.mem s3.heap_end S 50 (by omega)
  refine ⟨s1, s2, s3, _, hm1, hm2, hfr, ⟨by simpa using hwf3, hA3, hS3, hB3⟩, hm4,
    by simpa using hwf4, ha2, ?_, ?_, ?_, ?_⟩
  · rw [hso4.read32 S (by omega) (Or.inl (by omega))]
    exact hS3
  · rw [ha3]
    decide
  · rw [hso4.read32 _ (by omega) (Or.inr (by omega))]
    exact hB3
  · show s3.heap_end = S + 208
    rw [hs3e, he2]
    omega

/-- C15, as stated, fails at its last step: from the empty heap at `0x8000`, after
`a = malloc(100)`, `b = malloc(8)`, `free(a)`, the call `c = malloc(50)` returns
`c = a = 0x8030`, but the record at `0x8000` keeps `payload_size = 104` instead
of `56`, and the only tiling of the heap is `[0x8000, 0x8098]`: the record of `b`
follows directly, there is no remainder record. -/
theorem scenario_b_no_split :
    ∃ s1 s2 s3 s4,
      malloc 3 example_env (empty_heap (fun _ => 0) 0x8000) 100 = some (0x8030, s1) ∧
      malloc 3 example_env s1 8 = some (0x80c8, s2) ∧
      free 3 s2 0x8030 = some s3 ∧
      malloc 3 example_env s3 50 = some (0x8030, s4) ∧
      read32 s4.mem 0x8000 = 104 ∧ read32 s4.mem 0x8000 ≠ roundup 50 MIN_BLOCK_SIZE ∧
      ∀ recs, WellFormedWith s4 recs → recs = [0x8000, 0x8098] := by
  obtain ⟨s1, s2, s3, s4, h1, h2, h3, -, h4, hwf4, -, hsz, -⟩ :=
    scenario_b_steps (fun _ => 0) 0x8000 (by decide) (by decide) 3 (by decide)
      example_env example_env example_env (by decide) (by decide)
  refine ⟨s1, s2, s3, s4, h1, h2, h3, h4, hsz, ?_, fun recs hr => ?_⟩
  · rw [hsz]
    decide
  · exact Tiles.unique hr.2.2 hwf4.2.2

/-- C15 (amended). From the empty heap at any non-null address `S`, over any memory,
when the stack leaves room for both blocks: `a = malloc(100)` returns
`S + HEADER_SIZE`, `b = malloc(8)` returns the payload of the record at `S + 152`,
and after `free(a)` the record at `S` is free with `payload_size = 104 ≥ 100` and
is followed by the used record of `b`. Then `c = malloc(50)` returns `c = a`; as
`104 < 56 + HEADER_SIZE + MIN_BLOCK_SIZE` the record is not split: it becomes
used with `data_size = 50`, keeps `payload_size = 104`, and the heap still
consists of this record and the record of `b`, without growth. -/
theorem scenario_b (m : Mem) (S : Nat) (h0 : 0 < S) (hw : S + 208 < WORD)
    (fuel : Nat) (hfuel : 3 ≤ fuel) (env1 env2 env3 : Env)
    (hsp1 : S + 152 ≤ (env1.sp + WORD - 0x1000000) % WORD)
    (hsp2 : S + 208 ≤ (env2.sp + WORD - 0x1000000) % WORD) :
    ∃ s1 s2 s3 s4,
      malloc fuel env1 (empty_heap m S) 100 = some (S + HEADER_SIZE, s1) ∧
      malloc fuel env2 s1 8 = some (S + 152 + HEADER_SIZE, s2) ∧
      free fuel s2 (S + HEADER_SIZE) = some s3 ∧
      (WellFormedWith s3 [S, S + 152] ∧ read32 s3.mem (S + OFF_STATUS) = FREE ∧
        read32 s3.mem S = 104 ∧ read32 s3.mem (S + 152 + OFF_STATUS) = USED) ∧
      malloc fuel env3 s3 50 = some (S + HEADER_SIZE, s4) ∧
      (WellFormedWith s4 [S, S + 152] ∧ read32 s4.mem (S + OFF_STATUS) = USED ∧
        read32 s4.mem S = 104 ∧ read32 s4.mem (S + OFF_DATA_SIZE) = 50 ∧
        read32 s4.mem (S + 152 + OFF_STATUS) = USED ∧ s4.heap_end = S + 208) :=
  scenario_b_steps m S h0 hw fuel hfuel env1 env2 env3 hsp1 hsp2

/-- C15 (amended) at `S = 0x8000` over zeroed memory. -/
theorem scenario_b_witness :
    ∃ s1 s2 s3 s4,
      malloc 3 example_env (empty_heap (fun _ => 0) 0x8000) 100 = some (0x8000 + HEADER_SIZE, s1) ∧
      malloc 3 example_env s1 8 = some (0x8000 + 152 + HEADER_SIZE, s2) ∧
      free 3 s2 (0x8000 + HEADER_SIZE) = some s3 ∧
      (WellFormedWith s3 [0x8000, 0x8000 + 152] ∧ read32 s3.mem (0x8000 + OFF_STATUS) = FREE ∧
        read32 s3.mem 0x8000 = 104 ∧ read32 s3.mem (0x8000 + 152 + OFF_STATUS) = USED) ∧
      malloc 3 example_env s3 50 = some (0x8000 + HEADER_SIZE, s4) ∧
      (WellFormedWith s4 [0x8000, 0x8000 + 152] ∧ read32 s4.mem (0x8000 + OFF_STATUS) = USED ∧
        read32 s4.mem 0x8000 = 104 ∧ read32 s4.mem (0x8000 + OFF_DATA_SIZE) = 50 ∧
        read32 s4.mem (0x8000 + 152 + OFF_STATUS) = USED ∧ s4.heap_end = 0x8000 + 208) :=
  scenario_b (fun _ => 0) 0x8000 (by decide) (by decide) 3 (by decide)
    example_env example_env example_env (by decide) (by decide)

/-! ## `sbrk` and the end of the heap -/

theorem sbrk_cases (sp : Nat) (s : State) (k : Int) :
    ((sp + WORD - 0x1000000) % WORD < (((s.heap_end : Int) + k) % (WORD : Int)).toNat →
      sbrk sp s k = (NULL, s)) ∧
    (¬ (sp + WORD - 0x1000000) % WORD < (((s.heap_end : Int) + k) % (WORD : Int)).toNat →
      sbrk sp s k
        = (s.heap_end, { s with heap_end := (((s.heap_end : Int) + k) % (WORD : Int)).toNat })) := by
  constructor
  · intro h
    simp only [sbrk, gt_iff_lt, if_pos h]
  · intro h
    simp only [sbrk, gt_iff_lt, if_neg h]

theorem sbrk_machine_values (sp : Nat) (s : State) (k : Int) (hsp : 0x1000000 ≤ sp)
    (hsp2 : sp < WORD) (hlo : 0 ≤ (s.heap_end : Int) + k)
    (hhi : (s.heap_end : Int) + k < (WORD : Int)) :
    (((sp + WORD - 0x1000000) % WORD : Nat) : Int) = (sp : Int) - 0x1000000 ∧
      (((((s.heap_end : Int) + k) % (WORD : Int)).toNat : Nat) : Int) = (s.heap_end : Int) + k := by
  unfold WORD at *
  constructor
  · omega
  · push_cast at hhi ⊢
    omega

theorem free_heap_end (fuel : Nat) (s : State) (p : Nat) (s1 : State)
    (h : free fuel s p = some s1) : s1.heap_end = s.heap_end := by
  unfold free at h
  split at h
  · rw [← Option.some.inj h]
  · dsimp only at h
    split at h
    · exact absurd h (by simp)
    · rw [← Option.some.inj h]

/-- C16. `sbrk(k)` called with stack pointer `sp`, in the 32-bit arithmetic of the
machine: when `heap_end + k` is above the ceiling `sp - 0x1000000` it returns
`NULL` and leaves the state unchanged, otherwise it returns the previous
`heap_end` and sets `heap_end` to `heap_end + k`, changing nothing else;
`heap_start` is never modified. When `sp - 0x1000000` and `heap_end + k` are
32-bit addresses (nothing wraps) the test is the comparison of the integers
`heap_end + k > sp - 0x1000000`. -/
theorem sbrk_fails_exactly_past_ceiling (sp : Nat) (s : State) (k : Int) :
    ((sp + WORD - 0x1000000) % WORD < (((s.heap_end : Int) + k) % (WORD : Int)).toNat →
      sbrk sp s k = (NULL, s)) ∧
    (¬ (sp + WORD - 0x1000000) % WORD < (((s.heap_end : Int) + k) % (WORD : Int)).toNat →
      sbrk sp s k
        = (s.heap_end, { s with heap_end := (((s.heap_end : Int) + k) % (WORD : Int)).toNat })) ∧
    (sbrk sp s k).2.heap_start = s.heap_start ∧
    (0x1000000 ≤ sp → sp < WORD → 0 ≤ (s.heap_end : Int) + k →
      (s.heap_end : Int) + k < (WORD : Int) →
      ((sp : Int) - 0x1000000 < (s.heap_end : Int) + k → sbrk sp s k = (NULL, s)) ∧
      (¬ (sp : Int) - 0x1000000 < (s.heap_end : Int) + k →
        (sbrk sp s k).1 = s.heap_end ∧
        ((sbrk sp s k).2.heap_end : Int) = (s.heap_end : Int) + k)) := by
  obtain ⟨hA, hB⟩ := sbrk_cases sp s k
  refine ⟨hA, hB, ?_, fun hsp hsp2 hlo hhi => ?_⟩
  · by_cases h : (sp + WORD - 0x1000000) % WORD
        < (((s.heap_end : Int) + k) % (WORD : Int)).toNat
    · rw [hA h]
    · rw [hB h]
  · obtain ⟨e1, e2⟩ := sbrk_machine_values sp s k hsp hsp2 hlo hhi
    constructor
    · intro h
      exact hA (by omega)
    · intro h
      rw [hB (by omega)]
      exact ⟨rfl, e2⟩

/-- C16 at `heap_end = 0x8000`, `sp = 0x8000000`: `sbrk(64)` succeeds. -/
theorem sbrk_fails_exactly_past_ceiling_witness :
    (sbrk 0x8000000 (empty_heap (fun _ => 0) 0x8000) 64).1 = 0x8000 ∧
      ((sbrk 0x8000000 (empty_heap (fun _ => 0) 0x8000) 64).2.heap_end : Int) = 0x8000 + 64 :=
  ((sbrk_fails_exactly_past_ceiling 0x8000000 (empty_heap (fun _ => 0) 0x8000) 64).2.2.2
    (by decide) (by decide) (by decide) (by decide)).2 (by decide)

set_option maxHeartbeats 4000000 in
/-- C17, as stated, fails for a negative argument: `sbrk(-8)` at `heap_end = 0x8000`
succeeds and lowers `heap_end` to `0x7ff8`. It also fails for `malloc`:
`malloc(4294967240)` on the empty heap at `0x8000` passes the wrapped size
`2^32 - 8`, that is `-8`, to `sbrk`, returns `0x8030` and leaves `heap_end =
0x7ff8`. -/
theorem sbrk_negative_lowers_heap_end :
    (sbrk 0x8000000 (empty_heap (fun _ => 0) 0x8000) (-8)
        = (0x8000, { empty_heap (fun _ => 0) 0x8000 with heap_end := 0x7ff8 }) ∧
      ¬ ((empty_heap (fun _ => 0) 0x8000).heap_end
        ≤ (sbrk 0x8000000 (empty_heap (fun _ => 0) 0x8000) (-8)).2.heap_end)) ∧
    (∃ s1, malloc 1 example_env (empty_heap (fun _ => 0) 0x8000) 4294967240
        = some (0x8030, s1) ∧
      s1.heap_end = 0x7ff8 ∧ ¬ ((empty_heap (fun _ => 0) 0x8000).heap_end ≤ s1.heap_end)) := by
  refine ⟨⟨rfl, by decide⟩, ?_⟩
  have h : ∃ r, malloc 1 example_env (empty_heap (fun _ => 0) 0x8000) 4294967240 = some r :=
    Option.isSome_iff_exists.1 (by decide!)
  obtain ⟨⟨p, s1⟩, hs⟩ := h
  have hv : (malloc 1 example_env (empty_heap (fun _ => 0) 0x8000) 4294967240).map
      (fun r => (r.1, r.2.heap_end)) = some (0x8030, 0x7ff8) := by decide!
  rw [hs] at hv
  simp only [Option.map_some', Option.some.injEq, Prod.mk.injEq] at hv
  obtain ⟨hp, he⟩ := hv
  subst hp
  refine ⟨s1, hs, he, ?_⟩
  rw [he]
  decide

/-- C17 (amended). `heap_end` does not decrease: in `sbrk(k)` when `k ≥ 0` and
`heap_end + k` is a 32-bit address; in `malloc(n)` on a well-formed heap with
`num_allocs < LEDGER_LEN` when the size arithmetic does not wrap (the call
returns); in `free(p)`, which never changes `heap_end`. A call `sbrk(k)` with
`k < 0`, on a 32-bit `heap_end` with `heap_end + k ≥ 0`, that passes the ceiling
test (`heap_end + k` is not above `sp - 0x1000000`) returns the old `heap_end` and
lowers `heap_end` by `|k|`: the new value is `heap_end + k`, below the old one. -/
theorem heap_end_monotone :
    (∀ (sp : Nat) (s : State) (k : Int), 0 ≤ k → (s.heap_end : Int) + k < (WORD : Int) →
      s.heap_end ≤ (sbrk sp s k).2.heap_end) ∧
    (∀ (s : State) (recs : List Nat) (fuel : Nat) (env : Env) (n : Nat),
      WellFormedWith s recs → recs.length < fuel → NoWrap s n →
      s.num_allocs < LEDGER_LEN →
      ∃ p s1, malloc fuel env s n = some (p, s1) ∧ s.heap_end ≤ s1.heap_end) ∧
    (∀ (fuel : Nat) (s : State) (p : Nat) (s1 : State),
      free fuel s p = some s1 → s1.heap_end = s.heap_end) ∧
    (∀ (sp : Nat) (s : State) (k : Int), k < 0 → s.heap_end < WORD →
      0 ≤ (s.heap_end : Int) + k →
      (s.heap_end : Int) + k ≤ (((sp + WORD - 0x1000000) % WORD : Nat) : Int) →
      (sbrk sp s k).1 = s.heap_end ∧
      ((sbrk sp s k).2.heap_end : Int) = (s.heap_end : Int) + k ∧
      (sbrk sp s k).2.heap_end < s.heap_end) := by
  refine ⟨fun sp s k hk hhi => ?_, fun s recs fuel env n hwf hf hnw _ => ?_, free_heap_end,
    fun sp s k hk hw hlo hceil => ?_⟩
  · obtain ⟨hA, hB⟩ := sbrk_cases sp s k
    by_cases h : (sp + WORD - 0x1000000) % WORD
        < (((s.heap_end : Int) + k) % (WORD : Int)).toNat
    · rw [hA h]
    · rw [hB h]
      show s.heap_end ≤ (((s.heap_end : Int) + k) % (WORD : Int)).toNat
      unfold WORD at *
      push_cast at hhi ⊢
      omega
  · by_cases hn : n = 0
    · subst hn
      exact ⟨NULL, s, malloc_zero fuel env s, Nat.le_refl _⟩
    · obtain ⟨p, s1, hm, hcase⟩ := malloc_first_wf hwf fuel hf env n hn hnw
      rcases hcase with ⟨-, rfl⟩ | ⟨h, l1, l2, -, -, -, -, hle⟩
      · exact ⟨p, s1, hm, Nat.le_refl _⟩
      · exact ⟨p, s1, hm, hle⟩
  · have hnew : (((s.heap_end : Int) + k) % (WORD : Int)).toNat
        = ((s.heap_end : Int) + k).toNat := by
      rw [Int.emod_eq_of_lt hlo (by unfold WORD at *; push_cast; omega)]
    have hnot : ¬ (sp + WORD - 0x1000000) % WORD
        < (((s.heap_end : Int) + k) % (WORD : Int)).toNat := by
      rw [hnew]
      omega
    rw [(sbrk_cases sp s k).2 hnot]
    refine ⟨rfl, ?_, ?_⟩
    · show (((((s.heap_end : Int) + k) % (WORD : Int)).toNat : Nat) : Int) = _
      rw [hnew]
      omega
    · show (((s.heap_end : Int) + k) % (WORD : Int)).toNat < s.heap_end
      rw [hnew]
      omega

set_option maxHeartbeats 4000000 in
/-- C17 (amended) at `heap_end = 0x8000`: `sbrk(64)`, `malloc(10)`, a `free`, and
`sbrk(-8)`, which leaves `heap_end = 0x7ff8`. -/
theorem heap_end_monotone_witness :
    (0x8000 ≤ (sbrk 0x8000000 (empty_heap (fun _ => 0) 0x8000) 64).2.heap_end) ∧
    (∃ p s1, malloc 1 example_env (empty_heap (fun _ => 0) 0x8000) 10 = some (p, s1) ∧
      0x8000 ≤ s1.heap_end) ∧
    (∃ s1, free 3 example_pair_heap 0x8030 = some s1 ∧ s1.heap_end = 0x8078) ∧
    ((sbrk 0x8000000 (empty_heap (fun _ => 0) 0x8000) (-8)).1 = 0x8000 ∧
      ((sbrk 0x8000000 (empty_heap (fun _ => 0) 0x8000) (-8)).2.heap_end : Int)
        = 0x8000 + (-8) ∧
      (sbrk 0x8000000 (empty_heap (fun _ => 0) 0x8000) (-8)).2.heap_end < 0x8000) := by
  have hsome : (free 3 example_pair_heap 0x8030).isSome := by decide!
  obtain ⟨s1, hfr⟩ := Option.isSome_iff_exists.1 hsome
  exact ⟨heap_end_monotone.1 0x8000000 (empty_heap (fun _ => 0) 0x8000) 64 (by decide)
      (by decide),
    heap_end_monotone.2.1 (empty_heap (fun _ => 0) 0x8000) [] 1 example_env 10 (by decide)
      (by decide) (by decide) (by decide),
    ⟨s1, hfr, heap_end_monotone.2.2.1 3 example_pair_heap 0x8030 s1 hfr⟩,
    heap_end_monotone.2.2.2 0x8000000 (empty_heap (fun _ => 0) 0x8000) (-8) (by decide)
      (by decide) (by decide) (by decide)⟩

/-! ## The leak report -/

theorem leak_sizes_append (a b : List ReportLine) :
    leak_sizes (a ++ b) = leak_sizes a ++ leak_sizes b := by
  induction a with
  | nil => rfl
  | cons x xs ih =>
    cases x <;> simp [leak_sizes, ih]

theorem print_frames_none (f : Nat → frame_t) : print_frames f NUM_FRAMES = [] := rfl

theorem leak_sizes_report_leaks (hu : Nat → header) :
    ∀ (count i : Nat), leak_sizes (report_leaks hu count i)
      = ((List.range' i count).filter fun j => decide ((hu j).status = USED)).map
          fun j => (hu j).data_size
  | 0, _ => rfl
  | count + 1, i => by
    rw [report_leaks, leak_sizes_append, leak_sizes_report_leaks hu count (i + 1),
      List.range'_succ, print_frames_none]
    by_cases h : (hu i).status = 1
    · simp [h, USED, leak_sizes]
    · simp [h, USED, leak_sizes]

theorem leak_sizes_memory_report (s : State) :
    leak_sizes (memory_report s)
      = if s.num_allocs ≠ s.num_frees then used_sizes_spec s else [] := by
  unfold memory_report used_sizes_spec
  by_cases h : s.num_allocs ≠ s.num_frees
  · rw [if_pos h, if_pos h]
    show leak_sizes (report_leaks s.heap_usage s.num_allocs 0) = _
    rw [leak_sizes_report_leaks, List.range_eq_range']
  · rw [if_neg h, if_neg h]
    rfl

/-- C18 (code bug): leak detection after a run. From the empty heap at `0x8000` over
zeroed memory, `a = malloc(16)`, `b = malloc(8)`, `free(a)` leaves `b` live with 2
allocations and 1 free, yet `memory_report` prints no `bytes lost` entry: the
ledger entry of `b` (size 8) has been marked `FREE` by `free(a)`, whose ledger loop
matches entries on header bytes that `malloc` never initialises. -/
theorem leak_report_misses_live_block :
    ∃ c, run 3 ⟨empty_heap (fun _ => 0) 0x8000, []⟩
        [.malloc example_env 16, .malloc example_env 8, .free 0x8030] = some c ∧
      c.live.map (fun l => l.ptr) = [0x8070] ∧ c.live.map (fun l => l.size) = [8] ∧
      c.st.num_allocs = 2 ∧ c.st.num_frees = 1 ∧
      (c.st.heap_usage 1).data_size = 8 ∧ (c.st.heap_usage 1).status = FREE ∧
      leak_sizes (memory_report c.st) = [] := by
  have hv : (run 3 ⟨empty_heap (fun _ => 0) 0x8000, []⟩
      [.malloc example_env 16, .malloc example_env 8, .free 0x8030]).map
      (fun c => (c.live.map (fun l => l.ptr), c.live.map (fun l => l.size), c.st.num_allocs,
        c.st.num_frees))
      = some ([0x8070], [8], 2, 1) := by decide!
  have hw : (run 3 ⟨empty_heap (fun _ => 0) 0x8000, []⟩
      [.malloc example_env 16, .malloc example_env 8, .free 0x8030]).map
      (fun c => ((c.st.heap_usage 1).data_size, (c.st.heap_usage 1).status,
        leak_sizes (memory_report c.st)))
      = some (8, FREE, []) := by decide!
  obtain ⟨c, hc, hv1⟩ := Option.map_eq_some'.1 hv
  rw [hc] at hw
  simp only [Option.map_some', Option.some.injEq, Prod.mk.injEq] at hv1 hw
  exact ⟨c, hc, hv1.1, hv1.2.1, hv1.2.2.1, hv1.2.2.2, hw.1, hw.2.1, hw.2.2⟩

/-- C19, as stated, fails when the counters are equal: with `num_allocs = num_frees
= 1` and a ledger entry of size 10 still `USED`, `memory_report` prints no leak
entry, where the claim asks for one entry of size 10. -/
theorem memory_report_skips_when_counters_equal :
    (example_ledger_state.heap_usage 0).status = USED ∧
      used_sizes_spec example_ledger_state = [10] ∧
      leak_sizes (memory_report example_ledger_state) = [] := by
  decide

/-- C19 (amended). For every state, the `bytes lost` entries printed by
`memory_report` are: when `num_allocs ≠ num_frees`, one entry of size `data_size`
for each ledger entry `i < num_allocs` whose status is `USED`, in ledger order, and
none for the other entries; when `num_allocs = num_frees`, no entry at all. -/
theorem memory_report_lists_used_entries (s : State) :
    leak_sizes (memory_report s)
      = if s.num_allocs ≠ s.num_frees then used_sizes_spec s else [] :=
  leak_sizes_memory_report s

/-! ## The ledger beyond its declared length -/

theorem run_append (fuel : Nat) :
    ∀ (l1 l2 : List Op) (c : Config),
      run fuel c (l1 ++ l2) = (run fuel c l1).bind fun c1 => run fuel c1 l2
  | [], _, _ => rfl
  | op :: l1, l2, c => by
    show run fuel c (op :: (l1 ++ l2)) = _
    rw [run, run]
    cases exec fuel c op with
    | none => rfl
    | some c1 => exact run_append fuel l1 l2 c1

/-- The state after `k` calls `malloc(1)` from the empty heap at `S`, when
the stack leaves room for `k` blocks of `8 + HEADER_SIZE` bytes: all calls succeed,
the heap holds `k` used records and the ledger entries `0 .. k - 1` are written. -/
theorem run_mallocs (m : Mem) (S : Nat) (h0 : 0 < S) (env : Env) (fuel : Nat)
    (hfuel : WORD ≤ HEADER_SIZE * fuel) :
    ∀ k : Nat, S + 56 * k ≤ (env.sp + WORD - 0x1000000) % WORD → S + 56 * k + 64 < WORD →
      ∃ c recs, run fuel ⟨empty_heap m S, []⟩ (List.replicate k (Op.malloc env 1)) = some c ∧
        WellFormedWith c.st recs ∧
        (∀ x ∈ recs, read32 c.st.mem (x + OFF_STATUS) = USED) ∧
        c.st.heap_end = S + 56 * k ∧ c.st.num_allocs = k ∧
        ∀ i, i < k → (c.st.heap_usage i).status = USED
  | 0, _, hw => by
    refine ⟨⟨empty_heap m S, []⟩, [], rfl, ⟨h0, ?_, rfl⟩, by simp, rfl, rfl, fun i hi => ?_⟩
    · show S < WORD
      omega
    · omega
  | k + 1, hsp, hw => by
    have hC : HEADER_SIZE = 48 := rfl
    have hR : RED_ZONE_LEN = 0 := rfl
    have hM : MIN_BLOCK_SIZE = 8 := rfl
    have hO : OFF_STATUS = 4 := rfl
    have hW : WORD = 4294967296 := rfl
    have hr1 : roundup 1 MIN_BLOCK_SIZE = 8 := by decide
    obtain ⟨c, recs, hrun, hwf, hused, hend, hnum, hled⟩ :=
      run_mallocs m S h0 env fuel hfuel k (by omega) (by omega)
    have hnofit : ∀ x ∈ recs, ¬ Fits c.st.mem (roundup 1 MIN_BLOCK_SIZE) x := by
      intro x hx hfit
      have := hfit.1
      rw [hused x hx] at this
      exact absurd this (by decide)
    obtain ⟨s1, hm, hwf1, he1, -, -, hst1, -, hso1, hn1, -, hu1, hu2⟩ :=
      malloc_grow_step hwf fuel (hwf.length_lt hfuel) env 1 (by decide)
        ⟨by decide, by rw [hr1]; decide, by rw [hr1, hend]; omega⟩ hnofit
        (by rw [hr1, hend]; omega)
    have hp : c.st.heap_end + HEADER_SIZE ≠ NULL := by
      show c.st.heap_end + HEADER_SIZE ≠ 0
      omega
    refine ⟨⟨s1, ⟨c.st.heap_end + HEADER_SIZE, 1, c.st.num_allocs⟩ :: c.live⟩,
      recs ++ [c.st.heap_end], ?_, hwf1, ?_, ?_, ?_, ?_⟩
    · rw [List.replicate_succ', run_append, hrun]
      simp [run, exec, hm, hp]
    · intro x hx
      rcases List.mem_append.1 hx with hx | hx
      · have hb := hwf.2.2.mem_bounds x hx
        have hbx := block_len_ge c.st.mem x
        have he := hwf.2.1
        show read32 s1.mem (x + OFF_STATUS) = USED
        rw [hso1.read32 _ (by omega) (Or.inl (by omega))]
        exact hused x hx
      · simp only [List.mem_singleton] at hx
        subst hx
        exact hst1
    · show s1.heap_end = S + 56 * (k + 1)
      rw [he1, hr1, hend]
      omega
    · show s1.num_allocs = k + 1
      rw [hn1, hnum]
    · intro i hi
      show (s1.heap_usage i).status = USED
      by_cases hik : i = c.st.num_allocs
      · rw [hik, hu1]
        exact hst1
      · rw [hu2 i hik]
        exact hled i (by omega)

/-- C20 (code bug): 5001 calls `malloc(1)` from the empty heap at `0x8000`. All of
them succeed; afterwards `num_allocs = 5001`, above the declared length 5000 of
`heap_usage`, and the entry at index 5000, which was zero at the start, holds the
`USED` header copied by the last call: `malloc` stored past the end of the array. -/
theorem ledger_written_past_its_end :
    ((empty_heap (fun _ => 0) 0x8000).heap_usage LEDGER_LEN).status = FREE ∧
    ∃ c, run 89478486 ⟨empty_heap (fun _ => 0) 0x8000, []⟩
        (List.replicate 5001 (Op.malloc example_env 1)) = some c ∧
      c.st.num_allocs = 5001 ∧ LEDGER_LEN < c.st.num_allocs ∧
      (c.st.heap_usage LEDGER_LEN).status = USED := by
  refine ⟨rfl, ?_⟩
  obtain ⟨c, recs, hrun, -, -, -, hnum, hled⟩ :=
    run_mallocs (fun _ => 0) 0x8000 (by decide) example_env 89478486 (by decide) 5001
      (by decide) (by decide)
  refine ⟨c, hrun, hnum, ?_, hled LEDGER_LEN (by decide)⟩
  rw [hnum]
  decide

/-! ## Rounding -/

/-- C28. For every request size `n` with `0 < n ≤ 2^32 - 8`, the size
`roundup(n, MIN_BLOCK_SIZE)` used by `malloc` is a multiple of 8 with
`n ≤ roundup(n, 8) < n + 8`, it is the smallest multiple of 8 that is `≥ n`, and
rounding it again gives the same value (the same holds for `n = 0`). -/
theorem roundup_smallest_multiple (n : Nat) (hn : n ≤ WORD - 8) :
    n ≤ roundup n MIN_BLOCK_SIZE ∧ roundup n MIN_BLOCK_SIZE < n + 8 ∧
      roundup n MIN_BLOCK_SIZE % 8 = 0 ∧
      (∀ k, n ≤ k → k % 8 = 0 → roundup n MIN_BLOCK_SIZE ≤ k) ∧
      roundup (roundup n MIN_BLOCK_SIZE) MIN_BLOCK_SIZE = roundup n MIN_BLOCK_SIZE := by
  have hW : WORD = 4294967296 := rfl
  have e := roundup_eq n (by omega)
  have e2 := roundup_eq (roundup n MIN_BLOCK_SIZE) (by rw [e]; omega)
  rw [e2, e]
  refine ⟨by omega, by omega, by omega, fun k hk hk8 => by omega, by omega⟩

/-- C28 at `n = 13`: the rounded size is 16. -/
theorem roundup_smallest_multiple_witness :
    13 ≤ roundup 13 MIN_BLOCK_SIZE ∧ roundup 13 MIN_BLOCK_SIZE < 13 + 8 ∧
      roundup 13 MIN_BLOCK_SIZE % 8 = 0 ∧
      (∀ k, 13 ≤ k → k % 8 = 0 → roundup 13 MIN_BLOCK_SIZE ≤ k) ∧
      roundup (roundup 13 MIN_BLOCK_SIZE) MIN_BLOCK_SIZE = roundup 13 MIN_BLOCK_SIZE :=
  roundup_smallest_multiple 13 (by decide)

/-! ## Guard zones -/

theorem read8_mod_add (m : Mem) (a i : Nat) : read8 m (a % WORD + i) = read8 m (a + i) := by
  unfold read8
  rw [Nat.mod_add_mod]

theorem free_reports (fuel : Nat) (s : State) (p : Nat) (s1 : State)
    (h : free fuel s p = some s1) :
    s1.reports =
      if p ≠ NULL ∧ check_redzones s.mem ((p + 2 * WORD - HEADER_SIZE - RED_ZONE_LEN) % WORD)
      then ((((p + 2 * WORD - HEADER_SIZE - RED_ZONE_LEN) % WORD + HEADER_SIZE) % WORD
        + RED_ZONE_LEN) % WORD) :: s.reports
      else s.reports := by
  unfold free at h
  split at h
  · next hp =>
    rw [← Option.some.inj h]
    simp [hp]
  · next hp =>
    dsimp only at h
    split at h
    · exact absurd h (by simp)
    · rw [← Option.some.inj h]
      simp [hp]

/-- C30. With the constants of the source (`RED_ZONE_LEN = 0`): the check of the
guard zones reports nothing, whatever the memory holds; a `free` that returns
leaves the list of reports unchanged; `initialise_redzones` leaves the memory
unchanged. -/
theorem redzone_check_never_fires :
    RED_ZONE_LEN = 0 ∧
    (∀ (m : Mem) (head : Nat), check_redzones m head = false) ∧
    (∀ (fuel : Nat) (s : State) (p : Nat) (s1 : State), free fuel s p = some s1 →
      s1.reports = s.reports) ∧
    (∀ (m : Mem) (head : Nat), initialise_redzones m head = m) := by
  refine ⟨rfl, fun m head => rfl, fun fuel s p s1 hfr => ?_, fun m head => rfl⟩
  rw [free_reports fuel s p s1 hfr]
  have hc : check_redzones s.mem ((p + 2 * WORD - HEADER_SIZE - RED_ZONE_LEN) % WORD) = false :=
    rfl
  simp [hc]

set_option maxHeartbeats 4000000 in
/-- C30 on an example: a block whose bytes after the payload were overwritten is
freed without a report. -/
theorem redzone_check_never_fires_witness :
    ∃ s1, free 3 { example_pair_heap with mem := write8 example_pair_heap.mem 0x8040 0xff }
        0x8030 = some s1 ∧
      s1.reports = [] := by
  have hsome : (free 3 { example_pair_heap with mem := write8 example_pair_heap.mem 0x8040 0xff }
      0x8030).isSome := by decide!
  obtain ⟨s1, hfr⟩ := Option.isSome_iff_exists.1 hsome
  exact ⟨s1, hfr, redzone_check_never_fires.2.2.1 3 _ 0x8030 s1 hfr⟩

/-! ## Names of functions -/

/-- C23. The function `name_of(fn_start)` reads the word stored at `fn_start - 4`.
When its most significant byte is not `0xff` the result is the placeholder
`"???"`; when it is `0xff` the result is the address computed from the length
field. So, whenever the placeholder literal is not stored at that computed
address, the result is the placeholder exactly when the most significant byte is
not `0xff`. -/
theorem name_of_placeholder (unnamed : Nat) (m : Mem) (fn_start : Nat) :
    (read32 m ((fn_start + WORD - 4) % WORD) / 16777216 ≠ 0xff →
      name_of unnamed m fn_start = unnamed) ∧
    (read32 m ((fn_start + WORD - 4) % WORD) / 16777216 = 0xff →
      name_of unnamed m fn_start
        = ((fn_start + WORD - 4) % WORD + WORD
            - 4 * ((read32 m ((fn_start + WORD - 4) % WORD) - MSB_FOR_NAMES) / 4)) % WORD) ∧
    (unnamed ≠ ((fn_start + WORD - 4) % WORD + WORD
            - 4 * ((read32 m ((fn_start + WORD - 4) % WORD) - MSB_FOR_NAMES) / 4)) % WORD →
      (name_of unnamed m fn_start = unnamed ↔
        read32 m ((fn_start + WORD - 4) % WORD) / 16777216 ≠ 0xff)) := by
  have hlt := read32_lt m ((fn_start + WORD - 4) % WORD)
  have hW : WORD = 4294967296 := rfl
  have hM : MSB_FOR_NAMES = 4278190080 := rfl
  have hA : read32 m ((fn_start + WORD - 4) % WORD) / 16777216 ≠ 0xff →
      name_of unnamed m fn_start = unnamed := by
    intro h
    unfold name_of
    dsimp only
    rw [if_pos (by omega)]
  have hB : read32 m ((fn_start + WORD - 4) % WORD) / 16777216 = 0xff →
      name_of unnamed m fn_start
        = ((fn_start + WORD - 4) % WORD + WORD
            - 4 * ((read32 m ((fn_start + WORD - 4) % WORD) - MSB_FOR_NAMES) / 4)) % WORD := by
    intro h
    unfold name_of
    dsimp only
    rw [if_neg (by omega)]
  refine ⟨hA, hB, fun hne => ⟨fun he hmsb => ?_, hA⟩⟩
  rw [hB hmsb] at he
  exact hne he.symm

/-- C23 on the example stack: the function at `0x8200` has no name word. -/
theorem name_of_placeholder_witness :
    name_of 0x100 example_stack 0x8200 = 0x100 :=
  (name_of_placeholder 0x100 example_stack 0x8200).1 (by decide)

theorem land_mask4 (x : Nat) (hx : x < 4294967296) : x &&& 4294967292 = x / 4 * 4 := by
  have h1 : (x &&& 4294967292) / 4 = x / 4 := by
    have e : ∀ y : Nat, y / 4 = y / 2 / 2 := fun y => by omega
    rw [e, Nat.and_div_two, Nat.and_div_two, ← e]
    have h := Nat.and_pow_two_sub_one_eq_mod (x / 4) 30
    norm_num at h
    rw [h]
    omega
  have h2 : (x &&& 4294967292) % 4 = 0 := by
    have h := Nat.and_pow_two_sub_one_eq_mod (x &&& 4294967292) 2
    have h0 : 4294967292 &&& 3 = 0 := by decide
    rw [Nat.and_assoc] at h
    norm_num [h0] at h
    omega
  omega

theorem roundup_four (n : Nat) (hn : n + 3 < WORD) : roundup n 4 = (n + 3) / 4 * 4 := by
  unfold WORD at hn
  have h : roundup n 4 = (n + 3) &&& 4294967292 := by
    simp only [roundup, WORD]
    norm_num
    rw [Nat.mod_eq_of_lt hn]
  rw [h, land_mask4 _ hn]

/-- C24, as stated, fails for a length that is not a multiple of 4: with the word
`0xff000005` before a function at `0x8100`, `name_of` returns `0x8100 - 4 - 4`, not
`0x8100 - 4 - roundup(5, 4) = 0x8100 - 4 - 8`. -/
theorem name_of_rounds_length_down :
    read32 (write32 (fun _ => 0) (0x8100 - 4) 0xff000005) (0x8100 - 4) = 0xff000000 + 5 ∧
    name_of 0x100 (write32 (fun _ => 0) (0x8100 - 4) 0xff000005) 0x8100 = 0x8100 - 4 - 4 ∧
    roundup 5 4 = 8 ∧
    name_of 0x100 (write32 (fun _ => 0) (0x8100 - 4) 0xff000005) 0x8100
      ≠ 0x8100 - 4 - roundup 5 4 := by
  decide

/-- C24 (amended). For every `fn_start` whose preceding word is `0xff000000 + L` with
`L < 2^24`, `name_of` returns `fn_start - 4 - 4 * (L / 4)`: it walks back from the
marker word by `L / 4` whole words, the length rounded down. That is
`fn_start - 4 - roundup(L, 4)` exactly when `L` is a multiple of 4. -/
theorem name_of_walks_back_whole_words (unnamed : Nat) (m : Mem) (fn_start L : Nat)
    (hL : L < 16777216) (hw : read32 m ((fn_start + WORD - 4) % WORD) = 0xff000000 + L) :
    name_of unnamed m fn_start = (fn_start + 2 * WORD - 4 - 4 * (L / 4)) % WORD ∧
    (L % 4 = 0 →
      name_of unnamed m fn_start = (fn_start + 2 * WORD - 4 - roundup L 4) % WORD) ∧
    (L % 4 ≠ 0 →
      name_of unnamed m fn_start ≠ (fn_start + 2 * WORD - 4 - roundup L 4) % WORD) := by
  have hW : WORD = 4294967296 := rfl
  have hM : MSB_FOR_NAMES = 4278190080 := rfl
  have hr := roundup_four L (by omega)
  have e : name_of unnamed m fn_start = (fn_start + 2 * WORD - 4 - 4 * (L / 4)) % WORD := by
    unfold name_of
    dsimp only
    rw [hw, if_neg (by omega), hM, hW]
    have : (4278190080 + L - 4278190080) = L := by omega
    rw [this]
    omega
  rw [e, hr, hW]
  refine ⟨rfl, fun h => ?_, fun h => ?_⟩
  · congr 1
    omega
  · omega

/-- C24 (amended) on the example stack: the name of the function at `0x8100`, whose
name word holds the length 8, starts at `0x80f4`. -/
theorem name_of_walks_back_whole_words_witness :
    name_of 0x100 example_stack 0x8100 = (0x8100 + 2 * WORD - 4 - 4 * (8 / 4)) % WORD :=
  (name_of_walks_back_whole_words 0x100 example_stack 0x8100 8 (by decide) (by decide)).1

/-! ## The ledger is append-only -/

theorem free_ledger (fuel : Nat) (s : State) (p : Nat) (s1 : State)
    (h : free fuel s p = some s1) :
    s1.num_allocs = s.num_allocs ∧ s1.total_bytes = s.total_bytes ∧
      ∀ i, s1.heap_usage i = s.heap_usage i ∨
        s1.heap_usage i = { s.heap_usage i with status := FREE } := by
  unfold free at h
  split at h
  · rw [← Option.some.inj h]
    exact ⟨rfl, rfl, fun i => Or.inl rfl⟩
  · dsimp only at h
    split at h
    · exact absurd h (by simp)
    · rw [← Option.some.inj h]
      refine ⟨rfl, rfl, fun i => ?_⟩
      dsimp only
      rw [mark_ledger_eq]
      split
      · exact Or.inr rfl
      · exact Or.inl rfl

/-- C21. The ledger is append-only. On a well-formed heap with `num_allocs <
LEDGER_LEN` (the entry `heap_usage[num_allocs]` is an element of the array), a
`malloc(n)` with `n > 0` whose size arithmetic does not wrap returns. It fails
(returns null) exactly when no free record fits and `sbrk` refuses the growth, and
then the ledger, `num_allocs` and `total_bytes` are unchanged. In every other case
it succeeds: `num_allocs` has grown by exactly 1 (and is at most `LEDGER_LEN`), the
entry at the old index is a copy of the header of the allocated record (its
status is `USED`, its `data_size` is `n`), every other entry is unchanged and
`total_bytes` has grown by `n` (in 32-bit arithmetic). A `free` that returns leaves
`num_allocs` and `total_bytes` unchanged, and every entry is either unchanged or
differs only by its status, now `FREE`; so a status that was `USED` or `FREE`
changes only from `USED` to `FREE`. -/
theorem ledger_append_only :
    (∀ (s : State) (recs : List Nat) (fuel : Nat) (env : Env) (n : Nat),
      WellFormedWith s recs → recs.length < fuel → NoWrap s n → 0 < n →
      s.num_allocs < LEDGER_LEN →
      ∃ p s1, malloc fuel env s n = some (p, s1) ∧
        (p = NULL ↔
          (∀ x ∈ recs, ¬ Fits s.mem (roundup n MIN_BLOCK_SIZE) x) ∧
            (env.sp + WORD - 0x1000000) % WORD
              < s.heap_end + (roundup n MIN_BLOCK_SIZE + HEADER_SIZE + 2 * RED_ZONE_LEN)) ∧
        (p ≠ NULL →
          s1.num_allocs = s.num_allocs + 1 ∧ s1.num_allocs ≤ LEDGER_LEN ∧
          s1.heap_usage s.num_allocs = read_header s1.mem (p - HEADER_SIZE) ∧
          (s1.heap_usage s.num_allocs).status = USED ∧
          (s1.heap_usage s.num_allocs).data_size = n ∧
          (∀ i, i ≠ s.num_allocs → s1.heap_usage i = s.heap_usage i) ∧
          s1.total_bytes = (s.total_bytes + n) % WORD) ∧
        (p = NULL →
          s1.heap_usage = s.heap_usage ∧ s1.num_allocs = s.num_allocs ∧
          s1.total_bytes = s.total_bytes)) ∧
    (∀ (fuel : Nat) (s : State) (p : Nat) (s1 : State), free fuel s p = some s1 →
      s1.num_allocs = s.num_allocs ∧ s1.total_bytes = s.total_bytes ∧
      (∀ i, s1.heap_usage i = s.heap_usage i ∨
        s1.heap_usage i = { s.heap_usage i with status := FREE }) ∧
      (∀ i, (s.heap_usage i).status = USED ∨ (s.heap_usage i).status = FREE →
        (s1.heap_usage i).status ≠ (s.heap_usage i).status →
        (s.heap_usage i).status = USED ∧ (s1.heap_usage i).status = FREE)) := by
  constructor
  · intro s recs fuel env n hwf hf hnw hn0 hled
    have hn : n ≠ 0 := by omega
    have hC : HEADER_SIZE = 48 := rfl
    have hR : RED_ZONE_LEN = 0 := rfl
    have hN : NULL = 0 := rfl
    obtain ⟨p, s1, hm, hcase⟩ := malloc_wf hwf fuel hf env n hn hnw
    refine ⟨p, s1, hm, ?_, ?_⟩
    · rcases find_space_spec hwf (roundup n MIN_BLOCK_SIZE) fuel hf with
        ⟨l1, h, l2, hrecs, -, hfit, hfs⟩ | ⟨hall, hfs⟩
      · subst hrecs
        obtain ⟨s2, hm2, -⟩ := malloc_fit_wf hwf fuel env n hn hnw.2.1 hfs
        rw [hm] at hm2
        have hp : p = h + HEADER_SIZE := (Prod.mk.inj (Option.some.inj hm2)).1
        have hh0 := hwf.2.2.mem_bounds h (by simp)
        have hs0 := hwf.1
        constructor
        · intro hp0
          omega
        · intro hr
          exact absurd hfit (hr.1 h (by simp))
      · by_cases hok : (env.sp + WORD - 0x1000000) % WORD
            < s.heap_end + (roundup n MIN_BLOCK_SIZE + HEADER_SIZE)
        · have hs := sbrk_eq env.sp s (roundup n MIN_BLOCK_SIZE + HEADER_SIZE)
            (by have := hnw.2.2; omega) (by have := hnw.2.2; omega)
          rw [if_pos hok] at hs
          have hk : roundup n MIN_BLOCK_SIZE + HEADER_SIZE + 2 * RED_ZONE_LEN
              = roundup n MIN_BLOCK_SIZE + HEADER_SIZE := rfl
          have hm2 := malloc_grow_fail fuel env s n hn hfs (by rw [hk, hs])
          rw [hm] at hm2
          have hp : p = NULL := (Prod.mk.inj (Option.some.inj hm2)).1
          exact ⟨fun _ => ⟨hall, hok⟩, fun _ => hp⟩
        · obtain ⟨hm2, -⟩ := malloc_grow_wf hwf fuel env n hn hnw hfs hok
          rw [hm] at hm2
          have hp : p = s.heap_end + HEADER_SIZE := (Prod.mk.inj (Option.some.inj hm2)).1
          constructor
          · intro hp0
            omega
          · intro hr
            exact absurd hr.2 hok
    · rcases hcase with ⟨hp, rfl⟩ | ⟨h, recs1, lo, hi, m, e, hp, hs1, -, -, hst, hds, -, -, -⟩
      · exact ⟨fun h => absurd hp h, fun _ => ⟨rfl, rfl, rfl⟩⟩
      · refine ⟨fun _ => ?_, fun h0 => ?_⟩
        · have hph : p - HEADER_SIZE = h := by omega
          have hentry : s1.heap_usage s.num_allocs = read_header s1.mem h := by
            rw [hs1]
            simp [alloc_state]
          have hnum : s1.num_allocs = s.num_allocs + 1 := by rw [hs1]; rfl
          rw [hph, hentry]
          refine ⟨hnum, by omega, rfl, hst, hds, fun i hi => ?_, by rw [hs1]; rfl⟩
          rw [hs1]
          simp [alloc_state, hi]
        · omega
  · intro fuel s p s1 hfr
    obtain ⟨h1, h2, h3⟩ := free_ledger fuel s p s1 hfr
    refine ⟨h1, h2, h3, fun i hold hne => ?_⟩
    rcases h3 i with e | e
    · rw [e] at hne
      exact absurd rfl hne
    · rw [e] at hne ⊢
      rcases hold with ho | ho
      · exact ⟨ho, rfl⟩
      · exact absurd ho.symm hne

set_option maxHeartbeats 4000000 in
/-- C21 on examples: `malloc(10)` on the empty heap at `0x8000` succeeds, with
`num_allocs = 1` and the entry `heap_usage[0]` holding `status = USED` and
`data_size = 10`; `free` of the first block of the heap of two used records keeps
`num_allocs`. -/
theorem ledger_append_only_witness :
    (∃ p s1, malloc 1 example_env (empty_heap (fun _ => 0) 0x8000) 10 = some (p, s1) ∧
      p ≠ NULL ∧ s1.num_allocs = 0 + 1 ∧ (s1.heap_usage 0).status = USED ∧
      (s1.heap_usage 0).data_size = 10 ∧
      (∀ i, i ≠ 0 → s1.heap_usage i = zero_header)) ∧
    (∃ s1, free 3 example_pair_heap 0x8030 = some s1 ∧ s1.num_allocs = 0) := by
  have hsome : (free 3 example_pair_heap 0x8030).isSome := by decide!
  obtain ⟨s1, hfr⟩ := Option.isSome_iff_exists.1 hsome
  obtain ⟨p, s2, hm, hiff, hs, -⟩ := ledger_append_only.1 (empty_heap (fun _ => 0) 0x8000) [] 1
    example_env 10 (by decide) (by decide) (by decide) (by decide) (by decide)
  have hp : p ≠ NULL := fun h0 => absurd (hiff.1 h0).2 (by decide)
  obtain ⟨h1, -, -, h4, h5, h6, -⟩ := hs hp
  exact ⟨⟨p, s2, hm, hp, h1, h4, h5, h6⟩,
    s1, hfr, (ledger_append_only.2 3 example_pair_heap 0x8030 s1 hfr).1⟩

/-! ## No backward coalescing -/

/-- C29. On a well-formed heap, `free` of the payload of a record `h` returns, and
every record at a lower address than `h` keeps its `payload_size` and its status.
In particular, when the record `x` immediately before `h` is free, afterwards `x`
is still a record of the walk, free, with its old `payload_size`, and the free
record `h` starts where `x` ends: the two are not merged. -/
theorem free_no_backward_coalescing {s : State} {l1 l2 : List Nat} {h : Nat}
    (hwf : WellFormedWith s (l1 ++ h :: l2)) (fuel : Nat) (hf : l2.length < fuel) :
    ∃ s1 rest, free fuel s (h + HEADER_SIZE) = some s1 ∧
      WellFormedWith s1 (l1 ++ h :: rest) ∧
      read32 s1.mem (h + OFF_STATUS) = FREE ∧
      (∀ x ∈ l1 ++ h :: l2, x < h →
        read32 s1.mem x = read32 s.mem x ∧
        read32 s1.mem (x + OFF_STATUS) = read32 s.mem (x + OFF_STATUS)) ∧
      (∀ l0 x, l1 = l0 ++ [x] → read32 s.mem (x + OFF_STATUS) = FREE →
        read32 s1.mem (x + OFF_STATUS) = FREE ∧ read32 s1.mem x = read32 s.mem x ∧
        x + block_len s1.mem x = h) := by
  obtain ⟨m1, f, rest, -, -, -, hfr, ht, hso, hst, -⟩ := free_wf hwf fuel hf
  have hC : HEADER_SIZE = 48 := rfl
  have hO : OFF_STATUS = 4 := rfl
  have hW : WORD = 4294967296 := rfl
  obtain ⟨ht1, hle, ht2⟩ := Tiles.split_at hwf.2.2
  have he := hwf.2.1
  have hbh := block_len_ge s.mem h
  have hlow : ∀ x ∈ l1, read32 m1 x = read32 s.mem x ∧
      read32 m1 (x + OFF_STATUS) = read32 s.mem (x + OFF_STATUS) := by
    intro x hx
    have hb := ht1.mem_bounds x hx
    have hbx := block_len_ge s.mem x
    exact ⟨hso.read32 x (by omega) (Or.inl (by omega)),
      hso.read32 (x + OFF_STATUS) (by omega) (Or.inl (by omega))⟩
  refine ⟨_, rest, hfr, ⟨hwf.1, hwf.2.1, ht⟩, hst, fun x hx hxh => ?_, fun l0 x hl hxf => ?_⟩
  · rcases List.mem_append.1 hx with hx | hx
    · exact hlow x hx
    · rcases List.mem_cons.1 hx with hx | hx
      · omega
      · have hb := ht2.mem_bounds x hx
        omega
  · have hx : x ∈ l1 := by rw [hl]; simp
    obtain ⟨e1, e2⟩ := hlow x hx
    refine ⟨by show read32 m1 (x + OFF_STATUS) = FREE; rw [e2]; exact hxf, e1, ?_⟩
    have ht3 : Tiles m1 s.heap_end s.heap_start (l0 ++ x :: (h :: rest)) := by
      have : l0 ++ x :: (h :: rest) = l1 ++ h :: rest := by rw [hl]; simp
      rw [this]
      exact ht
    obtain ⟨-, -, ht4⟩ := Tiles.split_at ht3
    exact ht4.1.symm

set_option maxHeartbeats 4000000 in
/-- C29 on the example heap with free records at `0x8040` and `0x8078` and a used
record at `0x80b0`: the pointer `0x80e0` is freed. -/
theorem free_no_backward_coalescing_witness :
    ∃ s1 rest, free 1 example_run_heap (0x80b0 + HEADER_SIZE) = some s1 ∧
      WellFormedWith s1 ([0x8000, 0x8040, 0x8078] ++ 0x80b0 :: rest) ∧
      read32 s1.mem (0x8078 + OFF_STATUS) = FREE ∧ read32 s1.mem 0x8078 = 8 ∧
      0x8078 + block_len s1.mem 0x8078 = 0x80b0 := by
  have hwf : WellFormedWith example_run_heap ([0x8000, 0x8040, 0x8078] ++ 0x80b0 :: []) := by
    decide!
  obtain ⟨s1, rest, hfr, hwf1, -, -, hadj⟩ := free_no_backward_coalescing hwf 1 (by decide)
  have h3 := hadj [0x8000, 0x8040] 0x8078 rfl (by decide!)
  have h4 : read32 example_run_heap.mem 0x8078 = 8 := by decide!
  exact ⟨s1, rest, hfr, hwf1, h3.1, h3.2.1.trans h4, h3.2.2⟩

/-! ## The loop of `backtrace` -/

theorem read32_mod (m : Mem) (a : Nat) : read32 m (a % WORD) = read32 m a := by
  unfold read32
  rw [read8_mod_add m a 1, read8_mod_add m a 2, read8_mod_add m a 3]
  have := read8_mod_add m a 0
  simp only [Nat.add_zero] at this
  rw [this]

theorem read32_word_outside {m1 m2 : Mem} {lo hi a : Nat} (hs : SameOutside m1 m2 lo hi)
    (h : WordOutside lo hi a) : read32 m2 a = read32 m1 a := by
  rw [← read32_mod m2, ← read32_mod m1]
  exact hs.read32 (a % WORD) h.1 h.2

theorem name_of_lt (unnamed : Nat) (m : Mem) (fn : Nat) (hu : unnamed < WORD) :
    name_of unnamed m fn < WORD := by
  unfold name_of
  dsimp only
  split
  · exact hu
  · exact Nat.mod_lt _ (by decide)

theorem name_of_congr (unnamed : Nat) {m1 m2 : Mem} (fn : Nat)
    (h : read32 m2 (fn + WORD - 4) = read32 m1 (fn + WORD - 4)) :
    name_of unnamed m2 fn = name_of unnamed m1 fn := by
  unfold name_of
  dsimp only
  rw [read32_mod, read32_mod, h]

theorem backtrace_loop_stop (unnamed f left : Nat) (m : Mem) (cur n : Nat)
    (h : read32 m (cur + WORD - 12) = 0) :
    backtrace_loop unnamed f left m cur n = (n, m) := by
  unfold backtrace_loop
  rw [if_pos h]

theorem backtrace_loop_full (unnamed f : Nat) (m : Mem) (cur n : Nat) :
    backtrace_loop unnamed f 0 m cur n = (n, m) := by
  unfold backtrace_loop
  split <;> rfl

theorem backtrace_loop_step (unnamed f left : Nat) (m : Mem) (cur n : Nat)
    (h : read32 m (cur + WORD - 12) ≠ 0) :
    backtrace_loop unnamed f (left + 1) m cur n =
      backtrace_loop unnamed f left
        (write32 (write32 (write32 m (f + FRAME_SIZE * n)
            (name_of unnamed m ((read32 m (read32 m (cur + WORD - 12)) + WORD - 12) % WORD)))
          (f + FRAME_SIZE * n + 4) (read32 m (cur + WORD - 4)))
          (f + FRAME_SIZE * n + 8)
          ((read32 m (cur + WORD - 4) + WORD
            - (read32 m (read32 m (cur + WORD - 12)) + WORD - 12) % WORD) % WORD))
        (read32 m (cur + WORD - 12)) (n + 1) := by
  rw [backtrace_loop, if_neg h]

theorem store_frame_spec (m : Mem) (slot a b c : Nat) (h : slot + 12 ≤ WORD) :
    SameOutside m (write32 (write32 (write32 m slot a) (slot + 4) b) (slot + 8) c)
        slot (slot + 12) ∧
      read32 (write32 (write32 (write32 m slot a) (slot + 4) b) (slot + 8) c) slot = a % WORD ∧
      read32 (write32 (write32 (write32 m slot a) (slot + 4) b) (slot + 8) c) (slot + 4)
        = b % WORD ∧
      read32 (write32 (write32 (write32 m slot a) (slot + 4) b) (slot + 8) c) (slot + 8)
        = c % WORD := by
  refine ⟨?_, ?_, ?_, ?_⟩
  · exact (((SameOutside.write32 m slot a (by omega)).mono (le_refl _) (by omega)).trans
      ((SameOutside.write32 _ (slot + 4) b (by omega)).mono (by omega) (by omega))).trans
      ((SameOutside.write32 _ (slot + 8) c (by omega)).mono (by omega) (by omega))
  · rw [read32_write32_disj _ _ _ _ (by omega) (by omega) (Or.inl (by omega)),
      read32_write32_disj _ _ _ _ (by omega) (by omega) (Or.inl (by omega)),
      read32_write32_same]
  · rw [read32_write32_disj _ _ _ _ (by omega) (by omega) (Or.inl (by omega)),
      read32_write32_same]
  · rw [read32_write32_same]

theorem backtrace_loop_spec (unnamed f fp : Nat) (m : Mem) (d max : Nat)
    (hd : ChainDepth m fp d) (hk : LinksApart m fp f (min max d)) :
    ∀ (left n : Nat) (m1 : Mem), n + left = max → n ≤ d →
      SameOutside m m1 f (f + FRAME_SIZE * n) →
      ∃ m2, backtrace_loop unnamed f left m1 (frame_ptr m fp n) n = (min max d, m2) ∧
        SameOutside m1 m2 (f + FRAME_SIZE * n) (f + FRAME_SIZE * min max d) ∧
        (unnamed < WORD → ValuesApart m fp f (min max d) → ∀ i, n ≤ i → i < min max d →
          read_frame m2 f i = frame_spec unnamed m fp i) := by
  have hF : FRAME_SIZE = 12 := rfl
  intro left
  induction left with
  | zero =>
    intro n m1 hn hnd hso
    have hmin : min max d = n := by omega
    rw [hmin]
    exact ⟨m1, backtrace_loop_full _ _ _ _ _, SameOutside.refl _ _ _,
      fun _ _ i h1 h2 => by omega⟩
  | succ left ih =>
    intro n m1 hn hnd hso
    have hnk : n ≤ min max d := by omega
    have hso1 : SameOutside m m1 f (f + FRAME_SIZE * min max d) :=
      hso.mono (le_refl _) (by rw [hF]; omega)
    have hlink : read32 m1 (frame_ptr m fp n + WORD - 12) = frame_ptr m fp (n + 1) :=
      read32_word_outside hso1 (hk.2 n (by omega))
    by_cases hz : frame_ptr m fp (n + 1) = 0
    · have hnd2 : n = d := by
        by_contra hne
        exact hd.1 n (by omega) hz
      have hmin : min max d = n := by omega
      rw [hmin]
      exact ⟨m1, backtrace_loop_stop _ _ _ _ _ _ (by rw [hlink]; exact hz),
        SameOutside.refl _ _ _, fun _ _ i h1 h2 => by omega⟩
    · have hnd2 : n < d := by
        rcases Nat.lt_or_ge n d with h | h
        · exact h
        · have : n = d := by omega
          rw [this] at hz
          exact absurd hd.2 hz
      have hnk2 : n < min max d := by omega
      have hfk := hk.1
      rw [hF] at hfk
      rw [backtrace_loop_step _ _ _ _ _ _ (by rw [hlink]; exact hz), hlink]
      obtain ⟨hs1, hr1, hr2, hr3⟩ := store_frame_spec m1 (f + FRAME_SIZE * n)
        (name_of unnamed m1 ((read32 m1 (frame_ptr m fp (n + 1)) + WORD - 12) % WORD))
        (read32 m1 (frame_ptr m fp n + WORD - 4))
        ((read32 m1 (frame_ptr m fp n + WORD - 4) + WORD
            - (read32 m1 (frame_ptr m fp (n + 1)) + WORD - 12) % WORD) % WORD)
        (by rw [hF]; omega)
      obtain ⟨m2, hrun, hso2, hval⟩ := ih (n + 1) _ (by omega) (by omega)
        ((hso.mono (le_refl _) (by rw [hF]; omega)).trans
          (hs1.mono (by rw [hF]; omega) (by rw [hF]; omega)))
      refine ⟨m2, hrun, (hs1.mono (le_refl _) (by rw [hF]; omega)).trans
        (hso2.mono (by rw [hF]; omega) (le_refl _)), fun hu hva i hi1 hi2 => ?_⟩
      by_cases hin : i = n
      · subst hin
        obtain ⟨va1, va2, va3⟩ := hva i hi2
        have e1 : read32 m1 (frame_ptr m fp i + WORD - 4)
            = read32 m (frame_ptr m fp i + WORD - 4) := read32_word_outside hso1 va1
        have e2 : read32 m1 (frame_ptr m fp (i + 1)) = read32 m (frame_ptr m fp (i + 1)) :=
          read32_word_outside hso1 va2
        have e3 : name_of unnamed m1 (fn_start m fp i) = name_of unnamed m (fn_start m fp i) :=
          name_of_congr unnamed _ (read32_word_outside hso1 va3)
        have hfs : (read32 m (frame_ptr m fp (i + 1)) + WORD - 12) % WORD = fn_start m fp i := rfl
        unfold read_frame frame_spec
        rw [hso2.read32 _ (by rw [hF]; omega) (Or.inl (by rw [hF]; omega)),
          hso2.read32 _ (by rw [hF]; omega) (Or.inl (by rw [hF]; omega)),
          hso2.read32 _ (by rw [hF]; omega) (Or.inl (by rw [hF]; omega)),
          hr1, hr2, hr3, e1, e2, hfs, e3, Nat.mod_eq_of_lt (name_of_lt unnamed m _ hu),
          Nat.mod_eq_of_lt (read32_lt m _), Nat.mod_mod]
      · exact hval hu hva i (by omega) hi2

theorem backtrace_spec (unnamed fp : Nat) (m : Mem) (f : Nat) (max : Int) (d : Nat)
    (hd : ChainDepth m fp d) (hk : LinksApart m fp f (min max.toNat d)) :
    (backtrace unnamed fp m f max).1 = min max.toNat d ∧
      SameOutside m (backtrace unnamed fp m f max).2 f (f + FRAME_SIZE * min max.toNat d) ∧
      (unnamed < WORD → ValuesApart m fp f (min max.toNat d) → ∀ i, i < min max.toNat d →
        read_frame (backtrace unnamed fp m f max).2 f i = frame_spec unnamed m fp i) := by
  obtain ⟨m2, hrun, hso, hval⟩ := backtrace_loop_spec unnamed f fp m d max.toNat hd hk
    max.toNat 0 m (by omega) (by omega) (SameOutside.refl _ _ _)
  have hb : backtrace unnamed fp m f max = (min max.toNat d, m2) := hrun
  rw [hb]
  exact ⟨rfl, hso, fun hu hva i hi => hval hu hva i (by omega) hi⟩

/-- C25. Over a memory in which the frame chain starting at `fp` has `d` frames before
a saved frame pointer of zero is met, and in which the entries `f[0 .. k)`,
`k = min(max, d)`, do not overlap the saved frame pointers of these frames:
`backtrace(f, max)` returns `k` (that is `0` when `max ≤ 0`) and leaves every byte
outside `f[0 .. k)` unchanged. It writes the entries `f[0 .. k)`: when these
entries also do not overlap the other words read by the loop, every entry `f[i]`,
`i < k`, holds after the call the frame of call `i` (name, resume address and
offset, computed in the memory of the call), whatever it held before. With
`max ≤ 0`, as in the call made by `malloc` (`NUM_FRAMES = 0`), it returns `0` and
the memory is unchanged, whatever the chain. -/
theorem backtrace_returns_min_depth (unnamed fp : Nat) (m : Mem) (f : Nat) (max : Int) (d : Nat)
    (hd : ChainDepth m fp d) (hk : LinksApart m fp f (min max.toNat d)) :
    (backtrace unnamed fp m f max).1 = min max.toNat d ∧
      SameOutside m (backtrace unnamed fp m f max).2 f (f + FRAME_SIZE * min max.toNat d) ∧
      (unnamed < WORD → ValuesApart m fp f (min max.toNat d) → ∀ i, i < min max.toNat d →
        read_frame (backtrace unnamed fp m f max).2 f i = frame_spec unnamed m fp i) ∧
      (∀ (fp1 : Nat) (m1 : Mem) (max1 : Int), max1 ≤ 0 →
        backtrace unnamed fp1 m1 f max1 = (0, m1)) ∧
      (∀ (fp1 : Nat) (m1 : Mem), backtrace unnamed fp1 m1 f (NUM_FRAMES : Int) = (0, m1)) := by
  obtain ⟨h1, h2, h3⟩ := backtrace_spec unnamed fp m f max d hd hk
  refine ⟨h1, h2, h3, fun fp1 m1 max1 hmax => ?_, fun fp1 m1 => backtrace_zero _ _ _ _⟩
  unfold backtrace
  have : max1.toNat = 0 := by omega
  rw [this]
  exact backtrace_loop_full _ _ _ _ _

/-- C25 three calls deep: on the example stack, whose chain has 3 frames,
`backtrace(f, 3)` with `f = 0x9000` returns 3 and writes the three entries, which
held zeros before: the resume addresses `0x8110`, `0x8220`, `0x8330`, the offsets
16, 32, 48, and for the second and third function, which have no name word, the
placeholder name at `0x100`. The word after the third entry is not written. -/
theorem backtrace_returns_min_depth_witness :
    (backtrace 0x100 0x7ffff00 example_stack 0x9000 3).1 = 3 ∧
    ((read_frame example_stack 0x9000 0).resume_addr = 0 ∧
      (read_frame example_stack 0x9000 1).resume_addr = 0 ∧
      (read_frame example_stack 0x9000 2).resume_addr = 0) ∧
    ((read_frame (backtrace 0x100 0x7ffff00 example_stack 0x9000 3).2 0x9000 0).resume_addr
        = 0x8110 ∧
      (read_frame (backtrace 0x100 0x7ffff00 example_stack 0x9000 3).2 0x9000 1).resume_addr
        = 0x8220 ∧
      (read_frame (backtrace 0x100 0x7ffff00 example_stack 0x9000 3).2 0x9000 2).resume_addr
        = 0x8330) ∧
    ((read_frame (backtrace 0x100 0x7ffff00 example_stack 0x9000 3).2 0x9000 0).resume_offset
        = 16 ∧
      (read_frame (backtrace 0x100 0x7ffff00 example_stack 0x9000 3).2 0x9000 1).resume_offset
        = 32 ∧
      (read_frame (backtrace 0x100 0x7ffff00 example_stack 0x9000 3).2 0x9000 2).resume_offset
        = 48) ∧
    ((read_frame (backtrace 0x100 0x7ffff00 example_stack 0x9000 3).2 0x9000 1).name = 0x100 ∧
      (read_frame (backtrace 0x100 0x7ffff00 example_stack 0x9000 3).2 0x9000 2).name
        = 0x100) ∧
    read32 (backtrace 0x100 0x7ffff00 example_stack 0x9000 3).2 (0x9000 + FRAME_SIZE * 3)
      = read32 example_stack (0x9000 + FRAME_SIZE * 3) := by
  obtain ⟨h1, h2, h3, -⟩ := backtrace_returns_min_depth 0x100 0x7ffff00 example_stack 0x9000 3 3
    (by decide) (by decide)
  have e0 := h3 (by decide) (by decide) 0 (by decide)
  have e1 := h3 (by decide) (by decide) 1 (by decide)
  have e2 := h3 (by decide) (by decide) 2 (by decide)
  refine ⟨h1, by decide, ⟨?_, ?_, ?_⟩, ⟨?_, ?_, ?_⟩, ⟨?_, ?_⟩, ?_⟩
  · rw [e0]; decide
  · rw [e1]; decide
  · rw [e2]; decide
  · rw [e0]; decide
  · rw [e1]; decide
  · rw [e2]; decide
  · rw [e1]; decide
  · rw [e2]; decide
  · exact h2.read32 _ (by decide) (Or.inr (by decide))

/-- C26. Under the conditions of C25, when the entries `f[0 .. k)` also do not
overlap the other words read by the loop, every frame `i` written by
`backtrace` has: `resume_addr` = the word stored at `fp_i - 4`; with `S` = the word
stored at the frame pointer of the caller (the word at `fp_i - 12` is that frame
pointer) minus 12, `resume_offset = resume_addr - S` and `name = name_of(S)`, all
read in the memory of the call. -/
theorem backtrace_frame_fields (unnamed fp : Nat) (m : Mem) (f : Nat) (max : Int) (d : Nat)
    (hu : unnamed < WORD) (hd : ChainDepth m fp d) (hk : LinksApart m fp f (min max.toNat d))
    (hv : ValuesApart m fp f (min max.toNat d)) (i : Nat)
    (hi : i < (backtrace unnamed fp m f max).1) :
    fn_start m fp i
      = (read32 m (read32 m (frame_ptr m fp i + WORD - 12)) + WORD - 12) % WORD ∧
    (read_frame (backtrace unnamed fp m f max).2 f i).resume_addr
      = read32 m (frame_ptr m fp i + WORD - 4) ∧
    (read_frame (backtrace unnamed fp m f max).2 f i).resume_offset
      = (read32 m (frame_ptr m fp i + WORD - 4) + WORD - fn_start m fp i) % WORD ∧
    (read_frame (backtrace unnamed fp m f max).2 f i).name
      = name_of unnamed m (fn_start m fp i) := by
  obtain ⟨h1, -, h3⟩ := backtrace_spec unnamed fp m f max d hd hk
  rw [h1] at hi
  rw [h3 hu hv i hi]
  exact ⟨rfl, rfl, rfl, rfl⟩

/-- C26 on the example stack: the innermost frame resumes at `0x8110`, 16 bytes into
the function at `0x8100`, whose name starts at `0x80f4`. -/
theorem backtrace_frame_fields_witness :
    fn_start example_stack 0x7ffff00 0 = 0x8100 ∧
    (read_frame (backtrace 0x100 0x7ffff00 example_stack 0x9000 3).2 0x9000 0).resume_addr
      = 0x8110 ∧
    (read_frame (backtrace 0x100 0x7ffff00 example_stack 0x9000 3).2 0x9000 0).resume_offset
      = 16 ∧
    (read_frame (backtrace 0x100 0x7ffff00 example_stack 0x9000 3).2 0x9000 0).name
      = 0x80f4 := by
  obtain ⟨-, h2, h3, h4⟩ := backtrace_frame_fields 0x100 0x7ffff00 example_stack 0x9000 3 3
    (by decide) (by decide) (by decide) (by decide) 0 (by decide)
  refine ⟨by decide, h2.trans (by decide), h3.trans (by decide), h4.trans (by decide)⟩

/-! ## Termination -/

theorem malloc_some_of_find_space (fuel : Nat) (env : Env) (s : State) (n h : Nat)
    (hfs : find_space fuel s (roundup n MIN_BLOCK_SIZE) = some h) :
    (malloc fuel env s n).isSome = true := by
  unfold malloc
  split
  · rfl
  · dsimp only
    rw [hfs]
    dsimp only
    split
    · split <;> rfl
    · split <;> rfl

/-- C31. On a well-formed heap with records `recs`, whenever the fuel, which bounds
the number of evaluations of a loop test, exceeds the number of records:
`find_space(k)` returns for every `k`, `malloc(n)` returns for every `n` (wrapping
sizes included), and `free` of the payload of a record `h` returns as soon as the
fuel exceeds the number of records after `h`. So each loop visits at most as many
records as the heap contains. -/
theorem allocator_loops_terminate {s : State} {recs : List Nat} (hwf : WellFormedWith s recs)
    (fuel : Nat) (hf : recs.length < fuel) :
    (∀ k, (find_space fuel s k).isSome = true) ∧
    (∀ env n, (malloc fuel env s n).isSome = true) ∧
    (∀ l1 h l2 fuel2, recs = l1 ++ h :: l2 → l2.length < fuel2 →
      (free fuel2 s (h + HEADER_SIZE)).isSome = true) := by
  have hfind : ∀ k, ∃ h, find_space fuel s k = some h := by
    intro k
    rcases find_space_spec hwf k fuel hf with ⟨l1, h, l2, -, -, -, hfs⟩ | ⟨-, hfs⟩
    · exact ⟨h, hfs⟩
    · exact ⟨_, hfs⟩
  refine ⟨fun k => ?_, fun env n => ?_, fun l1 h l2 fuel2 hl hf2 => ?_⟩
  · obtain ⟨h, hfs⟩ := hfind k
    rw [hfs]
    rfl
  · obtain ⟨h, hfs⟩ := hfind (roundup n MIN_BLOCK_SIZE)
    exact malloc_some_of_find_space fuel env s n h hfs
  · subst hl
    obtain ⟨m1, f, rest, -, -, -, hfr, -⟩ := free_wf hwf fuel2 hf2
    rw [hfr]
    rfl

/-- C31 on the example heap of four records: five loop tests are enough, also for a
size that wraps, and `free` of the third record needs two. -/
theorem allocator_loops_terminate_witness :
    (find_space 5 example_run_heap 4294967295).isSome = true ∧
    (malloc 5 example_env example_run_heap 4294967295).isSome = true ∧
    (free 2 example_run_heap (0x8078 + HEADER_SIZE)).isSome = true :=
  have h := allocator_loops_terminate
    (show WellFormedWith example_run_heap [0x8000, 0x8040, 0x8078, 0x80b0] by decide!) 5
    (by decide)
  ⟨h.1 4294967295, h.2.1 example_env 4294967295,
    h.2.2 [0x8000, 0x8040] 0x8078 [0x80b0] 2 rfl (by decide)⟩

/-! ## Requests whose rounding wraps -/

/-- C32 (code bug): `malloc(2^32 - 1)` on the empty, well-formed heap at `0x8000`.
`roundup(n, 8)` wraps to `0`, `sbrk(HEADER_SIZE)` succeeds, and `malloc` returns
the non-null pointer `0x8030` to a record of `payload_size = 0`: the heap ends at
`0x8030`, so `p + n ≤ heap_end` fails and the capacity is below `n`. -/
theorem malloc_wrapped_roundup_zero_capacity :
    WellFormedWith (empty_heap (fun _ => 0) 0x8000) [] ∧
    roundup 4294967295 MIN_BLOCK_SIZE = 0 ∧
    ∃ s1, malloc 1 example_env (empty_heap (fun _ => 0) 0x8000) 4294967295 = some (0x8030, s1) ∧
      s1.heap_start = 0x8000 ∧ s1.heap_end = 0x8030 ∧
      read32 s1.mem (0x8030 - HEADER_SIZE) = 0 ∧
      read32 s1.mem (0x8030 - HEADER_SIZE + OFF_DATA_SIZE) = 4294967295 ∧
      ¬ (0x8030 + 4294967295 ≤ s1.heap_end) ∧
      ¬ (4294967295 ≤ read32 s1.mem (0x8030 - HEADER_SIZE)) := by
  refine ⟨by decide, by decide, ?_⟩
  have hv : (malloc 1 example_env (empty_heap (fun _ => 0) 0x8000) 4294967295).map
      (fun r => (r.1, r.2.heap_start, r.2.heap_end, read32 r.2.mem (0x8030 - HEADER_SIZE),
        read32 r.2.mem (0x8030 - HEADER_SIZE + OFF_DATA_SIZE)))
      = some (0x8030, 0x8000, 0x8030, 0, 4294967295) := by decide!
  obtain ⟨⟨p, s1⟩, hs, hv1⟩ := Option.map_eq_some'.1 hv
  simp only [Prod.mk.injEq] at hv1
  obtain ⟨hp, h1, h2, h3, h4⟩ := hv1
  subst hp
  refine ⟨s1, hs, h1, h2, h3, h4, ?_, ?_⟩
  · rw [h2]
    decide
  · rw [h3]
    decide

/-! ## Payloads are not written -/

theorem block_sum_mod8 (m : Mem) :
    ∀ f : List Nat, (∀ y ∈ f, read32 m y % 8 = 0) → (f.map (block_len m)).sum % 8 = 0
  | [], _ => rfl
  | y :: ys, h => by
    have h1 := h y (List.mem_cons_self _ _)
    have h2 := block_sum_mod8 m ys (fun z hz => h z (List.mem_cons_of_mem _ hz))
    have hb : block_len m y = read32 m y + 48 := rfl
    simp only [List.map_cons, List.sum_cons]
    omega

theorem Tiles.addr_aligned {m : Mem} {e : Nat} :
    ∀ {recs : List Nat} {a : Nat}, Tiles m e a recs → a % 8 = 0 →
      (∀ x ∈ recs, read32 m x % 8 = 0) → ∀ x ∈ recs, x % 8 = 0
  | [], _, _, _, _, x, hx => by cases hx
  | y :: ys, a, ht, ha, hal, x, hx => by
    obtain ⟨rfl, -, h3⟩ := ht
    rcases List.mem_cons.1 hx with rfl | hx
    · exact ha
    · have h1 := hal y (List.mem_cons_self _ _)
      have hb : block_len m y = read32 m y + 48 := rfl
      exact Tiles.addr_aligned h3 (by omega) (fun z hz => hal z (List.mem_cons_of_mem _ hz)) x hx

theorem malloc_aligned {s : State} {recs : List Nat} (hwf : WellFormedWith s recs)
    (hal : Aligned s recs) (fuel : Nat) (hf : recs.length < fuel) (env : Env) (n : Nat)
    (hnw : NoWrap s n) :
    ∃ p s1, malloc fuel env s n = some (p, s1) ∧ s1.heap_start = s.heap_start ∧
      ((p = NULL ∧ s1 = s) ∨
        ∃ h recs1, p = h + HEADER_SIZE ∧ WellFormedWith s1 recs1 ∧ Aligned s1 recs1 ∧
          h ∈ recs1) := by
  by_cases hn : n = 0
  · subst hn
    exact ⟨NULL, s, malloc_zero fuel env s, rfl, Or.inl ⟨rfl, rfl⟩⟩
  have hwf1 := hwf
  obtain ⟨h0, he, ht⟩ := hwf1
  have hnw1 := hnw
  obtain ⟨hw1, hw2, hw3⟩ := hnw1
  have hC : HEADER_SIZE = 48 := rfl
  have hR : RED_ZONE_LEN = 0 := rfl
  have hM : MIN_BLOCK_SIZE = 8 := rfl
  have hW : WORD = 4294967296 := rfl
  obtain ⟨hr1, hr2, hr3⟩ := roundup_bounds n hw1
  rcases find_space_spec hwf (roundup n MIN_BLOCK_SIZE) fuel hf with
    ⟨l1, h, l2, rfl, hl1, hfit, hfs⟩ | ⟨hall, hfs⟩
  · obtain ⟨ht1, ht2, ht3⟩ := ht.split_at
    have hbl := block_len_ge s.mem h
    have hdh : block_len s.mem h = read32 s.mem h + 48 := rfl
    have hah := hal h (by simp)
    have hlow : ∀ x ∈ l1, x + 48 ≤ h := by
      intro x hx
      have := (ht1.mem_bounds x hx).2
      have := block_len_ge s.mem x
      omega
    have hhigh : ∀ x ∈ l2, h + block_len s.mem h ≤ x ∧ x + 48 ≤ s.heap_end := by
      intro x hx
      have := ht3.mem_bounds x hx
      have := block_len_ge s.mem x
      omega
    by_cases hbig : roundup n MIN_BLOCK_SIZE + HEADER_SIZE + MIN_BLOCK_SIZE ≤ read32 s.mem h
    · obtain ⟨s1, hm, hs1, hwf2, hso, hq1, hq2, hq3⟩ :=
        malloc_split_wf hwf fuel env n hn hw2 hfs hbig
      refine ⟨_, s1, hm, by rw [hs1]; rfl, Or.inr ⟨h, _, rfl, hwf2, ?_, by simp⟩⟩
      intro x hx
      rcases List.mem_append.1 hx with hx | hx
      · have := hlow x hx
        rw [hso.read32 x (by omega) (Or.inl (by omega))]
        exact hal x (List.mem_append_left _ hx)
      · rcases List.mem_cons.1 hx with hx | hx
        · subst hx
          rw [hq1]
          omega
        · rcases List.mem_cons.1 hx with hx | hx
          · subst hx
            rw [hq2]
            omega
          · have := hhigh x hx
            rw [hso.read32 x (by omega) (Or.inr (by omega))]
            exact hal x (List.mem_append_right _ (List.mem_cons_of_mem _ hx))
    · obtain ⟨hm, hwf2, hso⟩ := malloc_reuse_wf hwf fuel env n hn hw2 hfs (by omega)
      refine ⟨_, _, hm, rfl, Or.inr ⟨h, _, rfl, hwf2, ?_, by simp⟩⟩
      intro x hx
      have hrd : read32 (alloc_state s s.mem s.heap_end h n).mem x = read32 s.mem x := by
        rcases List.mem_append.1 hx with hx | hx
        · have := hlow x hx
          exact hso.read32 x (by omega) (Or.inl (by omega))
        · rcases List.mem_cons.1 hx with hx | hx
          · subst hx
            exact hso.read32 x (by omega) (Or.inl (by omega))
          · have := hhigh x hx
            exact hso.read32 x (by omega) (Or.inr (by omega))
      rw [hrd]
      exact hal x hx
  · by_cases hok : (env.sp + WORD - 0x1000000) % WORD
        < s.heap_end + (roundup n MIN_BLOCK_SIZE + HEADER_SIZE)
    · have hs := sbrk_eq env.sp s (roundup n MIN_BLOCK_SIZE + HEADER_SIZE) (by omega)
        (by omega)
      rw [if_pos hok] at hs
      have hk : roundup n MIN_BLOCK_SIZE + HEADER_SIZE + 2 * RED_ZONE_LEN
          = roundup n MIN_BLOCK_SIZE + HEADER_SIZE := rfl
      have := malloc_grow_fail fuel env s n hn hfs (by rw [hk, hs])
      rw [hk, hs] at this
      exact ⟨_, _, this, rfl, Or.inl ⟨rfl, rfl⟩⟩
    · obtain ⟨hm, hwf2, hso, hrd⟩ := malloc_grow_wf hwf fuel env n hn hnw hfs hok
      refine ⟨_, _, hm, rfl, Or.inr ⟨s.heap_end, _, rfl, hwf2, ?_, by simp⟩⟩
      intro x hx
      rcases List.mem_append.1 hx with hx | hx
      · have := (ht.mem_bounds x hx).2
        have := block_len_ge s.mem x
        rw [hso.read32 x (by omega) (Or.inl (by omega))]
        exact hal x hx
      · simp only [List.mem_singleton] at hx
        subst hx
        rw [hrd]
        omega

theorem free_aligned {s : State} {l1 l2 : List Nat} {h : Nat}
    (hwf : WellFormedWith s (l1 ++ h :: l2)) (hal : Aligned s (l1 ++ h :: l2))
    (fuel : Nat) (hf : l2.length < fuel) :
    ∃ s1 rest, free fuel s (h + HEADER_SIZE) = some s1 ∧ s1.heap_start = s.heap_start ∧
      WellFormedWith s1 (l1 ++ h :: rest) ∧ Aligned s1 (l1 ++ h :: rest) := by
  obtain ⟨m1, f, rest, hl2, -, -, hfr, ht, hso, -, hsum⟩ := free_wf hwf fuel hf
  have hC : HEADER_SIZE = 48 := rfl
  have hW : WORD = 4294967296 := rfl
  obtain ⟨ht1, ht2, ht3⟩ := hwf.2.2.split_at
  have he := hwf.2.1
  have hbl := block_len_ge s.mem h
  refine ⟨_, rest, hfr, rfl, ⟨hwf.1, hwf.2.1, ht⟩, ?_⟩
  intro x hx
  show read32 m1 x % 8 = 0 ∧ 8 ≤ read32 m1 x
  rcases List.mem_append.1 hx with hx | hx
  · have := (ht1.mem_bounds x hx).2
    have := block_len_ge s.mem x
    rw [hso.read32 x (by omega) (Or.inl (by omega))]
    exact hal x (List.mem_append_left _ hx)
  · rcases List.mem_cons.1 hx with hx | hx
    · subst hx
      have hah := hal x (by simp)
      have hfs := block_sum_mod8 s.mem f (fun y hy =>
        (hal y (List.mem_append_right _ (List.mem_cons_of_mem _
          (by rw [hl2]; exact List.mem_append_left _ hy)))).1)
      have hb1 : block_len m1 x = read32 m1 x + 48 := rfl
      have hb2 : block_len s.mem x = read32 s.mem x + 48 := rfl
      omega
    · have hx2 : x ∈ l2 := by rw [hl2]; exact List.mem_append_right _ hx
      have := ht3.mem_bounds x hx2
      have := block_len_ge s.mem x
      rw [hso.read32 x (by omega) (Or.inr (by omega))]
      exact hal x (List.mem_append_right _ (List.mem_cons_of_mem _ hx2))

theorem Aligned.of_wf {s : State} {recs recs1 : List Nat} (hal : Aligned s recs)
    (hwf : WellFormedWith s recs) (hwf1 : WellFormedWith s recs1) : Aligned s recs1 := by
  rw [← Tiles.unique hwf.2.2 hwf1.2.2]
  exact hal

theorem exec_aligned (fuel : Nat) (hfuel : WORD ≤ HEADER_SIZE * fuel) (c : Config) (op : Op)
    (hinv : Inv c) (hal : AlignedHeap c.st) (hok : OpOk c op) :
    ∃ c1, exec fuel c op = some c1 ∧ Inv c1 ∧ AlignedHeap c1.st := by
  obtain ⟨c1, he, hinv1⟩ := exec_inv fuel hfuel c op hinv hok
  refine ⟨c1, he, hinv1, ?_⟩
  obtain ⟨h8, recs, hwf, halr⟩ := hal
  cases op with
  | malloc env n =>
    obtain ⟨p, s1, hm, hst, hcase⟩ :=
      malloc_aligned hwf halr fuel (hwf.length_lt hfuel) env n hok.1
    have hc1 : c1.st = s1 := by
      simp only [exec, hm] at he
      rw [← Option.some.inj he]
    rw [hc1]
    rcases hcase with ⟨-, rfl⟩ | ⟨h, recs1, -, hwf1, hal1, -⟩
    · exact ⟨h8, recs, hwf, halr⟩
    · exact ⟨by rw [hst]; exact h8, recs1, hwf1, hal1⟩
  | free p =>
    by_cases hp : p = NULL
    · subst hp
      have hc1 : c1.st = c.st := by
        simp only [exec, free_null] at he
        rw [← Option.some.inj he]
      rw [hc1]
      exact ⟨h8, recs, hwf, halr⟩
    · obtain ⟨recs0, hwf0, hlive⟩ := hinv
      obtain ⟨l0, hl0, hl0p⟩ := (show p = NULL ∨ ∃ l ∈ c.live, l.ptr = p from hok).resolve_left hp
      obtain ⟨h, hh, hph, -⟩ := hlive l0 hl0
      have hal0 := halr.of_wf hwf hwf0
      obtain ⟨l1, l2, rfl⟩ := List.append_of_mem hh
      have hlen : l2.length < fuel := by
        have := hwf0.length_lt hfuel
        simp at this
        omega
      obtain ⟨s1, rest, hfr, hst, hwf1, hal1⟩ := free_aligned hwf0 hal0 fuel hlen
      have hpe : p = h + HEADER_SIZE := by rw [← hl0p, hph]; rfl
      have hc1 : c1.st = s1 := by
        simp only [exec, hpe, hfr] at he
        rw [← Option.some.inj he]
      rw [hc1]
      exact ⟨by rw [hst]; exact h8, _, hwf1, hal1⟩

theorem run_aligned (fuel : Nat) (hfuel : WORD ≤ HEADER_SIZE * fuel) :
    ∀ (ops : List Op) (c : Config), Inv c → AlignedHeap c.st → Valid fuel c ops →
      ∃ c1, run fuel c ops = some c1 ∧ Inv c1 ∧ AlignedHeap c1.st
  | [], c, hinv, hal, _ => ⟨c, rfl, hinv, hal⟩
  | op :: ops, c, hinv, hal, hv => by
    obtain ⟨c1, he, hinv1, hal1⟩ := exec_aligned fuel hfuel c op hinv hal hv.1
    have hv2 := hv.2
    rw [he] at hv2
    obtain ⟨c2, hr, hinv2, hal2⟩ := run_aligned fuel hfuel ops c1 hinv1 hal1 hv2
    exact ⟨c2, by simp [run, he, hr], hinv2, hal2⟩

/-- C34 (alignment). `HEADER_SIZE + RED_ZONE_LEN` is a multiple of 8. From an empty
heap whose start is a non-null multiple of 8, every sequence of calls in which no
`malloc` wraps, every `malloc` is made while `num_allocs < LEDGER_LEN` and every
`free` gets the null pointer or a live pointer runs to the end, with `num_allocs ≤
LEDGER_LEN`, and afterwards: every record of the walk has a `payload_size` that is
a multiple of 8 and at least 8, and starts at a multiple of 8; every live pointer
is a multiple of 8; and the pointer returned by any further `malloc` that does not
wrap and is made while `num_allocs < LEDGER_LEN` is a multiple of 8. -/
theorem alignment_invariant (m : Mem) (start : Nat) (h0 : 0 < start) (hw : start < WORD)
    (h8 : start % 8 = 0) (fuel : Nat) (hfuel : WORD ≤ HEADER_SIZE * fuel) (ops : List Op)
    (hv : Valid fuel ⟨empty_heap m start, []⟩ ops) :
    (HEADER_SIZE + RED_ZONE_LEN) % 8 = 0 ∧
    ∃ c recs, run fuel ⟨empty_heap m start, []⟩ ops = some c ∧
      c.st.num_allocs ≤ LEDGER_LEN ∧ WellFormedWith c.st recs ∧
      (∀ x ∈ recs, read32 c.st.mem x % 8 = 0 ∧ 8 ≤ read32 c.st.mem x ∧ x % 8 = 0) ∧
      (∀ l ∈ c.live, l.ptr % 8 = 0) ∧
      (∀ env n, NoWrap c.st n → c.st.num_allocs < LEDGER_LEN →
        ∃ p s1, malloc fuel env c.st n = some (p, s1) ∧ p % 8 = 0) := by
  refine ⟨by decide, ?_⟩
  have hC : HEADER_SIZE = 48 := rfl
  have hR : RED_ZONE_LEN = 0 := rfl
  have hal0 : AlignedHeap (empty_heap m start) :=
    ⟨h8, [], ⟨h0, hw, rfl⟩, fun x hx => by cases hx⟩
  obtain ⟨c, hrun, hinv, hst, recs, hwf, hal⟩ :=
    run_aligned fuel hfuel ops _ (empty_heap_inv m start h0 hw) hal0 hv
  have hle : c.st.num_allocs ≤ LEDGER_LEN := by
    obtain ⟨c0, hrun0, -, hle0⟩ :=
      run_ledger fuel hfuel ops _ (empty_heap_inv m start h0 hw) hv (Nat.zero_le _)
    rw [hrun] at hrun0
    rw [Option.some.inj hrun0]
    exact hle0
  have haddr := Tiles.addr_aligned hwf.2.2 hst (fun x hx => (hal x hx).1)
  refine ⟨c, recs, hrun, hle, hwf, fun x hx => ⟨(hal x hx).1, (hal x hx).2, haddr x hx⟩, ?_, ?_⟩
  · intro l hl
    obtain ⟨recs0, hwf0, hlive⟩ := hinv
    obtain ⟨h, hh, hph, -⟩ := hlive l hl
    have hh2 : h ∈ recs := by
      rw [Tiles.unique hwf.2.2 hwf0.2.2]
      exact hh
    have := haddr h hh2
    rw [hph, hC, hR]
    omega
  · intro env n hnw _
    obtain ⟨p, s1, hm, hst1, hcase⟩ :=
      malloc_aligned hwf hal fuel (hwf.length_lt hfuel) env n hnw
    refine ⟨p, s1, hm, ?_⟩
    rcases hcase with ⟨hp, -⟩ | ⟨h, recs1, hp, hwf1, hal1, hh⟩
    · rw [hp]
      rfl
    · have := Tiles.addr_aligned hwf1.2.2 (by rw [hst1]; exact hst) (fun x hx => (hal1 x hx).1)
        h hh
      rw [hp, hC]
      omega

set_option maxHeartbeats 4000000 in
/-- C34 on a run: from the empty heap at `0x8000`, `malloc(100)`, `malloc(5)`,
`free(0x8030)`. -/
theorem alignment_invariant_witness :
    ∃ c recs, run 89478486 ⟨empty_heap (fun _ => 0) 0x8000, []⟩
        [.malloc example_env 100, .malloc example_env 5, .free 0x8030] = some c ∧
      c.st.num_allocs ≤ LEDGER_LEN ∧ WellFormedWith c.st recs ∧
      (∀ x ∈ recs, read32 c.st.mem x % 8 = 0 ∧ 8 ≤ read32 c.st.mem x ∧ x % 8 = 0) ∧
      (∀ l ∈ c.live, l.ptr % 8 = 0) ∧
      (∀ env n, NoWrap c.st n → c.st.num_allocs < LEDGER_LEN →
        ∃ p s1, malloc 89478486 env c.st n = some (p, s1) ∧ p % 8 = 0) :=
  (alignment_invariant (fun _ => 0) 0x8000 (by decide) (by decide) (by decide) 89478486
    (by decide) [.malloc example_env 100, .malloc example_env 5, .free 0x8030]
    (by decide!)).2

end Malloc

namespace Karel

/-! ## The result of `update_karel_world` -/

theorem board_at_on_board :
    ∀ y x : Fin 10, (board_at ((y.val : Nat) : Int) ((x.val : Nat) : Int)).isSome = true := by
  decide

theorem board_at_some (y x : Int) (hy0 : 0 ≤ y) (hy : y < 10) (hx0 : 0 ≤ x) (hx : x < 10) :
    ∃ c, board_at y x = some c := by
  lift y to ℕ using hy0
  lift x to ℕ using hx0
  exact Option.isSome_iff_exists.1 (board_at_on_board ⟨y, by omega⟩ ⟨x, by omega⟩)

theorem is_move_valid_some (karel : pos_t) (x y : Int)
    (hk : ∃ c, board_at karel.y karel.x = some c) :
    ∃ b, is_move_valid karel x y = some b ∧
      (b = true → 0 ≤ x ∧ x < 10 ∧ 0 ≤ y ∧ y < 10) := by
  have hlen : ((strlen (board.headD "") : Nat) : Int) = 10 := by decide
  have hrows : ((NUM_ROWS : Nat) : Int) = 10 := by decide
  unfold is_move_valid
  rw [hlen, hrows]
  by_cases hin : x ≥ 0 ∧ x < 10 ∧ y ≥ 0 ∧ y < 10
  · rw [if_neg (not_not.2 hin)]
    obtain ⟨c, hc⟩ := board_at_some y x hin.2.2.1 hin.2.2.2 hin.1 hin.2.1
    obtain ⟨k, hk⟩ := hk
    rw [hc, hk]
    dsimp only
    have hb : 0 ≤ x ∧ x < 10 ∧ 0 ≤ y ∧ y < 10 := ⟨hin.1, hin.2.1, hin.2.2.1, hin.2.2.2⟩
    split
    · exact ⟨false, rfl, fun h => absurd h (by decide)⟩
    · split
      · exact ⟨false, rfl, fun h => absurd h (by decide)⟩
      · split
        · exact ⟨false, rfl, fun h => absurd h (by decide)⟩
        · split
          · exact ⟨false, rfl, fun h => absurd h (by decide)⟩
          · exact ⟨true, rfl, fun _ => hb⟩
  · rw [if_pos hin]
    exact ⟨false, rfl, fun h => absurd h (by decide)⟩

theorem check_game_over_spec (w : World) :
    ∃ r, check_game_over w = (r, w) ∧
      (r = 1 ↔ w.karel.x = w.beeper.x ∧ w.karel.y = w.beeper.y) ∧ (r = 0 ∨ r = 1) := by
  unfold check_game_over
  by_cases h : w.karel.x = w.beeper.x ∧ w.karel.y = w.beeper.y
  · exact ⟨1, by rw [if_pos h], by simp [h], Or.inr rfl⟩
  · exact ⟨0, by rw [if_neg h], by simp [h], Or.inl rfl⟩

theorem update_karel_world_spec (w : World) (move : Int) (hb : OnBoard w) :
    ∃ r w1, update_karel_world w move = some (r, w1) ∧
      w1.beeper = w.beeper ∧ OnBoard w1 ∧
      (Rejected w move → r = 0 ∧ w1 = w) ∧
      (r = 1 ↔ ¬ Rejected w move ∧ w1.karel.x = w1.beeper.x ∧ w1.karel.y = w1.beeper.y) ∧
      (r = 0 ∨ r = 1) := by
  obtain ⟨hx0, hx, hy0, hy⟩ := hb
  have hk := board_at_some w.karel.y w.karel.x hy0 hy hx0 hx
  by_cases hm : move = MOVE_FORWARD
  · obtain ⟨b, hv, hbounds⟩ :=
      is_move_valid_some w.karel (step_forward w.karel).x (step_forward w.karel).y hk
    cases b with
    | false =>
      have hrej : Rejected w move := ⟨hm, hv⟩
      refine ⟨0, w, ?_, rfl, ⟨hx0, hx, hy0, hy⟩, fun _ => ⟨rfl, rfl⟩, ?_, Or.inl rfl⟩
      · unfold update_karel_world
        rw [if_pos hm]
        dsimp only
        rw [hv]
      · constructor
        · intro h
          exact absurd h (by decide)
        · intro h
          exact absurd hrej h.1
    | true =>
      have hnrej : ¬ Rejected w move := fun h => by
        have := h.2
        rw [hv] at this
        exact absurd this (by simp)
      obtain ⟨r, h1, h2, h3⟩ := check_game_over_spec { w with karel := step_forward w.karel }
      have hupd : update_karel_world w move
          = some (r, { w with karel := step_forward w.karel }) := by
        unfold update_karel_world
        rw [if_pos hm]
        dsimp only
        rw [hv]
        dsimp only
        rw [h1]
      exact ⟨r, _, hupd, rfl, hbounds rfl, fun h => absurd h hnrej,
        ⟨fun h => ⟨hnrej, h2.1 h⟩, fun h => h2.2 h.2⟩, h3⟩
  · have hnrej : ¬ Rejected w move := fun h => hm h.1
    by_cases ht : move = TURN_LEFT
    · obtain ⟨r, h1, h2, h3⟩ := check_game_over_spec
        { w with karel := { w.karel with dir := Int.tmod (wrap_int (w.karel.dir + 1)) 4 } }
      have hupd : update_karel_world w move = some (r,
          { w with karel := { w.karel with dir := Int.tmod (wrap_int (w.karel.dir + 1)) 4 } }) := by
        unfold update_karel_world
        rw [if_neg hm, if_pos ht, h1]
      exact ⟨r, _, hupd, rfl, ⟨hx0, hx, hy0, hy⟩, fun h => absurd h hnrej,
        ⟨fun h => ⟨hnrej, h2.1 h⟩, fun h => h2.2 h.2⟩, h3⟩
    · obtain ⟨r, h1, h2, h3⟩ := check_game_over_spec w
      have hupd : update_karel_world w move = some (r, w) := by
        unfold update_karel_world
        rw [if_neg hm, if_neg ht, h1]
      exact ⟨r, _, hupd, rfl, ⟨hx0, hx, hy0, hy⟩, fun h => absurd h hnrej,
        ⟨fun h => ⟨hnrej, h2.1 h⟩, fun h => h2.2 h.2⟩, h3⟩

/-- C27, as stated, fails when a forward move is rejected while Karel stands on the
beeper. After `karel_world_init` the beeper is at `(0, 1)`; sixteen calls of
`update_karel_world` bring Karel onto it, facing west (the last two return 1); the
next call, a forward move off the board, returns 0 although Karel's position
after the call is the beeper's. -/
theorem update_returns_zero_on_beeper :
    play (karel_world_init initial_world)
        [0, 1, 0, 0, 0, 0, 0, 0, 0, 1, 0, 1, 1, 1, 0, 1]
      = some ([0, 0, 0, 0, 0, 0, 0, 0, 0, 0, 0, 0, 0, 0, 1, 1],
          { karel := ⟨0, 1, WEST⟩, beeper := ⟨0, 1, -10⟩ }) ∧
    update_karel_world { karel := ⟨0, 1, WEST⟩, beeper := ⟨0, 1, -10⟩ } MOVE_FORWARD
      = some (0, { karel := ⟨0, 1, WEST⟩, beeper := ⟨0, 1, -10⟩ }) := by
  decide

/-- C27 (amended). For every state in which Karel stands on the board and every
move, `update_karel_world` returns, the beeper is unchanged and Karel still
stands on the board. A forward move rejected by `is_move_valid` returns 0 and
leaves Karel where it is, also when that is the beeper's position. In every
other case the result is 1 if Karel's position after the call equals the
beeper's position and 0 otherwise. -/
theorem update_karel_world_result (w : World) (move : Int) (hb : OnBoard w) :
    ∃ r w1, update_karel_world w move = some (r, w1) ∧
      w1.beeper = w.beeper ∧ OnBoard w1 ∧
      (Rejected w move → r = 0 ∧ w1 = w) ∧
      (r = 1 ↔ ¬ Rejected w move ∧ w1.karel.x = w1.beeper.x ∧ w1.karel.y = w1.beeper.y) ∧
      (r = 0 ∨ r = 1) :=
  update_karel_world_spec w move hb

/-- C27 (amended) at the start of the game: the first forward move is accepted. -/
theorem update_karel_world_result_witness :
    OnBoard (karel_world_init initial_world) ∧
    ∃ r w1, update_karel_world (karel_world_init initial_world) MOVE_FORWARD = some (r, w1) ∧
      w1.beeper = (karel_world_init initial_world).beeper ∧ OnBoard w1 ∧
      (Rejected (karel_world_init initial_world) MOVE_FORWARD →
        r = 0 ∧ w1 = karel_world_init initial_world) ∧
      (r = 1 ↔ ¬ Rejected (karel_world_init initial_world) MOVE_FORWARD ∧
        w1.karel.x = w1.beeper.x ∧ w1.karel.y = w1.beeper.y) ∧
      (r = 0 ∨ r = 1) :=
  ⟨by decide, update_karel_world_result (karel_world_init initial_world) MOVE_FORWARD (by decide)⟩

/-! ## Karel stays on the board -/

theorem is_move_valid_iff (karel : pos_t) (x y : Int)
    (hk : ∃ c, board_at karel.y karel.x = some c) :
    is_move_valid karel x y = some true ↔ InBounds x y ∧ ¬ WallBetween karel x y := by
  have hlen : ((strlen (board.headD "") : Nat) : Int) = 10 := by decide
  have hrows : ((NUM_ROWS : Nat) : Int) = 10 := by decide
  obtain ⟨k, hk⟩ := hk
  unfold is_move_valid InBounds WallBetween
  rw [hlen, hrows, hk]
  by_cases hin : x ≥ 0 ∧ x < 10 ∧ y ≥ 0 ∧ y < 10
  · rw [if_neg (not_not.2 hin)]
    obtain ⟨c, hc⟩ := board_at_some y x hin.2.2.1 hin.2.2.2 hin.1 hin.2.1
    rw [hc]
    dsimp only
    have hin2 : 0 ≤ x ∧ x < 10 ∧ 0 ≤ y ∧ y < 10 := ⟨hin.1, hin.2.1, hin.2.2.1, hin.2.2.2⟩
    simp only [Option.some.injEq, hin2, true_and]
    split
    · next h1 => simp [h1]
    · next h1 =>
      split
      · next h2 => simp [h2]
      · next h2 =>
        split
        · next h3 => simp [h3]
        · next h3 =>
          split
          · next h4 => simp [h4]
          · next h4 =>
            simp only [true_iff]
            rintro (h | h | h | h)
            · exact h1 ⟨h.2, h.1⟩
            · exact h2 ⟨h.2, h.1⟩
            · exact h3 ⟨h.2, h.1⟩
            · exact h4 ⟨h.2, h.1⟩
  · rw [if_pos hin]
    constructor
    · intro h
      exact absurd h (by simp)
    · intro h
      exact absurd ⟨h.1.1, h.1.2.1, h.1.2.2.1, h.1.2.2.2⟩ hin

theorem step_forward_dir (karel : pos_t) : (step_forward karel).dir = karel.dir := by
  unfold step_forward
  split
  · rfl
  · split
    · rfl
    · split
      · rfl
      · split <;> rfl

theorem turn_left_dir (d : Int) (h : d = EAST ∨ d = NORTH ∨ d = WEST ∨ d = SOUTH) :
    Int.tmod (wrap_int (d + 1)) 4 = EAST ∨ Int.tmod (wrap_int (d + 1)) 4 = NORTH ∨
      Int.tmod (wrap_int (d + 1)) 4 = WEST ∨ Int.tmod (wrap_int (d + 1)) 4 = SOUTH := by
  rcases h with h | h | h | h <;> subst h <;> decide

theorem update_karel_world_step (w : World) (move : Int) (hb : OnBoard w) (hd : DirOk w) :
    ∃ r w1, update_karel_world w move = some (r, w1) ∧ OnBoard w1 ∧ DirOk w1 ∧
      (Rejected w move → w1 = w) ∧
      (w1.karel.x ≠ w.karel.x ∨ w1.karel.y ≠ w.karel.y →
        move = MOVE_FORWARD ∧ w1.karel = step_forward w.karel ∧
        is_move_valid w.karel w1.karel.x w1.karel.y = some true) := by
  obtain ⟨hx0, hx, hy0, hy⟩ := hb
  have hk := board_at_some w.karel.y w.karel.x hy0 hy hx0 hx
  by_cases hm : move = MOVE_FORWARD
  · obtain ⟨b, hv, hbounds⟩ :=
      is_move_valid_some w.karel (step_forward w.karel).x (step_forward w.karel).y hk
    cases b with
    | false =>
      refine ⟨0, w, ?_, ⟨hx0, hx, hy0, hy⟩, hd, fun _ => rfl, fun h => ?_⟩
      · unfold update_karel_world
        rw [if_pos hm]
        dsimp only
        rw [hv]
      · rcases h with h | h <;> exact absurd rfl h
    | true =>
      obtain ⟨r, h1, -, -⟩ := check_game_over_spec { w with karel := step_forward w.karel }
      have hupd : update_karel_world w move
          = some (r, { w with karel := step_forward w.karel }) := by
        unfold update_karel_world
        rw [if_pos hm]
        dsimp only
        rw [hv]
        dsimp only
        rw [h1]
      refine ⟨r, _, hupd, hbounds rfl, ?_, fun h => ?_, fun _ => ⟨hm, rfl, hv⟩⟩
      · show (step_forward w.karel).dir = EAST ∨ _
        rw [step_forward_dir]
        exact hd
      · have := h.2
        rw [hv] at this
        exact absurd this (by simp)
  · have hnrej : ¬ Rejected w move := fun h => hm h.1
    by_cases ht : move = TURN_LEFT
    · obtain ⟨r, h1, -, -⟩ := check_game_over_spec
        { w with karel := { w.karel with dir := Int.tmod (wrap_int (w.karel.dir + 1)) 4 } }
      have hupd : update_karel_world w move = some (r,
          { w with karel := { w.karel with dir := Int.tmod (wrap_int (w.karel.dir + 1)) 4 } }) := by
        unfold update_karel_world
        rw [if_neg hm, if_pos ht, h1]
      refine ⟨r, _, hupd, ⟨hx0, hx, hy0, hy⟩, turn_left_dir _ hd, fun h => absurd h hnrej,
        fun h => ?_⟩
      rcases h with h | h <;> exact absurd rfl h
    · obtain ⟨r, h1, -, -⟩ := check_game_over_spec w
      have hupd : update_karel_world w move = some (r, w) := by
        unfold update_karel_world
        rw [if_neg hm, if_neg ht, h1]
      refine ⟨r, _, hupd, ⟨hx0, hx, hy0, hy⟩, hd, fun _ => rfl, fun h => ?_⟩
      rcases h with h | h <;> exact absurd rfl h

theorem play_on_board :
    ∀ (moves : List Int) (w : World), OnBoard w → DirOk w →
      ∃ rs w1, play w moves = some (rs, w1) ∧ rs.length = moves.length ∧ OnBoard w1 ∧ DirOk w1
  | [], w, hb, hd => ⟨[], w, rfl, rfl, hb, hd⟩
  | mv :: mvs, w, hb, hd => by
    obtain ⟨r, w1, hu, hb1, hd1, -, -⟩ := update_karel_world_step w mv hb hd
    obtain ⟨rs, w2, hp, hl, hb2, hd2⟩ := play_on_board mvs w1 hb1 hd1
    exact ⟨r :: rs, w2, by simp [play, hu, hp], by simp [hl], hb2, hd2⟩

/-- C38. After `karel_world_init` Karel is at `(0, 9)` facing east. For every sequence
of moves all the calls of `update_karel_world` return, and afterwards Karel stands
on the board (`0 ≤ x < 10`, `0 ≤ y < 10`) with a direction in `{0, 1, 2, 3}`; every
prefix of a sequence being a sequence, this holds after each call. In every such
state: `is_move_valid` holds exactly when the destination is a cell of the board
and no wall separates the two cells; a call changes the position only by an
accepted forward step; a rejected move leaves position and direction unchanged. -/
theorem karel_stays_on_board :
    (karel_world_init initial_world).karel = ⟨0, 9, EAST⟩ ∧
    (∀ moves : List Int,
      ∃ rs w, play (karel_world_init initial_world) moves = some (rs, w) ∧
        rs.length = moves.length ∧
        (0 ≤ w.karel.x ∧ w.karel.x < 10 ∧ 0 ≤ w.karel.y ∧ w.karel.y < 10) ∧
        (w.karel.dir = 0 ∨ w.karel.dir = 1 ∨ w.karel.dir = 2 ∨ w.karel.dir = 3)) ∧
    (∀ (w : World) (move : Int), OnBoard w → DirOk w →
      (∀ x y, is_move_valid w.karel x y = some true ↔
        InBounds x y ∧ ¬ WallBetween w.karel x y) ∧
      ∃ r w1, update_karel_world w move = some (r, w1) ∧ OnBoard w1 ∧ DirOk w1 ∧
        (Rejected w move → w1 = w) ∧
        (w1.karel.x ≠ w.karel.x ∨ w1.karel.y ≠ w.karel.y →
          move = MOVE_FORWARD ∧ w1.karel = step_forward w.karel ∧
          InBounds w1.karel.x w1.karel.y ∧ ¬ WallBetween w.karel w1.karel.x w1.karel.y)) := by
  refine ⟨by decide, fun moves => ?_, fun w move hb hd => ?_⟩
  · obtain ⟨rs, w, hp, hl, hb, hd⟩ :=
      play_on_board moves (karel_world_init initial_world) (by decide) (by decide)
    rcases hd with h | h | h | h
    · exact ⟨rs, w, hp, hl, hb, Or.inl h⟩
    · exact ⟨rs, w, hp, hl, hb, Or.inr (Or.inl h)⟩
    · exact ⟨rs, w, hp, hl, hb, Or.inr (Or.inr (Or.inl h))⟩
    · exact ⟨rs, w, hp, hl, hb, Or.inr (Or.inr (Or.inr h))⟩
  · have hk := board_at_some w.karel.y w.karel.x hb.2.2.1 hb.2.2.2 hb.1 hb.2.1
    refine ⟨fun x y => is_move_valid_iff w.karel x y hk, ?_⟩
    obtain ⟨r, w1, hu, hb1, hd1, hrej, hmove⟩ := update_karel_world_step w move hb hd
    refine ⟨r, w1, hu, hb1, hd1, hrej, fun h => ?_⟩
    obtain ⟨h1, h2, h3⟩ := hmove h
    have := (is_move_valid_iff w.karel _ _ hk).1 h3
    exact ⟨h1, h2, this.1, this.2⟩

/-- C38 at the start of the game: a forward move east from `(0, 9)` is accepted, and
Karel stands on `(1, 9)` afterwards. -/
theorem karel_stays_on_board_witness :
    ∃ r w1, update_karel_world (karel_world_init initial_world) MOVE_FORWARD = some (r, w1) ∧
      OnBoard w1 ∧ DirOk w1 ∧
      (Rejected (karel_world_init initial_world) MOVE_FORWARD →
        w1 = karel_world_init initial_world) ∧
      (w1.karel.x ≠ (karel_world_init initial_world).karel.x ∨
          w1.karel.y ≠ (karel_world_init initial_world).karel.y →
        MOVE_FORWARD = MOVE_FORWARD ∧
        w1.karel = step_forward (karel_world_init initial_world).karel ∧
        InBounds w1.karel.x w1.karel.y ∧
        ¬ WallBetween (karel_world_init initial_world).karel w1.karel.x w1.karel.y) :=
  (karel_stays_on_board.2.2 (karel_world_init initial_world) MOVE_FORWARD (by decide)
    (by decide)).2

/-! ## The maze can be won -/

/-- C39. The shipped maze is winnable: 15 moves, each `MOVE_FORWARD` or `TURN_LEFT` and
none of them rejected by `is_move_valid`, take Karel from the state set by
`karel_world_init` (at `(0, 9)` facing east, beeper found at `(0, 1)`, where the
board holds `b`) to the beeper; the last call of `update_karel_world` returns 1,
all earlier ones 0. -/
theorem maze_is_winnable :
    (karel_world_init initial_world).karel = ⟨0, 9, EAST⟩ ∧
    board_at 1 0 = some BEEPER ∧
    ∃ moves rs w,
      (∀ mv ∈ moves, mv = MOVE_FORWARD ∨ mv = TURN_LEFT) ∧
      Accepted (karel_world_init initial_world) moves ∧
      play (karel_world_init initial_world) moves = some (rs, w) ∧
      rs = [0, 0, 0, 0, 0, 0, 0, 0, 0, 0, 0, 0, 0, 0, 1] ∧
      w.karel.x = 0 ∧ w.karel.y = 1 ∧ w.beeper.x = 0 ∧ w.beeper.y = 1 := by
  refine ⟨by decide, by decide, [0, 1, 0, 0, 0, 0, 0, 0, 0, 1, 0, 1, 1, 1, 0],
    [0, 0, 0, 0, 0, 0, 0, 0, 0, 0, 0, 0, 0, 0, 1],
    { karel := ⟨0, 1, NORTH⟩, beeper := ⟨0, 1, -10⟩ }, by decide, by decide, by decide, rfl,
    rfl, rfl, rfl, rfl⟩

end Karel

namespace Strings

/-! ## `strlcat` -/

theorem strlen_spec : ∀ (body rest : List Nat), (∀ c ∈ body, c ≠ 0) →
    strlen (body ++ 0 :: rest) = some body.length
  | [], _, _ => by simp [strlen]
  | c :: cs, rest, h => by
    have hc : c ≠ 0 := h c (List.mem_cons_self _ _)
    have ih := strlen_spec cs rest (fun x hx => h x (List.mem_cons_of_mem _ hx))
    simp [strlen, hc, ih]

theorem set_append_cons (pre : List Nat) (x v : Nat) (post : List Nat) :
    (pre ++ x :: post).set pre.length v = pre ++ v :: post := by
  induction pre with
  | nil => rfl
  | cons a as ih => simp [List.set, ih]

theorem memcpy_append : ∀ (n : Nat) (pre mid post src : List Nat) (soff : Nat),
    mid.length = n → soff + n ≤ src.length →
    memcpy n (pre ++ mid ++ post) pre.length src soff
      = some (pre ++ (src.drop soff).take n ++ post)
  | 0, pre, mid, post, src, soff, hm, _ => by
    have : mid = [] := List.length_eq_zero.1 hm
    subst this
    simp [memcpy]
  | n + 1, pre, mid, post, src, soff, hm, hs => by
    obtain ⟨x, mid1, rfl⟩ : ∃ x mid1, mid = x :: mid1 := by
      cases mid with
      | nil => simp at hm
      | cons x xs => exact ⟨x, xs, rfl⟩
    have hlt : soff < src.length := by omega
    have hget : src.get? soff = some (src.get ⟨soff, hlt⟩) := List.get?_eq_get hlt
    have hdrop : src.drop soff = src.get ⟨soff, hlt⟩ :: src.drop (soff + 1) :=
      List.drop_eq_getElem_cons hlt
    have hdl : pre.length < (pre ++ x :: mid1 ++ post).length := by
      simp
    have hset : (pre ++ x :: mid1 ++ post).set pre.length (src.get ⟨soff, hlt⟩)
        = (pre ++ [src.get ⟨soff, hlt⟩]) ++ mid1 ++ post := by
      have := set_append_cons pre x (src.get ⟨soff, hlt⟩) (mid1 ++ post)
      simp [this]
    have ih := memcpy_append n (pre ++ [src.get ⟨soff, hlt⟩]) mid1 post src (soff + 1)
      (by simpa using hm) (by omega)
    rw [memcpy, hget]
    dsimp only
    rw [if_pos hdl, hset]
    have hl : (pre ++ [src.get ⟨soff, hlt⟩]).length = pre.length + 1 := by simp
    rw [hl] at ih
    rw [ih, hdrop, List.take_succ_cons]
    simp only [List.append_assoc, List.singleton_append, List.cons_append, List.nil_append]

theorem strlcat_copy_spec (d0 rd s0 rs : List Nat) (n ret : Nat) (hn : n ≤ s0.length)
    (hcap : n ≤ rd.length) :
    strlcat_copy (d0 ++ 0 :: rd) (s0 ++ 0 :: rs) d0.length n (d0.length + n) ret
      = some (ret, d0 ++ s0.take n ++ 0 :: (0 :: rd).drop (n + 1)) := by
  have hlt : n < (0 :: rd).length := by
    simp
    omega
  have hsplit : d0 ++ 0 :: rd = d0 ++ (0 :: rd).take n ++ (0 :: rd).drop n := by
    rw [List.append_assoc, List.take_append_drop]
  have hcopy := memcpy_append n d0 ((0 :: rd).take n) ((0 :: rd).drop n) (s0 ++ 0 :: rs) 0
    (by rw [List.length_take]; omega) (by simp; omega)
  rw [← hsplit, List.drop_zero, List.take_append_of_le_length hn] at hcopy
  have hdrop : (0 :: rd).drop n = (0 :: rd)[n] :: (0 :: rd).drop (n + 1) :=
    List.drop_eq_getElem_cons hlt
  have hlen : (d0 ++ s0.take n).length = d0.length + n := by
    rw [List.length_append, List.length_take]
    omega
  have hset : (d0 ++ s0.take n ++ (0 :: rd).drop n).set (d0.length + n) 0
      = d0 ++ s0.take n ++ 0 :: (0 :: rd).drop (n + 1) := by
    rw [hdrop, ← hlen]
    exact set_append_cons _ _ _ _
  have hfin : d0.length + n < (d0 ++ s0.take n ++ (0 :: rd).drop n).length := by
    rw [List.length_append, hlen, List.length_drop]
    omega
  unfold strlcat_copy
  rw [hcopy]
  dsimp only
  rw [if_pos hfin, hset]

theorem strlcat_spec (d0 rd s0 rs : List Nat) (size : Nat) (hd0 : ∀ c ∈ d0, c ≠ 0)
    (hs0 : ∀ c ∈ s0, c ≠ 0) (hlen : d0.length + s0.length < 2147483648) (hsize : size < WORD) :
    (size ≤ d0.length →
      strlcat (d0 ++ 0 :: rd) (s0 ++ 0 :: rs) size = some (size + s0.length, d0 ++ 0 :: rd)) ∧
    (d0.length < size → size ≤ (d0 ++ 0 :: rd).length →
      strlcat (d0 ++ 0 :: rd) (s0 ++ 0 :: rs) size
        = some (d0.length + s0.length,
            d0 ++ s0.take (size - 1 - d0.length) ++
              0 :: (0 :: rd).drop (min s0.length (size - 1 - d0.length) + 1))) := by
  have hsl := strlen_spec s0 rs hs0
  have hdl := strlen_spec d0 rd hd0
  have hW : WORD = 4294967296 := rfl
  have e1 : d0.length % WORD = d0.length := Nat.mod_eq_of_lt (by rw [hW]; omega)
  have e2 : (s0.length + d0.length) % WORD = s0.length + d0.length :=
    Nat.mod_eq_of_lt (by rw [hW]; omega)
  have e3 : (d0.length + s0.length) % WORD = d0.length + s0.length :=
    Nat.mod_eq_of_lt (by rw [hW]; omega)
  constructor
  · intro hge
    have e4 : (size + s0.length) % WORD = size + s0.length :=
      Nat.mod_eq_of_lt (by rw [hW]; omega)
    unfold strlcat
    rw [hsl, hdl]
    dsimp only
    rw [e1, if_pos hge, e4]
  · intro hlt hcap
    have hcap2 : size ≤ d0.length + (rd.length + 1) := by simpa using hcap
    have e5 : (size + WORD - 1) % WORD = size - 1 := by
      rw [hW] at hsize ⊢
      omega
    unfold strlcat
    rw [hsl, hdl]
    dsimp only
    rw [e1, if_neg (by omega), e2, e3, e5]
    by_cases hfit : s0.length + d0.length ≤ size - 1
    · rw [if_pos hfit]
      have h1 : s0.take (size - 1 - d0.length) = s0 := List.take_of_length_le (by omega)
      have h2 : min s0.length (size - 1 - d0.length) = s0.length := by omega
      have := strlcat_copy_spec d0 rd s0 rs s0.length (d0.length + s0.length) (le_refl _)
        (by omega)
      rw [List.take_length] at this
      rw [h1, h2, this]
    · rw [if_neg hfit]
      have e6 : (size + 2 * WORD - d0.length - 1) % WORD = size - 1 - d0.length := by
        rw [hW] at hsize ⊢
        omega
      have h2 : min s0.length (size - 1 - d0.length) = size - 1 - d0.length := by omega
      have h3 : size - 1 = d0.length + (size - 1 - d0.length) := by omega
      have := strlcat_copy_spec d0 rd s0 rs (size - 1 - d0.length) (d0.length + s0.length)
        (by omega) (by omega)
      rw [e6, h2]
      rw [← h3] at this
      exact this

/-- C35. `strlcat(dst, src, size)` for a `dst` holding the string `d0` (of length `d`)
and a `src` holding the string `s0` (of length `s`), with `d + s < 2^31` and
`size < 2^32`. It returns `min(d, size) + s`. When `d ≥ size` the array `dst` is
unchanged. When `d < size` (and the array has at least `size` elements) the array
afterwards holds the first `size - 1` characters of `d0 ++ s0` followed by `NUL`,
so it is the string of length `min(d + s, size - 1)`; the elements from the index
`size` on are unchanged. -/
theorem strlcat_result (d0 rd s0 rs : List Nat) (size : Nat) (hd0 : ∀ c ∈ d0, c ≠ 0)
    (hs0 : ∀ c ∈ s0, c ≠ 0) (hlen : d0.length + s0.length < 2147483648) (hsize : size < WORD) :
    (size ≤ d0.length →
      strlcat (d0 ++ 0 :: rd) (s0 ++ 0 :: rs) size
        = some (min d0.length size + s0.length, d0 ++ 0 :: rd)) ∧
    (d0.length < size → size ≤ (d0 ++ 0 :: rd).length →
      ∃ dst1, strlcat (d0 ++ 0 :: rd) (s0 ++ 0 :: rs) size
          = some (min d0.length size + s0.length, dst1) ∧
        dst1 = (d0 ++ s0).take (size - 1) ++
          0 :: (d0 ++ 0 :: rd).drop (min (d0.length + s0.length) (size - 1) + 1) ∧
        strlen dst1 = some (min (d0.length + s0.length) (size - 1)) ∧
        dst1.drop size = (d0 ++ 0 :: rd).drop size ∧
        dst1.length = (d0 ++ 0 :: rd).length) := by
  obtain ⟨hA, hB⟩ := strlcat_spec d0 rd s0 rs size hd0 hs0 hlen hsize
  constructor
  · intro hge
    rw [hA hge, Nat.min_eq_right hge]
  · intro hlt hcap
    have hcap2 : size ≤ d0.length + (rd.length + 1) := by simpa using hcap
    have e1 : d0 ++ s0.take (size - 1 - d0.length) = (d0 ++ s0).take (size - 1) := by
      rw [List.take_append_eq_append_take,
        List.take_of_length_le (show d0.length ≤ size - 1 by omega)]
    have e2 : (0 :: rd).drop (min s0.length (size - 1 - d0.length) + 1)
        = (d0 ++ 0 :: rd).drop (min (d0.length + s0.length) (size - 1) + 1) := by
      have : min (d0.length + s0.length) (size - 1) + 1
          = d0.length + (min s0.length (size - 1 - d0.length) + 1) := by omega
      rw [this, List.drop_append]
    have hbody : ∀ c ∈ (d0 ++ s0).take (size - 1), c ≠ 0 := by
      intro c hc
      rcases List.mem_append.1 (List.mem_of_mem_take hc) with h | h
      · exact hd0 c h
      · exact hs0 c h
    have hk : ((d0 ++ s0).take (size - 1)).length = min (d0.length + s0.length) (size - 1) := by
      rw [List.length_take, List.length_append]
      omega
    refine ⟨_, by rw [hB hlt hcap, Nat.min_eq_left (Nat.le_of_lt hlt), e1, e2], rfl, ?_, ?_, ?_⟩
    · rw [strlen_spec _ _ hbody, hk]
    · have hsz : size = ((d0 ++ s0).take (size - 1) ++ [0]).length
          + (size - (min (d0.length + s0.length) (size - 1) + 1)) := by
        rw [List.length_append, hk]
        simp
        omega
      have happ : (d0 ++ s0).take (size - 1) ++
          0 :: (d0 ++ 0 :: rd).drop (min (d0.length + s0.length) (size - 1) + 1)
          = ((d0 ++ s0).take (size - 1) ++ [0]) ++
            (d0 ++ 0 :: rd).drop (min (d0.length + s0.length) (size - 1) + 1) := by
        simp
      rw [happ]
      nth_rewrite 1 [hsz]
      rw [List.drop_append, List.drop_drop]
      congr 1
      omega
    · rw [List.length_append, hk, List.length_cons, List.length_drop, List.length_append,
        List.length_cons]
      omega

/-- C35 on examples: `"hi"` in an array of 8 bytes and `"abcdefg"` with `size = 6`
give `"hiabc"` and the result 9; with `size = 1` the array is unchanged. -/
theorem strlcat_result_witness :
    (strlcat ([104, 105] ++ 0 :: [7, 7, 7, 7, 7]) ([97, 98] ++ 0 :: []) 1
        = some (min [104, 105].length 1 + [97, 98].length, [104, 105] ++ 0 :: [7, 7, 7, 7, 7])) ∧
    (∃ dst1, strlcat ([104, 105] ++ 0 :: [7, 7, 7, 7, 7])
          ([97, 98, 99, 100, 101, 102, 103] ++ 0 :: []) 6
          = some (min [104, 105].length 6 + [97, 98, 99, 100, 101, 102, 103].length, dst1) ∧
        dst1 = [104, 105, 97, 98, 99, 0, 7, 7]) :=
  ⟨(strlcat_result [104, 105] [7, 7, 7, 7, 7] [97, 98] [] 1 (by decide) (by decide) (by decide)
      (by decide)).1 (by decide),
    by
      obtain ⟨dst1, h1, h2, -⟩ := (strlcat_result [104, 105] [7, 7, 7, 7, 7]
        [97, 98, 99, 100, 101, 102, 103] [] 6 (by decide) (by decide) (by decide)
        (by decide)).2 (by decide) (by decide)
      exact ⟨dst1, h1, h2.trans (by decide)⟩⟩

/-! ## `strtonum` -/

/-- The accumulation of the loop of `strtonum`, in 32-bit arithmetic. -/
theorem fold_mod (base : Nat) : ∀ (ds : List Nat) (a : Nat),
    ds.foldl (fun acc c => (base * acc + digit_value c) % WORD) (a % WORD)
      = (ds.foldl (fun acc c => acc * base + digit_value c) a) % WORD
  | [], _ => rfl
  | c :: cs, a => by
    have h : (base * (a % WORD) + digit_value c) % WORD
        = (a * base + digit_value c) % WORD := by
      rw [Nat.add_mod, Nat.mul_mod, Nat.mod_mod, ← Nat.mul_mod, ← Nat.add_mod, Nat.mul_comm]
    simp only [List.foldl_cons]
    rw [h]
    exact fold_mod base cs (a * base + digit_value c)

theorem strtonum_loop_step (base c : Nat) (cs : List Nat) (num pos : Nat)
    (hd : IsDigit base c) :
    strtonum_loop base (c :: cs) num pos
      = strtonum_loop base cs ((base * num + digit_value c) % WORD) (pos + 1) := by
  have hO1 : OFFSET_BASE10 = 48 := rfl
  have hO2 : OFFSET_BASE16_LOWER = 87 := rfl
  have hO3 : OFFSET_BASE16_UPPER = 55 := rfl
  have hc0 : c ≠ 0 := by
    rcases hd with h | ⟨-, h | h⟩ <;> omega
  rw [strtonum_loop, if_neg hc0]
  by_cases h1 : 48 ≤ c ∧ c ≤ 57
  · rw [if_pos h1, hO1]
    unfold digit_value
    rw [if_pos h1]
  · rw [if_neg h1]
    have h2 : base = 16 ∧ ((65 ≤ c ∧ c ≤ 70) ∨ (97 ≤ c ∧ c ≤ 102)) := by
      rcases hd with h | h
      · exact absurd h h1
      · exact h
    rw [if_pos h2]
    dsimp only
    unfold digit_value
    rw [if_neg h1]
    by_cases h3 : 97 ≤ c ∧ c ≤ 102
    · rw [if_pos h3, if_pos h3, hO2]
    · rw [if_neg h3, if_neg h3, hO3]

theorem strtonum_loop_stop (base c : Nat) (cs : List Nat) (num pos : Nat)
    (hd : c = 0 ∨ ¬ IsDigit base c) :
    strtonum_loop base (c :: cs) num pos = some (num, pos) := by
  rw [strtonum_loop]
  by_cases hc0 : c = 0
  · rw [if_pos hc0]
  · have hnd : ¬ IsDigit base c := hd.resolve_left hc0
    rw [if_neg hc0, if_neg (fun h => hnd (Or.inl h)), if_neg (fun h => hnd (Or.inr h))]

theorem strtonum_loop_spec (base : Nat) (rest : List Nat) :
    ∀ (body : List Nat) (num pos : Nat), (∀ c ∈ body, c ≠ 0) →
      strtonum_loop base (body ++ 0 :: rest) num pos
        = some ((body.takeWhile fun c => decide (IsDigit base c)).foldl
              (fun acc c => (base * acc + digit_value c) % WORD) num,
            pos + (body.takeWhile fun c => decide (IsDigit base c)).length)
  | [], num, pos, _ => strtonum_loop_stop base 0 rest num pos (Or.inl rfl)
  | c :: cs, num, pos, h => by
    by_cases hd : IsDigit base c
    · have ih := strtonum_loop_spec base rest cs ((base * num + digit_value c) % WORD) (pos + 1)
        (fun x hx => h x (List.mem_cons_of_mem _ hx))
      have htw : (c :: cs).takeWhile (fun c => decide (IsDigit base c))
          = c :: cs.takeWhile (fun c => decide (IsDigit base c)) := by
        rw [List.takeWhile_cons, if_pos (by simpa using hd)]
      rw [List.cons_append, strtonum_loop_step base c _ num pos hd, ih, htw]
      simp only [List.foldl_cons, List.length_cons]
      congr 2
      omega
    · have htw : (c :: cs).takeWhile (fun c => decide (IsDigit base c)) = [] := by
        rw [List.takeWhile_cons, if_neg (by simpa using hd)]
      rw [List.cons_append, strtonum_loop_stop base c _ num pos (Or.inr hd), htw]
      rfl

theorem strtonum_loop_value (base : Nat) (rest body : List Nat) (pos : Nat)
    (h : ∀ c ∈ body, c ≠ 0) :
    strtonum_loop base (body ++ 0 :: rest) 0 pos
      = some (value_of base (body.takeWhile fun c => decide (IsDigit base c)) % WORD,
          pos + (body.takeWhile fun c => decide (IsDigit base c)).length) := by
  rw [strtonum_loop_spec base rest body 0 pos h]
  have := fold_mod base (body.takeWhile fun c => decide (IsDigit base c)) 0
  rw [Nat.zero_mod] at this
  rw [this]
  rfl

theorem strtonum_eq_spec (body rest : List Nat) (h : ∀ c ∈ body, c ≠ 0) :
    strtonum (body ++ 0 :: rest) = some (strtonum_spec body) := by
  have hten := strtonum_loop_value 10 rest body 0 h
  rw [Nat.zero_add] at hten
  cases body with
  | nil =>
    have hs : strtonum_spec [] = (value_of 10 [] % WORD, 0) := by
      unfold strtonum_spec
      rw [if_neg (by simp)]
      rfl
    rw [hs]
    exact hten
  | cons c0 tl =>
    by_cases h0 : c0 = 48
    · subst h0
      cases tl with
      | nil =>
        have hs : strtonum_spec [48]
            = (value_of 10 ([48].takeWhile fun c => decide (IsDigit 10 c)) % WORD,
              ([48].takeWhile fun c => decide (IsDigit 10 c)).length) := by
          unfold strtonum_spec
          rw [if_neg (by simp)]
        rw [hs, ← hten]
        rfl
      | cons c1 tl1 =>
        by_cases h1 : c1 = 120
        · subst h1
          have hs : strtonum_spec (48 :: 120 :: tl1)
              = (value_of 16 (tl1.takeWhile fun c => decide (IsDigit 16 c)) % WORD,
                2 + (tl1.takeWhile fun c => decide (IsDigit 16 c)).length) := by
            unfold strtonum_spec
            rw [if_pos (by simp)]
            rfl
          have hx := strtonum_loop_value 16 rest tl1 2
            (fun x hx => h x (List.mem_cons_of_mem _ (List.mem_cons_of_mem _ hx)))
          rw [hs, ← hx]
          rfl
        · have hs : strtonum_spec (48 :: c1 :: tl1)
              = (value_of 10 ((48 :: c1 :: tl1).takeWhile fun c => decide (IsDigit 10 c)) % WORD,
                ((48 :: c1 :: tl1).takeWhile fun c => decide (IsDigit 10 c)).length) := by
            unfold strtonum_spec
            rw [if_neg (by simp [h1])]
          rw [hs, ← hten]
          simp only [strtonum, List.cons_append, if_neg h1, if_true]
    · have hs : strtonum_spec (c0 :: tl)
          = (value_of 10 ((c0 :: tl).takeWhile fun c => decide (IsDigit 10 c)) % WORD,
            ((c0 :: tl).takeWhile fun c => decide (IsDigit 10 c)).length) := by
        unfold strtonum_spec
        have : (c0 :: tl).take 2 ≠ [48, 120] := by
          cases tl with
          | nil => simp
          | cons a b => simp [h0]
        rw [if_neg this]
      rw [hs, ← hten]
      simp only [strtonum, List.cons_append, if_neg h0]

theorem get_after_takeWhile (base : Nat) : ∀ (l : List Nat) (c : Nat),
    (l ++ [0]).get? (l.takeWhile fun c => decide (IsDigit base c)).length = some c →
      c = 0 ∨ ¬ IsDigit base c
  | [], c, h => by
    simp at h
    exact Or.inl h.symm
  | a :: l, c, h => by
    by_cases hd : IsDigit base a
    · have htw : (a :: l).takeWhile (fun c => decide (IsDigit base c))
          = a :: l.takeWhile (fun c => decide (IsDigit base c)) := by
        rw [List.takeWhile_cons, if_pos (by simpa using hd)]
      rw [htw] at h
      exact get_after_takeWhile base l c (by simpa using h)
    · have htw : (a :: l).takeWhile (fun c => decide (IsDigit base c)) = [] := by
        rw [List.takeWhile_cons, if_neg (by simpa using hd)]
      rw [htw] at h
      simp at h
      rw [← h]
      exact Or.inr hd

theorem takeWhile_length_le (base : Nat) : ∀ (l : List Nat),
    (l.takeWhile fun c => decide (IsDigit base c)).length ≤ l.length
  | [] => Nat.le_refl _
  | a :: l => by
    rw [List.takeWhile_cons]
    by_cases hd : decide (IsDigit base a) = true
    · rw [if_pos hd, List.length_cons, List.length_cons]
      exact Nat.succ_le_succ (takeWhile_length_le base l)
    · rw [if_neg hd]
      exact Nat.zero_le _

theorem hex_head_split (body : List Nat) (h : body.take 2 = [48, 120]) :
    body = 48 :: 120 :: body.drop 2 := by
  have := List.take_append_drop 2 body
  rw [h] at this
  exact this.symm

/-- C36. `strtonum(str, &end)` on a `NUL`-terminated string `body`. If `body` starts
with `0x` the base is 16 and the digits are read after the prefix, otherwise the
base is 10. The result is the value, modulo `2^32`, of the longest prefix of valid
digits of that base (`0`-`9`, and `a`-`f` or `A`-`F` in base 16 only), and `end`
points at the first character not consumed, which is the terminating `NUL` or a
character that is not a digit of the base; a letter `a`-`f` is not a digit of
base 10. -/
theorem strtonum_parses (body rest : List Nat) (h : ∀ c ∈ body, c ≠ 0) :
    strtonum (body ++ 0 :: rest) = some (strtonum_spec body) ∧
    (strtonum_spec body).2 ≤ body.length ∧
    (∀ c, (body ++ [0]).get? (strtonum_spec body).2 = some c →
      c = 0 ∨ ¬ IsDigit (if body.take 2 = [48, 120] then 16 else 10) c) ∧
    (∀ c, 97 ≤ c → c ≤ 102 → ¬ IsDigit 10 c) := by
  refine ⟨strtonum_eq_spec body rest h, ?_, ?_, ?_⟩
  · unfold strtonum_spec
    by_cases hp : body.take 2 = [48, 120]
    · rw [if_pos hp]
      have h1 := takeWhile_length_le 16 (body.drop 2)
      have h2 : body.length = 2 + (body.drop 2).length := by
        nth_rewrite 1 [hex_head_split body hp]
        simp
        omega
      show 2 + _ ≤ body.length
      omega
    · rw [if_neg hp]
      exact takeWhile_length_le 10 body
  · intro c hc
    unfold strtonum_spec at hc
    by_cases hp : body.take 2 = [48, 120]
    · rw [if_pos hp] at hc ⊢
      have hb := hex_head_split body hp
      have hc2 : (48 :: 120 :: (body.drop 2 ++ [0])).get?
          (2 + ((body.drop 2).takeWhile fun c => decide (IsDigit 16 c)).length) = some c := by
        have : body ++ [0] = 48 :: 120 :: (body.drop 2 ++ [0]) := by
          nth_rewrite 1 [hb]
          rfl
        rw [← this]
        exact hc
      rw [Nat.add_comm] at hc2
      exact get_after_takeWhile 16 (body.drop 2) c hc2
    · rw [if_neg hp] at hc ⊢
      exact get_after_takeWhile 10 body c hc
  · intro c h1 h2 hd
    rcases hd with h | ⟨h, -⟩
    · omega
    · exact absurd h (by decide)

/-- C36 on examples: `"0x1fAg"` gives `0x1fA = 506` and stops at `g`; `"123a"` gives
123 and stops at `a`. -/
theorem strtonum_parses_witness :
    strtonum ([48, 120, 49, 102, 65, 103] ++ 0 :: []) = some (506, 5) ∧
    strtonum ([49, 50, 51, 97] ++ 0 :: []) = some (123, 3) :=
  ⟨((strtonum_parses [48, 120, 49, 102, 65, 103] [] (by decide)).1).trans (by decide),
    ((strtonum_parses [49, 50, 51, 97] [] (by decide)).1).trans (by decide)⟩

/-! ## `unsigned_to_base` and the round trip -/

theorem count_digits_spec (base : Nat) (hb : 2 ≤ base) :
    ∀ (fuel v nd : Nat), Nat.log base v < fuel →
      count_digits base fuel v nd = some (nd + (Nat.log base v + 1))
  | 0, _, _, h => by omega
  | fuel + 1, v, nd, h => by
    rw [count_digits, if_neg (by omega)]
    by_cases hv : v / base = 0
    · have hlt : v < base := by
        exact (Nat.div_eq_zero_iff (by omega)).1 hv
      rw [if_pos hv, Nat.log_of_lt hlt]
    · have hge : base ≤ v := by
        by_contra hlt
        exact hv (Nat.div_eq_of_lt (by omega))
      have hlog : Nat.log base v = Nat.log base (v / base) + 1 :=
        Nat.log_of_one_lt_of_le (by omega) hge
      rw [if_neg hv, count_digits_spec base hb fuel (v / base) (nd + 1) (by omega), hlog]
      congr 1
      omega

theorem log_lt_33 (base v : Nat) (hb : 2 ≤ base) (hv : v < WORD) : Nat.log base v < 33 := by
  have h1 : Nat.log base v ≤ Nat.log 2 v := Nat.log_anti_left (by omega) hb
  have h2 : Nat.log 2 v < 33 := by
    by_cases h0 : v = 0
    · subst h0
      simp
    · exact Nat.log_lt_of_lt_pow h0 (by unfold WORD at hv; omega)
  omega

theorem fill_digits_spec (base : Nat) (h2 : 2 ≤ base) (hb : base ≤ 16) :
    ∀ (i val : Nat) (pre post : List Nat), pre.length = i →
      fill_digits base i val (pre ++ post) = digits_msb base i val ++ post
  | 0, _, pre, post, h => by
    have : pre = [] := List.length_eq_zero.1 h
    subst this
    rfl
  | i + 1, val, pre, post, h => by
    obtain ⟨pre1, x, rfl⟩ : ∃ pre1 x, pre = pre1 ++ [x] := by
      rcases List.eq_nil_or_concat pre with h0 | ⟨l, b, h0⟩
      · rw [h0] at h
        simp at h
      · exact ⟨l, b, by rw [h0, List.concat_eq_append]⟩
    have hl : pre1.length = i := by simpa using h
    have hA1 : ASCII_BASE10 = 48 := rfl
    have hA2 : ASCII_BASE16_LOWER = 87 := rfl
    have hch : (val % base + (if val % base > 9 then ASCII_BASE16_LOWER else ASCII_BASE10)) % 256
        = digit_char (val % base) := by
      unfold digit_char
      have hm : val % base < base := Nat.mod_lt _ (by omega)
      by_cases h9 : val % base > 9
      · rw [if_pos h9, if_pos h9, hA2]
        omega
      · rw [if_neg h9, if_neg h9, hA1]
        omega
    have hset : (pre1 ++ [x] ++ post).set i (digit_char (val % base))
        = pre1 ++ digit_char (val % base) :: post := by
      rw [← hl]
      simp
    rw [fill_digits, hch, hset, fill_digits_spec base h2 hb i (val / base) pre1 _ hl, digits_msb]
    simp

theorem value_of_concat (base : Nat) (xs : List Nat) (c : Nat) :
    value_of base (xs ++ [c]) = value_of base xs * base + digit_value c := by
  unfold value_of
  rw [List.foldl_append]
  rfl

theorem digit_value_char (d : Nat) (hd : d < 16) : digit_value (digit_char d) = d := by
  unfold digit_value digit_char
  by_cases h9 : d > 9
  · rw [if_pos h9, if_neg (by omega), if_pos (by omega)]
    omega
  · rw [if_neg h9, if_pos (by omega)]
    omega

theorem value_of_digits (base : Nat) (h2 : 2 ≤ base) (hb : base ≤ 16) :
    ∀ (k v : Nat), value_of base (digits_msb base k v) = v % base ^ k
  | 0, v => by
    rw [pow_zero, Nat.mod_one]
    rfl
  | k + 1, v => by
    have hm : v % base < 16 := by
      have := Nat.mod_lt v (show 0 < base by omega)
      omega
    rw [digits_msb, value_of_concat, value_of_digits base h2 hb k (v / base),
      digit_value_char _ hm, pow_succ, Nat.mul_comm (base ^ k) base, Nat.mod_mul]
    rw [Nat.mul_comm, Nat.add_comm]

theorem digits_are_digits (base : Nat) (h2 : 2 ≤ base) (hb : base = 10 ∨ base = 16) :
    ∀ (k v : Nat), ∀ c ∈ digits_msb base k v, IsDigit base c ∧ c ≠ 0 ∧ c ≠ 120
  | 0, _, c, hc => by cases hc
  | k + 1, v, c, hc => by
    rw [digits_msb] at hc
    rcases List.mem_append.1 hc with h | h
    · exact digits_are_digits base h2 hb k (v / base) c h
    · simp only [List.mem_singleton] at h
      have hm : v % base < base := Nat.mod_lt v (by omega)
      subst h
      unfold digit_char IsDigit
      by_cases h9 : v % base > 9
      · rw [if_pos h9]
        have h16 : base = 16 := by
          rcases hb with h | h
          · omega
          · exact h
        exact ⟨Or.inr ⟨h16, Or.inr ⟨by omega, by omega⟩⟩, by omega, by omega⟩
      · rw [if_neg h9]
        exact ⟨Or.inl ⟨by omega, by omega⟩, by omega, by omega⟩

theorem digits_length (base : Nat) : ∀ (k v : Nat), (digits_msb base k v).length = k
  | 0, _ => rfl
  | k + 1, v => by
    rw [digits_msb, List.length_append, digits_length base k (v / base)]
    rfl

theorem takeWhile_all (base : Nat) (l : List Nat) (h : ∀ c ∈ l, IsDigit base c) :
    l.takeWhile (fun c => decide (IsDigit base c)) = l := by
  rw [List.takeWhile_eq_self_iff]
  intro c hc
  simpa using h c hc

theorem write_digits_spec (base : Nat) (hb : base = 10 ∨ base = 16) (b0 : Nat) (rd : List Nat)
    (bufsize val k : Nat) (hk : k < bufsize) (hlen : bufsize ≤ (b0 :: rd).length)
    (hsz : bufsize < 2147483648) :
    write_digits (b0 :: rd) bufsize val base k
      = some (k, digits_msb base k val ++ 0 :: rd.drop k) := by
  have h2 : 2 ≤ base := by omega
  have h16 : base ≤ 16 := by omega
  have htemp : fill_digits base k val (List.replicate (k + 1) 0)
      = digits_msb base k val ++ 0 :: [] := by
    rw [List.replicate_succ']
    exact fill_digits_spec base h2 h16 k val _ [0] (List.length_replicate _ _)
  have hdl := digits_length base k val
  have hs0 : ∀ c ∈ digits_msb base k val, c ≠ 0 := fun c hc =>
    (digits_are_digits base h2 hb k val c hc).2.1
  have hcat := (strlcat_spec [] rd (digits_msb base k val) [] bufsize
    (fun c hc => by cases hc) hs0 (by rw [hdl]; simp only [List.length_nil]; omega)
    (by unfold WORD; omega)).2 (by simp only [List.length_nil]; omega)
    (by simpa using hlen)
  rw [List.nil_append] at hcat
  have htake : (digits_msb base k val).take (bufsize - 1 - ([] : List Nat).length)
      = digits_msb base k val :=
    List.take_of_length_le (by rw [hdl]; simp only [List.length_nil]; omega)
  have hmin : min (digits_msb base k val).length (bufsize - 1 - ([] : List Nat).length) = k := by
    rw [hdl]
    simp only [List.length_nil]
    omega
  rw [htake, hmin, List.drop_succ_cons] at hcat
  unfold write_digits
  rw [if_pos (by simp), List.set_cons_zero, htemp, hcat]
  simp

theorem unsigned_to_base_spec (base : Nat) (hb : base = 10 ∨ base = 16) (fuel : Nat)
    (hf : 33 ≤ fuel) (buf : List Nat) (bufsize val min_width : Nat) (hv : val < WORD)
    (hk : max (num_digits_spec base val) min_width < bufsize) (hlen : bufsize ≤ buf.length)
    (hsz : bufsize < 2147483648) :
    unsigned_to_base fuel buf bufsize val base min_width
      = some (max (num_digits_spec base val) min_width,
          digits_msb base (max (num_digits_spec base val) min_width) val
            ++ 0 :: buf.drop (max (num_digits_spec base val) min_width + 1)) := by
  have h2 : 2 ≤ base := by omega
  have hlog := log_lt_33 base val h2 hv
  have hcount := count_digits_spec base h2 fuel val 0 (by omega)
  rw [Nat.zero_add] at hcount
  have hnum : (if min_width > Nat.log base val + 1 then min_width else Nat.log base val + 1)
      = max (num_digits_spec base val) min_width := by
    unfold num_digits_spec
    by_cases h : min_width > Nat.log base val + 1
    · rw [if_pos h]
      omega
    · rw [if_neg h]
      omega
  cases buf with
  | nil => simp at hlen; omega
  | cons b0 rd =>
    unfold unsigned_to_base
    rw [hcount]
    dsimp only
    rw [hnum, if_neg (by omega), write_digits_spec base hb b0 rd bufsize val _ hk hlen hsz,
      List.drop_succ_cons]

theorem lt_pow_digits (base val k : Nat) (h2 : 2 ≤ base) (hk : num_digits_spec base val ≤ k) :
    val < base ^ k :=
  lt_of_lt_of_le (Nat.lt_pow_succ_log_self (by omega) val)
    (Nat.pow_le_pow_right (by omega) hk)

theorem strtonum_digits_10 (k val : Nat) (rest : List Nat) (hv : val < WORD)
    (hk : num_digits_spec 10 val ≤ k) :
    strtonum (digits_msb 10 k val ++ 0 :: rest) = some (val, k) := by
  have hd := digits_are_digits 10 (by omega) (Or.inl rfl) k val
  rw [strtonum_eq_spec _ _ (fun c hc => (hd c hc).2.1)]
  have hno : ¬ (digits_msb 10 k val).take 2 = [48, 120] := by
    intro h
    have hm : (120 : Nat) ∈ (digits_msb 10 k val).take 2 := by
      rw [h]
      simp
    exact (hd 120 (List.mem_of_mem_take hm)).2.2 rfl
  unfold strtonum_spec
  rw [if_neg hno, takeWhile_all 10 _ (fun c hc => (hd c hc).1), digits_length,
    value_of_digits 10 (by omega) (by omega),
    Nat.mod_eq_of_lt (lt_pow_digits 10 val k (by omega) hk), Nat.mod_eq_of_lt hv]

theorem strtonum_digits_16 (k val : Nat) (rest : List Nat) (hv : val < WORD)
    (hk : num_digits_spec 16 val ≤ k) :
    strtonum (48 :: 120 :: (digits_msb 16 k val ++ 0 :: rest)) = some (val, 2 + k) := by
  have hd := digits_are_digits 16 (by omega) (Or.inr rfl) k val
  have hbody : ∀ c ∈ 48 :: 120 :: digits_msb 16 k val, c ≠ 0 := by
    intro c hc
    rcases List.mem_cons.1 hc with h | hc
    · omega
    · rcases List.mem_cons.1 hc with h | hc
      · omega
      · exact (hd c hc).2.1
  have := strtonum_eq_spec (48 :: 120 :: digits_msb 16 k val) rest hbody
  rw [List.cons_append, List.cons_append] at this
  rw [this]
  unfold strtonum_spec
  have ht : (48 :: 120 :: digits_msb 16 k val).take 2 = [48, 120] := rfl
  have hdr : (48 :: 120 :: digits_msb 16 k val).drop 2 = digits_msb 16 k val := rfl
  rw [if_pos ht, hdr, takeWhile_all 16 _ (fun c hc => (hd c hc).1), digits_length,
    value_of_digits 16 (by omega) (by omega),
    Nat.mod_eq_of_lt (lt_pow_digits 16 val k (by omega) hk), Nat.mod_eq_of_lt hv]

/-- C37: number/string round trip. For a value `v < 2^32`, any `min_width`, and a
buffer of at least `bufsize` bytes where `bufsize` (below `2^31`) exceeds
`max (number of digits of v) min_width`: `unsigned_to_base` returns (with 33 units
of fuel or more for its counting loop) that maximum; in base 10, `strtonum` on the
written string returns `v` with the end position on the terminating `NUL`; in
base 16, `strtonum` on `0x` followed by the written string returns `v`, the end
position being just after the digits. The number of digits `n` of `v` is the one
with `v < base^n` and, for `v ≠ 0`, `base^(n-1) ≤ v`. -/
theorem number_round_trip (v min_width bufsize fuel : Nat) (buf : List Nat) (hv : v < WORD)
    (hf : 33 ≤ fuel) (hlen : bufsize ≤ buf.length) (hsz : bufsize < 2147483648) :
    (max (num_digits_spec 10 v) min_width < bufsize →
      ∃ buf1, unsigned_to_base fuel buf bufsize v 10 min_width
          = some (max (num_digits_spec 10 v) min_width, buf1) ∧
        strtonum buf1 = some (v, max (num_digits_spec 10 v) min_width) ∧
        buf1.get? (max (num_digits_spec 10 v) min_width) = some 0 ∧
        buf1.length = buf.length) ∧
    (max (num_digits_spec 16 v) min_width < bufsize →
      ∃ buf2, unsigned_to_base fuel buf bufsize v 16 min_width
          = some (max (num_digits_spec 16 v) min_width, buf2) ∧
        strtonum (48 :: 120 :: buf2) = some (v, 2 + max (num_digits_spec 16 v) min_width) ∧
        buf2.length = buf.length) ∧
    (∀ base, 2 ≤ base → v < base ^ num_digits_spec base v ∧
      (v ≠ 0 → base ^ (num_digits_spec base v - 1) ≤ v)) := by
  refine ⟨fun hk => ?_, fun hk => ?_, fun base h2 => ⟨?_, fun h0 => ?_⟩⟩
  · refine ⟨_, unsigned_to_base_spec 10 (Or.inl rfl) fuel hf buf bufsize v min_width hv hk
      hlen hsz, strtonum_digits_10 _ v _ hv (le_max_left _ _), ?_, ?_⟩
    · rw [List.get?_eq_getElem?, List.getElem?_append_right (by rw [digits_length]), digits_length,
        Nat.sub_self]
      exact List.getElem?_cons_zero
    · rw [List.length_append, digits_length, List.length_cons, List.length_drop]
      omega
  · refine ⟨_, unsigned_to_base_spec 16 (Or.inr rfl) fuel hf buf bufsize v min_width hv hk
      hlen hsz, strtonum_digits_16 _ v _ hv (le_max_left _ _), ?_⟩
    rw [List.length_append, digits_length, List.length_cons, List.length_drop]
    omega
  · exact lt_pow_digits base v _ h2 (le_refl _)
  · unfold num_digits_spec
    rw [Nat.add_sub_cancel]
    exact Nat.pow_log_le_self base h0

theorem number_round_trip_witness :
    (unsigned_to_base 33 [7, 7, 7, 7, 7, 7, 7, 7] 8 255 10 5
        = some (5, [48, 48, 50, 53, 53, 0, 7, 7]) ∧
      strtonum [48, 48, 50, 53, 53, 0, 7, 7] = some (255, 5)) ∧
    (unsigned_to_base 33 [7, 7, 7, 7, 7, 7, 7, 7] 8 255 16 4
        = some (4, [48, 48, 102, 102, 0, 7, 7, 7]) ∧
      strtonum [48, 120, 48, 48, 102, 102, 0, 7, 7, 7] = some (255, 6)) ∧
    (∃ buf1, unsigned_to_base 33 [7, 7, 7, 7, 7, 7, 7, 7] 8 255 10 5
          = some (max (num_digits_spec 10 255) 5, buf1) ∧
        strtonum buf1 = some (255, max (num_digits_spec 10 255) 5) ∧
        buf1.get? (max (num_digits_spec 10 255) 5) = some 0 ∧
        buf1.length = [7, 7, 7, 7, 7, 7, 7, 7].length) := by
  have h := number_round_trip 255 5 8 33 [7, 7, 7, 7, 7, 7, 7, 7] (by unfold WORD; omega)
    (le_refl _) (by decide) (by omega)
  have hn : num_digits_spec 10 255 = 3 := by
    unfold num_digits_spec
    simp [Nat.log]
  refine ⟨⟨by decide, by decide⟩, ⟨by decide, by decide⟩, h.1 ?_⟩
  rw [hn]
  decide

end Strings

namespace Console

/-! ## The cursor of the console -/

end Console
